import Mathlib

/-!
Verification of the candidate-space engine of seedcat, a BIP-39 mnemonic
recovery front-end.  The Rust sources under `src/` are shallowly embedded:
machine integers become `Nat` (with explicit wrapping or saturation where the
source relies on it), vectors become `List`, fallible functions return
`Except` or `Option`, and mutable iterator structs become explicit state
records with step functions.
-/

namespace Seedcat

/-- `u64::MAX`. -/
def U64MAX : Nat := 2 ^ 64 - 1

/-- Rust `u64::saturating_mul`. -/
def satMul (a b : Nat) : Nat := min (a * b) U64MAX

/-- Rust `u64::saturating_add`. -/
def satAdd (a b : Nat) : Nat := min (a + b) U64MAX

/-! ## Dispatch planner: `hashcat.rs` -/

/-- `hashcat.rs::HashcatRunner`.  The rewritten seed and passphrase carried by
the `BinaryCharsets` variant are abstracted into type parameters. -/
inductive HashcatRunner (S P : Type) where
  | pureGpu : HashcatRunner S P
  | binaryCharsets : S → P → HashcatRunner S P
  | stdinMaxHashes : HashcatRunner S P
  | stdinMinPassphrases : HashcatRunner S P

/-- `hashcat.rs::HashcatMode`: the chosen runner plus the passphrase and hash
counts used for engine tuning. -/
structure HashcatMode (S P : Type) where
  runner : HashcatRunner S P
  passphrases : Nat
  hashes : Nat

/-- The collaborator values `Hashcat::get_mode` consumes: the outcome of
`Seed::binary_charsets` (an `Err` when a binary charset file is missing, else
optionally the rewritten seed and passphrase), the totals of the various
spaces, and the two policy thresholds. -/
structure HashcatCfg (S P : Type) where
  binaryCharsets : Except Unit (Option (S × P))
  passTotal : P → Nat
  seedTotalArgs : S → Nat
  derivationArgsLen : Nat
  passphraseTotal : Option Nat
  validSeeds : Nat
  totalArgs : Nat
  maxHashes : Nat
  minPassphrases : Nat

/-- `hashcat.rs::Hashcat::get_mode` (lines 139-169), with the values obtained
from the seed, passphrase and derivation collaborators read off the
configuration record. -/
def getMode {S P : Type} (h : HashcatCfg S P) : Except Unit (HashcatMode S P) := do
  let totalDerivations := h.derivationArgsLen
  let bc ← h.binaryCharsets
  if let some (seed, passphrase) := bc then
    if h.passTotal passphrase > h.minPassphrases then
      return ⟨HashcatRunner.binaryCharsets seed passphrase, h.passTotal passphrase,
        h.seedTotalArgs seed * totalDerivations⟩
  let derivations := h.derivationArgsLen
  let passphrases := match h.passphraseTotal with
    | none => 0
    | some t => t
  let gpuHashes := h.validSeeds * derivations
  let stdinHashes := h.totalArgs * derivations
  if gpuHashes > h.maxHashes then
    return ⟨HashcatRunner.stdinMaxHashes, 0, stdinHashes⟩
  if passphrases < h.minPassphrases then
    return ⟨HashcatRunner.stdinMinPassphrases, 0, stdinHashes⟩
  return ⟨HashcatRunner.pureGpu, passphrases, gpuHashes⟩

/-- The runner chosen by `get_mode`, when it does not error. -/
def getModeRunner {S P : Type} (h : HashcatCfg S P) : Except Unit (HashcatRunner S P) :=
  (getMode h).map HashcatMode.runner

/-- C3: for every configuration whose binary-charset augmentation call does not
error, `get_mode` selects the runner in this exact order: `BinaryCharsets` when
augmentation succeeds and the augmented passphrase total strictly exceeds
`min_passphrases`; otherwise `StdinMaxHashes` when `valid_seeds` times the
number of derivation args strictly exceeds `max_hashes`; otherwise
`StdinMinPassphrases` when the passphrase total (0 when no passphrase is given)
is strictly below `min_passphrases`; otherwise `PureGpu`. -/
theorem getMode_selection_order {S P : Type} (h : HashcatCfg S P)
    (bc : Option (S × P)) (hbc : h.binaryCharsets = .ok bc) :
    (∀ s p, bc = some (s, p) → h.passTotal p > h.minPassphrases →
      getModeRunner h = .ok (HashcatRunner.binaryCharsets s p)) ∧
    ((∀ s p, bc = some (s, p) → ¬ h.passTotal p > h.minPassphrases) →
      (h.validSeeds * h.derivationArgsLen > h.maxHashes →
        getModeRunner h = .ok HashcatRunner.stdinMaxHashes) ∧
      (¬ h.validSeeds * h.derivationArgsLen > h.maxHashes →
        ((match h.passphraseTotal with | none => 0 | some t => t) < h.minPassphrases →
          getModeRunner h = .ok HashcatRunner.stdinMinPassphrases) ∧
        (¬ (match h.passphraseTotal with | none => 0 | some t => t) < h.minPassphrases →
          getModeRunner h = .ok HashcatRunner.pureGpu))) := by
  unfold getModeRunner getMode
  rw [hbc]
  refine ⟨?_, ?_⟩
  · rintro s p rfl hgt
    simp [Bind.bind, Except.bind, Except.map, Pure.pure, Except.pure, hgt]
  · intro hnone
    match hbcv : bc with
    | none =>
      refine ⟨fun hgpu => by simp [Bind.bind, Except.bind, Except.map, Pure.pure, Except.pure, hgpu], fun hgpu => ⟨fun hpp => by simp [Bind.bind, Except.bind, Except.map, Pure.pure, Except.pure, hgpu, hpp],
        fun hpp => by simp [Bind.bind, Except.bind, Except.map, Pure.pure, Except.pure, hgpu, hpp]⟩⟩
    | some (s, p) =>
      have hle := hnone s p rfl
      refine ⟨fun hgpu => by simp [Bind.bind, Except.bind, Except.map, Pure.pure, Except.pure, hle, hgpu], fun hgpu => ⟨fun hpp => by simp [Bind.bind, Except.bind, Except.map, Pure.pure, Except.pure, hle, hgpu, hpp],
        fun hpp => by simp [Bind.bind, Except.bind, Except.map, Pure.pure, Except.pure, hle, hgpu, hpp]⟩⟩

/-- Witness for `getMode_selection_order` at a concrete configuration: a
config with no passphrase, one derivation arg, `valid_seeds = 5`,
`max_hashes = 3` (so `StdinMaxHashes` fires). -/
theorem getMode_selection_order_witness :
    getModeRunner
      (⟨Except.ok none, fun _ => 0, fun _ => 0, 1, none, 5, 7, 3, 10⟩ : HashcatCfg Unit Unit) =
      .ok HashcatRunner.stdinMaxHashes := by
  have := (getMode_selection_order
    (⟨Except.ok none, fun _ => 0, fun _ => 0, 1, none, 5, 7, 3, 10⟩ : HashcatCfg Unit Unit)
    none rfl).2
  exact (this (by intro s p hsp; cases hsp)).1 (by decide)


/-! ## Strings

Rust `&str` values are modelled as `List Char` (`Str`), with structural
splitting/prefix/suffix operations mirroring the `str` methods the sources
use, so that every parser in the embedding evaluates inside the kernel. -/

/-- Rust `&str`, modelled as its character list. -/
abbrev Str : Type := List Char

/-- Shorthand turning a Lean string literal into the embedded string type. -/
def str (s : String) : Str := s.data

/-- Rust `str::split` with a single-character pattern (also the semantics of
`String::splitOn`): the empty string yields one empty piece, and separators at
the ends yield empty pieces. -/
def splitSep (sep : Char) : Str → List Str
  | [] => [[]]
  | c :: rest =>
    match splitSep sep rest with
    | [] => [[]]
    | grp :: rs => if c = sep then [] :: grp :: rs else (c :: grp) :: rs

/-- Rust `char::is_ascii_digit` used by `str::parse::<u32>`. -/
def isDigitChar (c : Char) : Bool := '0' ≤ c && c ≤ '9'

/-- Decimal digit list to number, most significant first. -/
def digitsToNat (s : Str) : Nat :=
  s.foldl (fun acc c => acc * 10 + (c.toNat - '0'.toNat)) 0

/-- Rust `str::parse::<u32>` restricted to plain decimal digit strings: fails
on the empty string, on any non-digit, and on `u32` overflow. -/
def parseU32 (s : Str) : Option Nat :=
  if s.isEmpty then none
  else if s.all isDigitChar then
    let n := digitsToNat s
    if n ≤ 4294967295 then some n else none
  else none

/-- Rust `format!("{}", n)` for an unsigned integer: decimal digits. -/
def natStr (n : Nat) : Str := Nat.toDigits 10 n

/-! ## Lexicographic k-permutations: `permutations.rs` -/

/-- `permutations.rs::FACTORIAL`: precomputed factorials of `0..=20`. -/
def FACTORIAL : List Nat :=
  [1, 1, 2, 6, 24, 120, 720, 5040, 40320, 362880, 3628800, 39916800, 479001600,
    6227020800, 87178291200, 1307674368000, 20922789888000, 355687428096000,
    6402373705728000, 121645100408832000, 2432902008176640000]

/-- `FACTORIAL[i]` (the source indexes the table directly; out-of-range access
is a panic there and an arbitrary `0` here). -/
def FACT (i : Nat) : Nat := FACTORIAL.getD i 0

/-- `permutations.rs::n_permute_k`: the falling factorial `n·(n-1)···(n-k+1)`
accumulated with `saturating_mul`. -/
def n_permute_k (n k : Nat) : Nat :=
  (List.range' (n - k + 1) k).foldl (fun acc i => satMul acc i) 1

/-- `permutations.rs::n_choose_k`. -/
def n_choose_k (n k : Nat) : Nat :=
  if k > n then 0
  else if n ≤ 20 then FACT n / FACT k / FACT (n - k)
  else
    let e := min k (n - k)
    (List.range' 1 e).foldl (fun acc val => acc * (n - val + 1) / val) 1

/-- The inner `while` of `permutations.rs::indexed_combination`, advancing
`cs` while `r` exceeds the block size `C(n-cs, k-s)`; the loop advances `cs`
at most `n` times on valid inputs, which the fuel argument makes explicit. -/
def icWhile (n k s : Nat) : Nat → Nat → Nat → Nat × Nat
  | 0, r, cs => (r, cs)
  | fuel + 1, r, cs =>
    if r > n_choose_k (n - cs) (k - s) then
      icWhile n k s fuel (r - n_choose_k (n - cs) (k - s)) (cs + 1)
    else (r, cs)

/-- The outer `for s in 1..k+1` of `indexed_combination`, with `scnt` counting
the remaining steps. -/
def icFor (n k : Nat) : Nat → Nat → Nat → Nat → List Nat
  | 0, _, _, _ => []
  | scnt + 1, s, r, j =>
    let (r', cs) := icWhile n k s (n + 1) r (j + 1)
    (cs - 1) :: icFor n k scnt (s + 1) r' cs

/-- `permutations.rs::indexed_combination`: the `i`-th k-subset of `0..n` in
the combinatorial number system.  The source's two asserts (`n ≥ k` and
`i < C(n,k)`) hold at every call site we reason about. -/
def indexed_combination (i n k : Nat) : List Nat :=
  icFor n k k 1 (i + 1) 0

/-- Stable ascending insertion, embedding Rust slice `sort`. -/
def insertSorted {T : Type} [LinearOrder T] (a : T) : List T → List T
  | [] => [a]
  | b :: rest => if a ≤ b then a :: b :: rest else b :: insertSorted a rest

/-- Rust `Vec::sort` (ascending). -/
def sortList {T : Type} [LinearOrder T] : List T → List T
  | [] => []
  | a :: rest => insertSorted a (sortList rest)

/-- Index of the `(counter+1)`-th unused slot, as scanned by the inner loop of
`indexed_permutation`. -/
def selectUnused : List Bool → Nat → Nat
  | [], _ => 0
  | false :: _, 0 => 0
  | false :: rest, c + 1 => selectUnused rest c + 1
  | true :: rest, c => selectUnused rest c + 1

/-- The placement loop of `permutations.rs::indexed_permutation`: at each step
take the factorial-digit of `index` and emit the corresponding unused element
of the sorted list; `cnt` counts the remaining positions. -/
def ipFor {T : Type} [Inhabited T] (sorted : List T) : List Bool → Nat → Nat → List T
  | _, _, 0 => []
  | used, index, cnt + 1 =>
    let counter := index % FACT (cnt + 1) / FACT cnt
    let slot := selectUnused used counter
    sorted.getD slot default :: ipFor sorted (used.set slot true) index cnt

/-- `permutations.rs::indexed_permutation`: the lexicographic permutation of
`list` at `index` (Lehmer decoding); sorts its input first, as the source
does.  The assert `index < FACTORIAL[size]` holds at our call sites. -/
def indexed_permutation {T : Type} [LinearOrder T] [Inhabited T]
    (index : Nat) (list : List T) : List T :=
  let sorted := sortList list
  ipFor sorted (List.replicate sorted.length false) index sorted.length

/-- Swap two positions of a list (Rust `slice::swap`). -/
def listSwap {T : Type} [Inhabited T] (l : List T) (i j : Nat) : List T :=
  (l.set i (l.getD j default)).set j (l.getD i default)

/-- The first (pivot) scan of `permutations.rs::next_permutation`: the largest
`i < len-1` with `l[i] < l[i+1]`. -/
def largestAscIndex {T : Type} [LinearOrder T] [Inhabited T] (l : List T) : Option Nat :=
  (List.range (l.length - 1)).reverse.find? fun i =>
    decide (l.getD i default < l.getD (i + 1) default)

/-- The second scan of `next_permutation`: the largest `i` with
`l[pivot] < l[i]`. -/
def largestGtIndex {T : Type} [LinearOrder T] [Inhabited T] (l : List T) (pivot : Nat) :
    Option Nat :=
  (List.range l.length).reverse.find? fun i =>
    decide (l.getD pivot default < l.getD i default)

/-- `permutations.rs::next_permutation`: pivot-and-reverse advance to the next
lexicographic permutation, returning the new list and whether an advance
happened (the list is returned unchanged at the final permutation). -/
def next_permutation {T : Type} [LinearOrder T] [Inhabited T] (l : List T) :
    List T × Bool :=
  match largestAscIndex l with
  | none => (l, false)
  | some li =>
    match largestGtIndex l li with
    | none => (l, false)
    | some li2 =>
      let l := listSwap l li li2
      (l.take (li + 1) ++ (l.drop (li + 1)).reverse, true)

/-- `permutations.rs::Permutations`: the iterator state.  `len` doubles as the
end ordinal for shards, exactly as in the source. -/
structure Permutations (T : Type) where
  elements : List T
  indices : List T
  combination_index : Nat
  permutation_index : Nat
  len : Nat
  k_permutations : Nat
  k : Nat
  index : Nat

/-- `Permutations::new_shard`. -/
def Permutations.new_shard {T : Type} (elements : List T) (k index len : Nat) :
    Permutations T :=
  let k_permutations := n_permute_k k k
  ⟨elements, [], index / k_permutations, index % k_permutations, len,
    k_permutations, k, index⟩

/-- `Permutations::new`. -/
def Permutations.new {T : Type} (elements : List T) (k : Nat) : Permutations T :=
  Permutations.new_shard elements k 0 (n_permute_k elements.length k)

/-- `Permutations::next_combo`: reseed `indices` from the indexed combination
and permutation at the current state. -/
def Permutations.next_combo {T : Type} [LinearOrder T] [Inhabited T]
    (p : Permutations T) : Permutations T :=
  let n := p.elements.length
  let idxs := indexed_combination p.combination_index n p.k
  let combo := idxs.map fun index => p.elements.getD index default
  ⟨p.elements, indexed_permutation p.permutation_index combo, p.combination_index,
    p.permutation_index, p.len, p.k_permutations, p.k, p.index⟩

/-- `Permutations::next_perm`: advance within the current combination via
`next_permutation`, or step to the next combination on wraparound. -/
def Permutations.next_perm {T : Type} [LinearOrder T] [Inhabited T]
    (p : Permutations T) : Permutations T :=
  if p.permutation_index = p.k_permutations - 1 then
    Permutations.next_combo
      ⟨p.elements, p.indices, p.combination_index + 1, 0, p.len, p.k_permutations,
        p.k, p.index⟩
  else
    ⟨p.elements, (next_permutation p.indices).1, p.combination_index,
      p.permutation_index + 1, p.len, p.k_permutations, p.k, p.index⟩

/-- `Permutations::next` as a state transformer: the yielded tuple (if any)
and the successor state. -/
def Permutations.next {T : Type} [LinearOrder T] [Inhabited T]
    (p : Permutations T) : Option (List T) × Permutations T :=
  if p.indices.isEmpty then
    let p := p.next_combo
    (some p.indices, p)
  else
    let p : Permutations T :=
      ⟨p.elements, p.indices, p.combination_index, p.permutation_index, p.len,
        p.k_permutations, p.k, p.index + 1⟩
    if p.index ≥ p.len then (none, p)
    else
      let p := p.next_perm
      (some p.indices, p)

/-- The `while index < len` loop of `Permutations::shard`; when
`shard_size = 0` the source loops forever, modelled by fuel exhaustion
returning `none`. -/
def Permutations.shardLoop {T : Type} (elements : List T) (k plen shard_size : Nat) :
    Nat → Nat → Option (List (Permutations T))
  | 0, index => if index < plen then none else some []
  | fuel + 1, index =>
    if index < plen then
      let len := min plen (index + shard_size)
      match Permutations.shardLoop elements k plen shard_size fuel (index + shard_size) with
      | none => none
      | some rest => some (Permutations.new_shard elements k index len :: rest)
    else some []

/-- `Permutations::shard`: split the ordinal range into `len/num`-sized
contiguous shards (`none` models the source's divergence when the shard size
is zero). -/
def Permutations.shard {T : Type} (p : Permutations T) (num : Nat) :
    Option (List (Permutations T)) :=
  let shard_size := p.len / num
  Permutations.shardLoop p.elements p.k p.len shard_size (p.len + 1) 0

/-- Iterate `Permutations::next` to exhaustion (or until the fuel runs out),
collecting the yielded tuples. -/
def Permutations.run {T : Type} [LinearOrder T] [Inhabited T]
    (p : Permutations T) : Nat → List (List T)
  | 0 => []
  | fuel + 1 =>
    match p.next with
    | (none, _) => []
    | (some t, p') => t :: p'.run fuel

/-! ## Cartesian/permuted combinations: `combination.rs` -/

/-- `combination.rs::Combinations`: the iterator state.  The `BTreeSet` of
permutable indices is modelled as a sorted duplicate-free list; `next_val` is
the source's `next` buffer. -/
structure Combinations (T : Type) where
  permute_indices : List Nat
  elements : List (List T)
  indices : List Nat
  next_val : List T
  position : Nat
  combinations : Nat
  permutations : Permutations Nat
  length : Nat
  permutation : List Nat

/-- `Combinations::new_shard`. -/
def Combinations.new_shard {T : Type} (elements : List (List T))
    (permutations : Permutations Nat) (permute_indices : List Nat) (length : Nat)
    (permutation : List Nat) : Combinations T :=
  ⟨permute_indices, elements, List.replicate elements.length 0, [], 0, 1,
    permutations, length, permutation⟩

/-- `Combinations::permute`: build the enumerator with a k-permutation layered
over `permute_indices` (`BTreeSet::from_iter` sorts and deduplicates them). -/
def Combinations.permute {T : Type} (elements : List (List T))
    (permute_indices : List Nat) (length : Nat) : Combinations T :=
  let permute_len := permute_indices.length - (elements.length - length)
  let permutations := Permutations.new permute_indices permute_len
  let (o, permutations) := permutations.next
  let permutation := o.getD []
  Combinations.new_shard elements permutations (sortList permute_indices).dedup
    length permutation

/-- `Combinations::new`: the pure cartesian product. -/
def Combinations.new {T : Type} (elements : List (List T)) : Combinations T :=
  Combinations.permute elements [] elements.length

/-- `Combinations::fixed_positions`: `some v` exactly at the non-permutable
positions whose choice set is the singleton `[v]`. -/
def Combinations.fixed_positions {T : Type} [Inhabited T] (c : Combinations T) :
    List (Option T) :=
  (List.range c.length).map fun i =>
    if ¬ c.permute_indices.contains i ∧ (c.elements.getD i []).length = 1 then
      some ((c.elements.getD i []).getD 0 default)
    else none

/-- `Combinations::permutations` (the count of outer permutations): the
falling factorial of the permutable-set size over the current permutation
length, accumulated with `saturating_mul`. -/
def Combinations.permutationsCount {T : Type} (c : Combinations T) : Nat :=
  let n := c.permute_indices.length
  let r := c.permutation.length
  (List.range' (n - r + 1) r).foldl (fun acc i => satMul acc i) 1

/-- `Combinations::next_index_rev`: position `index` resolves to itself, or to
the next permutation entry (scanning right-to-left) when permutable; returns
the resolved element index and the updated permutation cursor. -/
def Combinations.next_index_rev {T : Type} (c : Combinations T)
    (index permutation_index : Nat) : Nat × Nat :=
  if c.permute_indices.contains index then
    (c.permutation.getD (permutation_index - 1) 0, permutation_index - 1)
  else (index, permutation_index)

/-- `Combinations::combinations`: the product of the choice-set sizes selected
by the current permutation (walking positions right-to-left). -/
def Combinations.combinationsCount {T : Type} (c : Combinations T) : Nat :=
  ((List.range c.length).reverse.foldl
    (fun (st : Nat × Nat) i =>
      let (j, pi') := c.next_index_rev i st.1
      (pi', satMul st.2 ((c.elements.getD j []).length)))
    (c.permutation.length, 1)).2

/-- `Combinations::next_permute`: when the current block is exhausted, fetch
the next outer permutation and reset the odometer. -/
def Combinations.next_permute {T : Type} (c : Combinations T) : Combinations T :=
  if c.position = c.combinations ∧ c.permutations.len > 1 then
    match Permutations.next c.permutations with
    | (some permutation, perms) =>
      let c' : Combinations T :=
        ⟨c.permute_indices, c.elements, c.indices, c.next_val, c.position,
          c.combinations, perms, c.length, permutation⟩
      ⟨c'.permute_indices, c'.elements, List.replicate c'.elements.length 0,
        c'.next_val, 0, c'.combinationsCount, c'.permutations, c'.length,
        c'.permutation⟩
    | (none, perms) =>
      ⟨c.permute_indices, c.elements, c.indices, c.next_val, c.position,
        c.combinations, perms, c.length, c.permutation⟩
  else c

/-- The first-tuple construction of `Combinations::next` (`position == 1`):
collect `elements[j][0]` right-to-left, then reverse. -/
def Combinations.firstTuple {T : Type} [Inhabited T] (c : Combinations T) : List T :=
  ((List.range c.length).reverse.foldl
    (fun (st : Nat × List T) i =>
      let (j, pi') := c.next_index_rev i st.1
      (pi', st.2 ++ [(c.elements.getD j []).getD 0 default]))
    (c.permutation.length, [])).2.reverse

/-- The reverse-odometer loop of `Combinations::next` (`position ≥ 2`): scan
positions right-to-left, incrementing the first incrementable counter and
resetting the exhausted ones; stops at the `break` of the source. -/
def Combinations.odometer {T : Type} [Inhabited T] (c : Combinations T) :
    List Nat → Nat → List Nat → List T → List Nat × List T
  | [], _, indices, next_val => (indices, next_val)
  | i :: rest, pi, indices, next_val =>
    let (j, pi') := c.next_index_rev i pi
    if indices.getD j 0 < (c.elements.getD j []).length - 1 then
      let idx' := indices.getD j 0 + 1
      (indices.set j idx', next_val.set i ((c.elements.getD j []).getD idx' default))
    else
      Combinations.odometer c rest pi' (indices.set j 0)
        (next_val.set i ((c.elements.getD j []).getD 0 default))

/-- `Combinations::next` as a state transformer. -/
def Combinations.next {T : Type} [Inhabited T] (c : Combinations T) :
    Option (List T) × Combinations T :=
  if c.position ≥ c.combinations then (none, c)
  else
    let c : Combinations T :=
      ⟨c.permute_indices, c.elements, c.indices, c.next_val, c.position + 1,
        c.combinations, c.permutations, c.length, c.permutation⟩
    if c.position = 1 then
      let c : Combinations T :=
        ⟨c.permute_indices, c.elements, c.indices, c.firstTuple, c.position,
          c.combinations, c.permutations, c.length, c.permutation⟩
      let c : Combinations T :=
        ⟨c.permute_indices, c.elements, c.indices, c.next_val, c.position,
          c.combinationsCount, c.permutations, c.length, c.permutation⟩
      let c := c.next_permute
      (some c.next_val, c)
    else
      let (indices, next_val) :=
        c.odometer (List.range c.length).reverse c.permutation.length c.indices
          c.next_val
      let c : Combinations T :=
        ⟨c.permute_indices, c.elements, indices, next_val, c.position,
          c.combinations, c.permutations, c.length, c.permutation⟩
      let c := c.next_permute
      (some c.next_val, c)

/-- `Combinations::shard_index`: split every shard along position `index`,
one new shard per choice there. -/
def Combinations.shard_index {T : Type} (shards : List (Combinations T))
    (index : Nat) : List (Combinations T) :=
  shards.flatMap fun s =>
    (s.elements.getD index []).map fun choice =>
      Combinations.new_shard (s.elements.set index [choice]) s.permutations
        s.permute_indices s.length s.permutation

/-- The position-splitting loop of `Combinations::shard`: walk the
non-permutable positions, splitting until at least `num` shards exist. -/
def Combinations.shardPositions {T : Type} (c : Combinations T) :
    List (Combinations T) → List Nat → Nat → List (Combinations T)
  | shards, [], _ => shards
  | shards, i :: rest, num =>
    if ¬ c.permute_indices.contains i then
      let shards := Combinations.shard_index shards i
      if shards.length ≥ num then shards
      else Combinations.shardPositions c shards rest num
    else Combinations.shardPositions c shards rest num

/-- `Combinations::shard`: first split across outer permutations, then across
non-permutable positions until at least `num` shards exist (`none` propagates
the divergence of `Permutations::shard` with a zero shard size). -/
def Combinations.shard {T : Type} (c : Combinations T) (num : Nat) :
    Option (List (Combinations T)) :=
  let shards0 :=
    if c.permutations.len > 1 then
      (c.permutations.shard (min num c.permutations.len)).map fun perms =>
        perms.map fun perm =>
          let (o, perm) := perm.next
          Combinations.new_shard c.elements perm c.permute_indices c.length
            (o.getD [])
    else some [c]
  match shards0 with
  | none => none
  | some shards =>
    some (Combinations.shardPositions c shards (List.range c.elements.length) num)

/-- `Combinations::estimate_total`: the saturating product of the fixed
positions' sizes, times (when permutable positions exist) the sum of the
per-permutation products of the permuted sizes.  The source caps the walk at
`sample_size` permutations and then scales by an `f64` ratio; that scaling is
modelled by the corresponding rational rounded down, and is exercised by none
of the configurations the claims quantify over. -/
def Combinations.estimate_total {T : Type} (c : Combinations T)
    (sample_size : Nat) : Nat :=
  let total_combo := (List.range c.elements.length).foldl
    (fun acc i =>
      if c.permute_indices.contains i then acc
      else satMul acc ((c.elements.getD i []).length)) 1
  let sizes := ((List.range c.elements.length).filter
    (fun i => c.permute_indices.contains i)).map
      fun i => ((c.elements.getD i []).length)
  if sizes.length = 0 then total_combo
  else
    let num_permutations := c.permutationsCount
    let perms := Permutations.new sizes c.permutation.length
    let walk := perms.run (min num_permutations sample_size + 1)
    let total_perm := walk.foldl (fun acc next => satAdd acc next.prod) 0
    let total_perm :=
      if num_permutations ≤ sample_size then total_perm
      else total_perm * num_permutations / sample_size
    satMul total_perm total_combo

/-- `Combinations::total`. -/
def Combinations.total {T : Type} (c : Combinations T) : Nat :=
  c.estimate_total 10000000

/-- Iterate `Combinations::next` to exhaustion (or until the fuel runs out),
collecting the yielded tuples. -/
def Combinations.run {T : Type} [Inhabited T] (c : Combinations T) :
    Nat → List (List T)
  | 0 => []
  | fuel + 1 =>
    match c.next with
    | (none, _) => []
    | (some t, c') => t :: c'.run fuel

/-! ## Derivation paths: `address.rs` -/

/-- `address.rs::MAX_DERIVATIONS`. -/
def MAX_DERIVATIONS : Nat := 10

/-- `address.rs::AddressValid::extend_paths`: cartesian append of every node
onto every current path, nodes in the outer loop. -/
def extendPaths (current nodes : List Str) (delim : Str) : List Str :=
  nodes.flatMap fun node => current.map fun out => out ++ delim ++ node

/-- `address.rs::AddressValid::derivation_nodes`: one path element, either a
decimal index with optional `h`/`'` hardening suffix, or a `?N` wildcard
expanding to `0..=N`. -/
def derivationNodes (path : Str) : Except Unit (List Str) :=
  let hasSuffix := path.getLast? = some 'h' || path.getLast? = some '\''
  let suffix : Str := if hasSuffix then [path.getLast!] else []
  let p1 := if hasSuffix then path.dropLast else path
  let hasQ := path.head? = some '?'
  let node := if hasQ then p1.drop 1 else p1
  match parseU32 node with
  | some num =>
    if !hasQ then .ok [natStr num ++ suffix]
    else .ok ((List.range (num + 1)).map fun i => natStr i ++ suffix)
  | none => .error ()

/-- Loop body of `address.rs::AddressValid::derivation_paths`: walk the
`/`-separated elements, expanding `derivations` fully while `args` keeps the
literal element until the expansion exceeds `MAX_DERIVATIONS`. -/
def derivationPathsLoop (paths : List Str) (numArgs : Nat)
    (derivations args : List Str) : Except Unit (List Str × List Str) :=
  match paths with
  | [] => .ok (derivations, args)
  | path :: rest => do
    let nodes ← derivationNodes path
    let derivations := extendPaths derivations nodes (str "/")
    let args :=
      if numArgs + derivations.length > MAX_DERIVATIONS then
        extendPaths args nodes (str "/")
      else
        extendPaths args [path] (str "/")
    derivationPathsLoop rest numArgs derivations args

/-- `address.rs::AddressValid::derivation_paths` on the part of one path after
the leading `m/`. -/
def derivationPaths (derivation : Str) (numArgs : Nat) :
    Except Unit (List Str × List Str) :=
  derivationPathsLoop (splitSep '/' derivation) numArgs [str "m"] [str "m"]

/-- Loop body of `address.rs::AddressValid::derivation`: accumulate the full
expansion and the compact arg list over the path tokens. -/
def derivationLoop (split : List Str) (derivations args : List Str) :
    Except Unit (List Str × List Str) :=
  match split with
  | [] => .ok (derivations, args)
  | d :: rest =>
    if (str "m/").isPrefixOf d then do
      let (der, arg) ← derivationPaths (d.drop 2) derivations.length
      let derivations := derivations ++ der
      let args :=
        if derivations.length ≤ MAX_DERIVATIONS ∧ args.length > 0 then
          extendPaths args arg (str ",")
        else
          args ++ arg
      derivationLoop rest derivations args
    else
      .error ()

/-- `address.rs::AddressValid::derivation`: split the user argument (on `,`,
else `|`, else space; defaults from the address kind when absent) and run the
accumulation loop.  Returns `(derivations, args)`. -/
def derivation (kindDerivations : List Str) (arg : Option Str) :
    Except Unit (List Str × List Str) :=
  let split := match arg with
    | none => kindDerivations
    | some arg =>
      if arg.contains ',' then splitSep ',' arg
      else if arg.contains '|' then splitSep '|' arg
      else splitSep ' ' arg
  derivationLoop split [] []

/-- `address.rs::Derivations::hash_ratio`, with the `f64` division modelled as
exact rational division. -/
def hashRatio (derivations args : List Str) : ℚ :=
  (derivations.length : ℚ) / (args.length : ℚ)

/-- Every element list produced by `derivation_nodes` is nonempty. -/
theorem derivationNodes_ne_nil (path : Str) (nodes : List Str)
    (h : derivationNodes path = .ok nodes) : nodes ≠ [] := by
  unfold derivationNodes at h
  rcases hp : parseU32 (if path.head? = some '?' then
      (if path.getLast? = some 'h' || path.getLast? = some '\'' then path.dropLast
        else path).drop 1
    else if path.getLast? = some 'h' || path.getLast? = some '\'' then path.dropLast
      else path) with _ | num
  · simp only [hp] at h
    cases h
  · simp only [hp] at h
    by_cases hq : path.head? = some '?' <;> simp [hq] at h <;> subst h <;> simp [List.range_succ]

/-- `extend_paths` multiplies the path count by the node count. -/
theorem extendPaths_length (current nodes : List Str) (delim : Str) :
    (extendPaths current nodes delim).length = nodes.length * current.length := by
  induction nodes with
  | nil => simp [extendPaths]
  | cons n ns ih =>
    have hstep : extendPaths current (n :: ns) delim =
        current.map (fun out => out ++ delim ++ n) ++ extendPaths current ns delim := rfl
    rw [hstep, List.length_append, List.length_map, ih, List.length_cons]
    ring

/-- `extend_paths` of nonempty inputs is nonempty. -/
theorem extendPaths_ne_nil (current nodes : List Str) (delim : Str)
    (hc : current ≠ []) (hn : nodes ≠ []) : extendPaths current nodes delim ≠ [] := by
  intro hcon
  have := extendPaths_length current nodes delim
  rw [hcon] at this
  simp at this
  rcases this with h | h
  · exact hn h
  · exact hc h

/-- The `derivation_paths` loop preserves nonemptiness of both accumulators. -/
theorem derivationPathsLoop_ne_nil (paths : List Str) (numArgs : Nat)
    (derivations args der arg : List Str)
    (h : derivationPathsLoop paths numArgs derivations args = .ok (der, arg))
    (hd : derivations ≠ []) (ha : args ≠ []) : der ≠ [] ∧ arg ≠ [] := by
  induction paths generalizing derivations args with
  | nil =>
    unfold derivationPathsLoop at h
    cases h
    exact ⟨hd, ha⟩
  | cons p rest ih =>
    unfold derivationPathsLoop at h
    rcases hn : derivationNodes p with _ | nodes
    · rw [hn] at h
      cases h
    · rw [hn] at h
      simp only [Bind.bind, Except.bind] at h
      have hnodes := derivationNodes_ne_nil p nodes hn
      refine ih _ _ h ?_ ?_
      · exact extendPaths_ne_nil _ _ _ hd hnodes
      · by_cases hc : numArgs + (extendPaths derivations nodes (str "/")).length >
            MAX_DERIVATIONS
        · rw [if_pos hc]
          exact extendPaths_ne_nil _ _ _ ha hnodes
        · rw [if_neg hc]
          exact extendPaths_ne_nil _ _ _ ha (by simp)

/-- The outer `derivation` loop preserves and establishes nonemptiness. -/
theorem derivationLoop_ne_nil (split : List Str) (derivations args der arg : List Str)
    (h : derivationLoop split derivations args = .ok (der, arg))
    (hne : derivations ≠ [] ∧ args ≠ []) : der ≠ [] ∧ arg ≠ [] := by
  induction split generalizing derivations args with
  | nil =>
    unfold derivationLoop at h
    cases h
    exact hne
  | cons d rest ih =>
    unfold derivationLoop at h
    by_cases hm : (str "m/").isPrefixOf d
    · rw [if_pos hm] at h
      rcases hp : derivationPaths (d.drop 2) derivations.length with _ | ⟨dd, aa⟩
      · rw [hp] at h
        cases h
      · rw [hp] at h
        simp only [Bind.bind, Except.bind] at h
        have hddaa : dd ≠ [] ∧ aa ≠ [] := by
          refine derivationPathsLoop_ne_nil _ _ _ _ _ _ hp ?_ ?_ <;> simp [str]
        refine ih _ _ h ⟨?_, ?_⟩
        · simp [hne.1]
        · by_cases hc : (derivations ++ dd).length ≤ MAX_DERIVATIONS ∧ args.length > 0
          · rw [if_pos hc]
            exact extendPaths_ne_nil _ _ _ hne.2 hddaa.2
          · rw [if_neg hc]
            simp [hddaa.2]
    · rw [if_neg hm] at h
      cases h

/-- If the outer loop starts from empty accumulators and ends with a nonempty
full expansion, then at least one token was processed and the arg list is also
nonempty. -/
theorem derivationLoop_nonempty_of_der (split : List Str) (der arg : List Str)
    (h : derivationLoop split [] [] = .ok (der, arg))
    (hder : der ≠ []) : der ≠ [] ∧ arg ≠ [] := by
  cases split with
  | nil =>
    unfold derivationLoop at h
    cases h
    exact absurd rfl hder
  | cons d rest =>
    unfold derivationLoop at h
    by_cases hm : (str "m/").isPrefixOf d
    · rw [if_pos hm] at h
      rcases hp : derivationPaths (d.drop 2) ([] : List Str).length with _ | ⟨dd, aa⟩
      · rw [hp] at h
        cases h
      · rw [hp] at h
        simp only [Bind.bind, Except.bind] at h
        have hddaa : dd ≠ [] ∧ aa ≠ [] := by
          refine derivationPathsLoop_ne_nil _ _ _ _ _ _ hp ?_ ?_ <;> simp [str]
        rw [if_neg (by simp)] at h
        simp only [List.nil_append] at h
        exact derivationLoop_ne_nil rest _ _ _ _ h ⟨hddaa.1, hddaa.2⟩
    · rw [if_neg hm] at h
      cases h

/-- C6 counterexample: the claim that the compact arg list has cardinality at
most `MAX_DERIVATIONS = 10` fails on the derivation specification
`m/?9'/9/?9|m/0/0`, whose arg list has 11 entries (this input is exercised by
the repository's own `parses_derivations` test, which asserts the 11-element
arg list). -/
theorem derivation_args_can_exceed_max :
    (derivation [str "m/123"] (some (str "m/?9'/9/?9|m/0/0"))).map
        (fun p => p.2.length) = .ok 11 ∧ ¬ (11 : Nat) ≤ MAX_DERIVATIONS := by
  exact ⟨rfl, by decide⟩

/-- C6 amended: for every derivation specification accepted by the parser
(nonempty full expansion), the compact arg list is nonempty — but its
cardinality may exceed `MAX_DERIVATIONS` — and `hash_ratio()` equals the size
of the full expansion divided by the number of args. -/
theorem derivation_args_nonempty_and_hash_ratio (kindDerivations : List Str)
    (arg : Option Str) (der args : List Str)
    (h : derivation kindDerivations arg = .ok (der, args))
    (hder : der ≠ []) :
    args ≠ [] ∧ hashRatio der args = (der.length : ℚ) / (args.length : ℚ) := by
  unfold derivation at h
  refine ⟨?_, rfl⟩
  exact (derivationLoop_nonempty_of_der _ _ _ h hder).2

/-- Witness for `derivation_args_nonempty_and_hash_ratio` at the default
`P2WPKH` derivation list. -/
theorem derivation_args_nonempty_and_hash_ratio_witness :
    ([str "m/84'/0'/0'/0/0"] : List Str) ≠ [] ∧
      hashRatio [str "m/84'/0'/0'/0/0"] [str "m/84'/0'/0'/0/0"] =
        (([str "m/84'/0'/0'/0/0"] : List Str).length : ℚ) /
          (([str "m/84'/0'/0'/0/0"] : List Str).length : ℚ) :=
  derivation_args_nonempty_and_hash_ratio [str "m/123"] (some (str "m/84'/0'/0'/0/0"))
    [str "m/84'/0'/0'/0/0"] [str "m/84'/0'/0'/0/0"] rfl (by decide)

/-! ## Seed parsing: `seed.rs` -/

/-- The 2048-entry BIP-39 English word list from `seed.rs::BIP39_WORDS`. -/
def BIP39_WORDS : List Str :=
  ([
  "abandon", "ability", "able", "about", "above", "absent", "absorb", "abstract", "absurd", 
  "abuse", "access", "accident", "account", "accuse", "achieve", "acid", "acoustic", "acquire", 
  "across", "act", "action", "actor", "actress", "actual", "adapt", "add", "addict", "address", 
  "adjust", "admit", "adult", "advance", "advice", "aerobic", "affair", "afford", "afraid", 
  "again", "age", "agent", "agree", "ahead", "aim", "air", "airport", "aisle", "alarm", "album", 
  "alcohol", "alert", "alien", "all", "alley", "allow", "almost", "alone", "alpha", "already", 
  "also", "alter", "always", "amateur", "amazing", "among", "amount", "amused", "analyst", 
  "anchor", "ancient", "anger", "angle", "angry", "animal", "ankle", "announce", "annual", 
  "another", "answer", "antenna", "antique", "anxiety", "any", "apart", "apology", "appear", 
  "apple", "approve", "april", "arch", "arctic", "area", "arena", "argue", "arm", "armed", 
  "armor", "army", "around", "arrange", "arrest", "arrive", "arrow", "art", "artefact", "artist", 
  "artwork", "ask", "aspect", "assault", "asset", "assist", "assume", "asthma", "athlete", "atom", 
  "attack", "attend", "attitude", "attract", "auction", "audit", "august", "aunt", "author", 
  "auto", "autumn", "average", "avocado", "avoid", "awake", "aware", "away", "awesome", "awful", 
  "awkward", "axis", "baby", "bachelor", "bacon", "badge", "bag", "balance", "balcony", "ball", 
  "bamboo", "banana", "banner", "bar", "barely", "bargain", "barrel", "base", "basic", "basket", 
  "battle", "beach", "bean", "beauty", "because", "become", "beef", "before", "begin", "behave", 
  "behind", "believe", "below", "belt", "bench", "benefit", "best", "betray", "better", "between", 
  "beyond", "bicycle", "bid", "bike", "bind", "biology", "bird", "birth", "bitter", "black", 
  "blade", "blame", "blanket", "blast", "bleak", "bless", "blind", "blood", "blossom", "blouse", 
  "blue", "blur", "blush", "board", "boat", "body", "boil", "bomb", "bone", "bonus", "book", 
  "boost", "border", "boring", "borrow", "boss", "bottom", "bounce", "box", "boy", "bracket", 
  "brain", "brand", "brass", "brave", "bread", "breeze", "brick", "bridge", "brief", "bright", 
  "bring", "brisk", "broccoli", "broken", "bronze", "broom", "brother", "brown", "brush", 
  "bubble", "buddy", "budget", "buffalo", "build", "bulb", "bulk", "bullet", "bundle", "bunker", 
  "burden", "burger", "burst", "bus", "business", "busy", "butter", "buyer", "buzz", "cabbage", 
  "cabin", "cable", "cactus", "cage", "cake", "call", "calm", "camera", "camp", "can", "canal", 
  "cancel", "candy", "cannon", "canoe", "canvas", "canyon", "capable", "capital", "captain", 
  "car", "carbon", "card", "cargo", "carpet", "carry", "cart", "case", "cash", "casino", "castle", 
  "casual", "cat", "catalog", "catch", "category", "cattle", "caught", "cause", "caution", "cave", 
  "ceiling", "celery", "cement", "census", "century", "cereal", "certain", "chair", "chalk", 
  "champion", "change", "chaos", "chapter", "charge", "chase", "chat", "cheap", "check", "cheese", 
  "chef", "cherry", "chest", "chicken", "chief", "child", "chimney", "choice", "choose", 
  "chronic", "chuckle", "chunk", "churn", "cigar", "cinnamon", "circle", "citizen", "city", 
  "civil", "claim", "clap", "clarify", "claw", "clay", "clean", "clerk", "clever", "click", 
  "client", "cliff", "climb", "clinic", "clip", "clock", "clog", "close", "cloth", "cloud", 
  "clown", "club", "clump", "cluster", "clutch", "coach", "coast", "coconut", "code", "coffee", 
  "coil", "coin", "collect", "color", "column", "combine", "come", "comfort", "comic", "common", 
  "company", "concert", "conduct", "confirm", "congress", "connect", "consider", "control", 
  "convince", "cook", "cool", "copper", "copy", "coral", "core", "corn", "correct", "cost", 
  "cotton", "couch", "country", "couple", "course", "cousin", "cover", "coyote", "crack", 
  "cradle", "craft", "cram", "crane", "crash", "crater", "crawl", "crazy", "cream", "credit", 
  "creek", "crew", "cricket", "crime", "crisp", "critic", "crop", "cross", "crouch", "crowd", 
  "crucial", "cruel", "cruise", "crumble", "crunch", "crush", "cry", "crystal", "cube", "culture", 
  "cup", "cupboard", "curious", "current", "curtain", "curve", "cushion", "custom", "cute", 
  "cycle", "dad", "damage", "damp", "dance", "danger", "daring", "dash", "daughter", "dawn", 
  "day", "deal", "debate", "debris", "decade", "december", "decide", "decline", "decorate", 
  "decrease", "deer", "defense", "define", "defy", "degree", "delay", "deliver", "demand", 
  "demise", "denial", "dentist", "deny", "depart", "depend", "deposit", "depth", "deputy", 
  "derive", "describe", "desert", "design", "desk", "despair", "destroy", "detail", "detect", 
  "develop", "device", "devote", "diagram", "dial", "diamond", "diary", "dice", "diesel", "diet", 
  "differ", "digital", "dignity", "dilemma", "dinner", "dinosaur", "direct", "dirt", "disagree", 
  "discover", "disease", "dish", "dismiss", "disorder", "display", "distance", "divert", "divide", 
  "divorce", "dizzy", "doctor", "document", "dog", "doll", "dolphin", "domain", "donate", 
  "donkey", "donor", "door", "dose", "double", "dove", "draft", "dragon", "drama", "drastic", 
  "draw", "dream", "dress", "drift", "drill", "drink", "drip", "drive", "drop", "drum", "dry", 
  "duck", "dumb", "dune", "during", "dust", "dutch", "duty", "dwarf", "dynamic", "eager", "eagle", 
  "early", "earn", "earth", "easily", "east", "easy", "echo", "ecology", "economy", "edge", 
  "edit", "educate", "effort", "egg", "eight", "either", "elbow", "elder", "electric", "elegant", 
  "element", "elephant", "elevator", "elite", "else", "embark", "embody", "embrace", "emerge", 
  "emotion", "employ", "empower", "empty", "enable", "enact", "end", "endless", "endorse", 
  "enemy", "energy", "enforce", "engage", "engine", "enhance", "enjoy", "enlist", "enough", 
  "enrich", "enroll", "ensure", "enter", "entire", "entry", "envelope", "episode", "equal", 
  "equip", "era", "erase", "erode", "erosion", "error", "erupt", "escape", "essay", "essence", 
  "estate", "eternal", "ethics", "evidence", "evil", "evoke", "evolve", "exact", "example", 
  "excess", "exchange", "excite", "exclude", "excuse", "execute", "exercise", "exhaust", 
  "exhibit", "exile", "exist", "exit", "exotic", "expand", "expect", "expire", "explain", 
  "expose", "express", "extend", "extra", "eye", "eyebrow", "fabric", "face", "faculty", "fade", 
  "faint", "faith", "fall", "false", "fame", "family", "famous", "fan", "fancy", "fantasy", 
  "farm", "fashion", "fat", "fatal", "father", "fatigue", "fault", "favorite", "feature", 
  "february", "federal", "fee", "feed", "feel", "female", "fence", "festival", "fetch", "fever", 
  "few", "fiber", "fiction", "field", "figure", "file", "film", "filter", "final", "find", "fine", 
  "finger", "finish", "fire", "firm", "first", "fiscal", "fish", "fit", "fitness", "fix", "flag", 
  "flame", "flash", "flat", "flavor", "flee", "flight", "flip", "float", "flock", "floor", 
  "flower", "fluid", "flush", "fly", "foam", "focus", "fog", "foil", "fold", "follow", "food", 
  "foot", "force", "forest", "forget", "fork", "fortune", "forum", "forward", "fossil", "foster", 
  "found", "fox", "fragile", "frame", "frequent", "fresh", "friend", "fringe", "frog", "front", 
  "frost", "frown", "frozen", "fruit", "fuel", "fun", "funny", "furnace", "fury", "future", 
  "gadget", "gain", "galaxy", "gallery", "game", "gap", "garage", "garbage", "garden", "garlic", 
  "garment", "gas", "gasp", "gate", "gather", "gauge", "gaze", "general", "genius", "genre", 
  "gentle", "genuine", "gesture", "ghost", "giant", "gift", "giggle", "ginger", "giraffe", "girl", 
  "give", "glad", "glance", "glare", "glass", "glide", "glimpse", "globe", "gloom", "glory", 
  "glove", "glow", "glue", "goat", "goddess", "gold", "good", "goose", "gorilla", "gospel", 
  "gossip", "govern", "gown", "grab", "grace", "grain", "grant", "grape", "grass", "gravity", 
  "great", "green", "grid", "grief", "grit", "grocery", "group", "grow", "grunt", "guard", 
  "guess", "guide", "guilt", "guitar", "gun", "gym", "habit", "hair", "half", "hammer", "hamster", 
  "hand", "happy", "harbor", "hard", "harsh", "harvest", "hat", "have", "hawk", "hazard", "head", 
  "health", "heart", "heavy", "hedgehog", "height", "hello", "helmet", "help", "hen", "hero", 
  "hidden", "high", "hill", "hint", "hip", "hire", "history", "hobby", "hockey", "hold", "hole", 
  "holiday", "hollow", "home", "honey", "hood", "hope", "horn", "horror", "horse", "hospital", 
  "host", "hotel", "hour", "hover", "hub", "huge", "human", "humble", "humor", "hundred", 
  "hungry", "hunt", "hurdle", "hurry", "hurt", "husband", "hybrid", "ice", "icon", "idea", 
  "identify", "idle", "ignore", "ill", "illegal", "illness", "image", "imitate", "immense", 
  "immune", "impact", "impose", "improve", "impulse", "inch", "include", "income", "increase", 
  "index", "indicate", "indoor", "industry", "infant", "inflict", "inform", "inhale", "inherit", 
  "initial", "inject", "injury", "inmate", "inner", "innocent", "input", "inquiry", "insane", 
  "insect", "inside", "inspire", "install", "intact", "interest", "into", "invest", "invite", 
  "involve", "iron", "island", "isolate", "issue", "item", "ivory", "jacket", "jaguar", "jar", 
  "jazz", "jealous", "jeans", "jelly", "jewel", "job", "join", "joke", "journey", "joy", "judge", 
  "juice", "jump", "jungle", "junior", "junk", "just", "kangaroo", "keen", "keep", "ketchup", 
  "key", "kick", "kid", "kidney", "kind", "kingdom", "kiss", "kit", "kitchen", "kite", "kitten", 
  "kiwi", "knee", "knife", "knock", "know", "lab", "label", "labor", "ladder", "lady", "lake", 
  "lamp", "language", "laptop", "large", "later", "latin", "laugh", "laundry", "lava", "law", 
  "lawn", "lawsuit", "layer", "lazy", "leader", "leaf", "learn", "leave", "lecture", "left", 
  "leg", "legal", "legend", "leisure", "lemon", "lend", "length", "lens", "leopard", "lesson", 
  "letter", "level", "liar", "liberty", "library", "license", "life", "lift", "light", "like", 
  "limb", "limit", "link", "lion", "liquid", "list", "little", "live", "lizard", "load", "loan", 
  "lobster", "local", "lock", "logic", "lonely", "long", "loop", "lottery", "loud", "lounge", 
  "love", "loyal", "lucky", "luggage", "lumber", "lunar", "lunch", "luxury", "lyrics", "machine", 
  "mad", "magic", "magnet", "maid", "mail", "main", "major", "make", "mammal", "man", "manage", 
  "mandate", "mango", "mansion", "manual", "maple", "marble", "march", "margin", "marine", 
  "market", "marriage", "mask", "mass", "master", "match", "material", "math", "matrix", "matter", 
  "maximum", "maze", "meadow", "mean", "measure", "meat", "mechanic", "medal", "media", "melody", 
  "melt", "member", "memory", "mention", "menu", "mercy", "merge", "merit", "merry", "mesh", 
  "message", "metal", "method", "middle", "midnight", "milk", "million", "mimic", "mind", 
  "minimum", "minor", "minute", "miracle", "mirror", "misery", "miss", "mistake", "mix", "mixed", 
  "mixture", "mobile", "model", "modify", "mom", "moment", "monitor", "monkey", "monster", 
  "month", "moon", "moral", "more", "morning", "mosquito", "mother", "motion", "motor", 
  "mountain", "mouse", "move", "movie", "much", "muffin", "mule", "multiply", "muscle", "museum", 
  "mushroom", "music", "must", "mutual", "myself", "mystery", "myth", "naive", "name", "napkin", 
  "narrow", "nasty", "nation", "nature", "near", "neck", "need", "negative", "neglect", "neither", 
  "nephew", "nerve", "nest", "net", "network", "neutral", "never", "news", "next", "nice", 
  "night", "noble", "noise", "nominee", "noodle", "normal", "north", "nose", "notable", "note", 
  "nothing", "notice", "novel", "now", "nuclear", "number", "nurse", "nut", "oak", "obey", 
  "object", "oblige", "obscure", "observe", "obtain", "obvious", "occur", "ocean", "october", 
  "odor", "off", "offer", "office", "often", "oil", "okay", "old", "olive", "olympic", "omit", 
  "once", "one", "onion", "online", "only", "open", "opera", "opinion", "oppose", "option", 
  "orange", "orbit", "orchard", "order", "ordinary", "organ", "orient", "original", "orphan", 
  "ostrich", "other", "outdoor", "outer", "output", "outside", "oval", "oven", "over", "own", 
  "owner", "oxygen", "oyster", "ozone", "pact", "paddle", "page", "pair", "palace", "palm", 
  "panda", "panel", "panic", "panther", "paper", "parade", "parent", "park", "parrot", "party", 
  "pass", "patch", "path", "patient", "patrol", "pattern", "pause", "pave", "payment", "peace", 
  "peanut", "pear", "peasant", "pelican", "pen", "penalty", "pencil", "people", "pepper", 
  "perfect", "permit", "person", "pet", "phone", "photo", "phrase", "physical", "piano", "picnic", 
  "picture", "piece", "pig", "pigeon", "pill", "pilot", "pink", "pioneer", "pipe", "pistol", 
  "pitch", "pizza", "place", "planet", "plastic", "plate", "play", "please", "pledge", "pluck", 
  "plug", "plunge", "poem", "poet", "point", "polar", "pole", "police", "pond", "pony", "pool", 
  "popular", "portion", "position", "possible", "post", "potato", "pottery", "poverty", "powder", 
  "power", "practice", "praise", "predict", "prefer", "prepare", "present", "pretty", "prevent", 
  "price", "pride", "primary", "print", "priority", "prison", "private", "prize", "problem", 
  "process", "produce", "profit", "program", "project", "promote", "proof", "property", "prosper", 
  "protect", "proud", "provide", "public", "pudding", "pull", "pulp", "pulse", "pumpkin", "punch", 
  "pupil", "puppy", "purchase", "purity", "purpose", "purse", "push", "put", "puzzle", "pyramid", 
  "quality", "quantum", "quarter", "question", "quick", "quit", "quiz", "quote", "rabbit", 
  "raccoon", "race", "rack", "radar", "radio", "rail", "rain", "raise", "rally", "ramp", "ranch", 
  "random", "range", "rapid", "rare", "rate", "rather", "raven", "raw", "razor", "ready", "real", 
  "reason", "rebel", "rebuild", "recall", "receive", "recipe", "record", "recycle", "reduce", 
  "reflect", "reform", "refuse", "region", "regret", "regular", "reject", "relax", "release", 
  "relief", "rely", "remain", "remember", "remind", "remove", "render", "renew", "rent", "reopen", 
  "repair", "repeat", "replace", "report", "require", "rescue", "resemble", "resist", "resource", 
  "response", "result", "retire", "retreat", "return", "reunion", "reveal", "review", "reward", 
  "rhythm", "rib", "ribbon", "rice", "rich", "ride", "ridge", "rifle", "right", "rigid", "ring", 
  "riot", "ripple", "risk", "ritual", "rival", "river", "road", "roast", "robot", "robust", 
  "rocket", "romance", "roof", "rookie", "room", "rose", "rotate", "rough", "round", "route", 
  "royal", "rubber", "rude", "rug", "rule", "run", "runway", "rural", "sad", "saddle", "sadness", 
  "safe", "sail", "salad", "salmon", "salon", "salt", "salute", "same", "sample", "sand", 
  "satisfy", "satoshi", "sauce", "sausage", "save", "say", "scale", "scan", "scare", "scatter", 
  "scene", "scheme", "school", "science", "scissors", "scorpion", "scout", "scrap", "screen", 
  "script", "scrub", "sea", "search", "season", "seat", "second", "secret", "section", "security", 
  "seed", "seek", "segment", "select", "sell", "seminar", "senior", "sense", "sentence", "series", 
  "service", "session", "settle", "setup", "seven", "shadow", "shaft", "shallow", "share", "shed", 
  "shell", "sheriff", "shield", "shift", "shine", "ship", "shiver", "shock", "shoe", "shoot", 
  "shop", "short", "shoulder", "shove", "shrimp", "shrug", "shuffle", "shy", "sibling", "sick", 
  "side", "siege", "sight", "sign", "silent", "silk", "silly", "silver", "similar", "simple", 
  "since", "sing", "siren", "sister", "situate", "six", "size", "skate", "sketch", "ski", "skill", 
  "skin", "skirt", "skull", "slab", "slam", "sleep", "slender", "slice", "slide", "slight", 
  "slim", "slogan", "slot", "slow", "slush", "small", "smart", "smile", "smoke", "smooth", 
  "snack", "snake", "snap", "sniff", "snow", "soap", "soccer", "social", "sock", "soda", "soft", 
  "solar", "soldier", "solid", "solution", "solve", "someone", "song", "soon", "sorry", "sort", 
  "soul", "sound", "soup", "source", "south", "space", "spare", "spatial", "spawn", "speak", 
  "special", "speed", "spell", "spend", "sphere", "spice", "spider", "spike", "spin", "spirit", 
  "split", "spoil", "sponsor", "spoon", "sport", "spot", "spray", "spread", "spring", "spy", 
  "square", "squeeze", "squirrel", "stable", "stadium", "staff", "stage", "stairs", "stamp", 
  "stand", "start", "state", "stay", "steak", "steel", "stem", "step", "stereo", "stick", "still", 
  "sting", "stock", "stomach", "stone", "stool", "story", "stove", "strategy", "street", "strike", 
  "strong", "struggle", "student", "stuff", "stumble", "style", "subject", "submit", "subway", 
  "success", "such", "sudden", "suffer", "sugar", "suggest", "suit", "summer", "sun", "sunny", 
  "sunset", "super", "supply", "supreme", "sure", "surface", "surge", "surprise", "surround", 
  "survey", "suspect", "sustain", "swallow", "swamp", "swap", "swarm", "swear", "sweet", "swift", 
  "swim", "swing", "switch", "sword", "symbol", "symptom", "syrup", "system", "table", "tackle", 
  "tag", "tail", "talent", "talk", "tank", "tape", "target", "task", "taste", "tattoo", "taxi", 
  "teach", "team", "tell", "ten", "tenant", "tennis", "tent", "term", "test", "text", "thank", 
  "that", "theme", "then", "theory", "there", "they", "thing", "this", "thought", "three", 
  "thrive", "throw", "thumb", "thunder", "ticket", "tide", "tiger", "tilt", "timber", "time", 
  "tiny", "tip", "tired", "tissue", "title", "toast", "tobacco", "today", "toddler", "toe", 
  "together", "toilet", "token", "tomato", "tomorrow", "tone", "tongue", "tonight", "tool", 
  "tooth", "top", "topic", "topple", "torch", "tornado", "tortoise", "toss", "total", "tourist", 
  "toward", "tower", "town", "toy", "track", "trade", "traffic", "tragic", "train", "transfer", 
  "trap", "trash", "travel", "tray", "treat", "tree", "trend", "trial", "tribe", "trick", 
  "trigger", "trim", "trip", "trophy", "trouble", "truck", "true", "truly", "trumpet", "trust", 
  "truth", "try", "tube", "tuition", "tumble", "tuna", "tunnel", "turkey", "turn", "turtle", 
  "twelve", "twenty", "twice", "twin", "twist", "two", "type", "typical", "ugly", "umbrella", 
  "unable", "unaware", "uncle", "uncover", "under", "undo", "unfair", "unfold", "unhappy", 
  "uniform", "unique", "unit", "universe", "unknown", "unlock", "until", "unusual", "unveil", 
  "update", "upgrade", "uphold", "upon", "upper", "upset", "urban", "urge", "usage", "use", 
  "used", "useful", "useless", "usual", "utility", "vacant", "vacuum", "vague", "valid", "valley", 
  "valve", "van", "vanish", "vapor", "various", "vast", "vault", "vehicle", "velvet", "vendor", 
  "venture", "venue", "verb", "verify", "version", "very", "vessel", "veteran", "viable", 
  "vibrant", "vicious", "victory", "video", "view", "village", "vintage", "violin", "virtual", 
  "virus", "visa", "visit", "visual", "vital", "vivid", "vocal", "voice", "void", "volcano", 
  "volume", "vote", "voyage", "wage", "wagon", "wait", "walk", "wall", "walnut", "want", 
  "warfare", "warm", "warrior", "wash", "wasp", "waste", "water", "wave", "way", "wealth", 
  "weapon", "wear", "weasel", "weather", "web", "wedding", "weekend", "weird", "welcome", "west", 
  "wet", "whale", "what", "wheat", "wheel", "when", "where", "whip", "whisper", "wide", "width", 
  "wife", "wild", "will", "win", "window", "wine", "wing", "wink", "winner", "winter", "wire", 
  "wisdom", "wise", "wish", "witness", "wolf", "woman", "wonder", "wood", "wool", "word", "work", 
  "world", "worry", "worth", "wrap", "wreck", "wrestle", "wrist", "write", "wrong", "yard", 
  "year", "yellow", "you", "young", "youth", "zebra", "zero", "zone", "zoo"
  ] : List String).map str

/-- `seed.rs::NUM_WORDS`. -/
def NUM_WORDS : Nat := 2048

/-- Rust `str::contains` with a string pattern: substring containment. -/
def containsSub : Str → Str → Bool
  | pat, [] => pat.isEmpty
  | pat, c :: rest => pat.isPrefixOf (c :: rest) || containsSub pat rest

/-- The alternative-matching rules of `Seed::from_args` (lines 83-96): word
`bw` matches an alternative with leading/trailing `?` flags `startsQ`/`endsQ`
and stripped body `w` when the alternative is `?w?` and `w` occurs inside the
word, `?w` and the word ends in `w`, `w?` and the word starts with `w`, or the
word equals `w` exactly. -/
def altMatches (startsQ endsQ : Bool) (w bw : Str) : Bool :=
  (startsQ && endsQ && containsSub w bw) ||
    (startsQ && w.isSuffixOf bw) ||
    (endsQ && w.isPrefixOf bw) ||
    (bw = w)

/-- The `for i in 0..NUM_WORDS` scan of `Seed::from_args`, walking the word
table alongside the index and collecting matching indices in order. -/
def altMatchLoop (startsQ endsQ : Bool) (w : Str) : List Str → Nat → List Nat
  | [], _ => []
  | bw :: rest, i =>
    if altMatches startsQ endsQ w bw then i :: altMatchLoop startsQ endsQ w rest (i + 1)
    else altMatchLoop startsQ endsQ w rest (i + 1)

/-- The matches of one alternative against the whole word table, in word-index
order; the `?` flags and the stripped body are computed once before the loop,
as in the source. -/
def altMatching (alt : Str) : List Nat :=
  altMatchLoop (alt.head? = some '?') (alt.getLast? = some '?')
    (alt.filter (· ≠ '?')) BIP39_WORDS 0

/-- One token of the seed argument (`Seed::from_args` lines 77-109, after the
`^` marks are removed): a token holding `?` or `|` is split into alternatives
whose matches are concatenated in encounter order (erroring on an alternative
with no matches); otherwise the token must be an exact BIP-39 word. -/
def parseToken (word : Str) : Except Unit (List Nat) :=
  if word.contains '?' || word.contains '|' then
    (splitSep '|' word).foldlM
      (fun all alt =>
        let matching := altMatching alt
        if matching.isEmpty then .error () else .ok (all ++ matching))
      []
  else if BIP39_WORDS.contains word then
    .ok [BIP39_WORDS.findIdx (· == word)]
  else .error ()

/-- The per-token loop of `Seed::from_args`: accumulate `PositionSet`s and the
indices of `^`-anchored tokens. -/
def parseSeedTokens (tokens : List Str) (index : Nat) :
    Except Unit (List (List Nat) × List Nat) :=
  match tokens with
  | [] => .ok ([], [])
  | t :: rest => do
    let anchoredHere := t.head? = some '^'
    let word := t.filter (· ≠ '^')
    let ps ← parseToken word
    let (words, anchored) ← parseSeedTokens rest (index + 1)
    .ok (ps :: words, (if anchoredHere then [index] else []) ++ anchored)

/-- The parsing phase of `seed.rs::Seed::from_args` (lines 63-110): split on
commas (or on spaces when no comma appears), then expand every token. -/
def parseSeedArg (arg : Str) : Except Unit (List (List Nat) × List Nat) :=
  parseSeedTokens (if arg.contains ',' then splitSep ',' arg else splitSep ' ' arg) 0

/-- Every index collected by the word-table scan is at least the running
index. -/
theorem altMatchLoop_ge (startsQ endsQ : Bool) (w : Str) (ws : List Str) (i : Nat) :
    ∀ x ∈ altMatchLoop startsQ endsQ w ws i, i ≤ x := by
  induction ws generalizing i with
  | nil => simp [altMatchLoop]
  | cons bw rest ih =>
    intro x hx
    unfold altMatchLoop at hx
    by_cases hm : altMatches startsQ endsQ w bw
    · rw [if_pos hm] at hx
      rcases List.mem_cons.mp hx with rfl | hx
      · omega
      · have := ih (i + 1) x hx
        omega
    · rw [if_neg hm] at hx
      have := ih (i + 1) x hx
      omega

/-- The word-table scan produces a strictly ascending index list. -/
theorem altMatchLoop_sorted (startsQ endsQ : Bool) (w : Str) (ws : List Str) (i : Nat) :
    (altMatchLoop startsQ endsQ w ws i).Sorted (· < ·) := by
  induction ws generalizing i with
  | nil => simp [altMatchLoop]
  | cons bw rest ih =>
    unfold altMatchLoop
    by_cases hm : altMatches startsQ endsQ w bw
    · rw [if_pos hm]
      refine List.sorted_cons.mpr ⟨?_, ih (i + 1)⟩
      intro b hb
      have := altMatchLoop_ge startsQ endsQ w rest (i + 1) b hb
      omega
    · rw [if_neg hm]
      exact ih (i + 1)

/-- Each alternative's match list is strictly ascending (hence
duplicate-free). -/
theorem altMatching_sorted (alt : Str) : (altMatching alt).Sorted (· < ·) :=
  altMatchLoop_sorted (alt.head? = some '?') (alt.getLast? = some '?')
    (alt.filter (· ≠ '?')) BIP39_WORDS 0

/-- The exact-word branch of `parseToken`. -/
theorem parseToken_exact (word : Str) (idx : Nat)
    (h1 : (word.contains '?' || word.contains '|') = false)
    (h2 : BIP39_WORDS.contains word = true)
    (h3 : BIP39_WORDS.findIdx (· == word) = idx) :
    parseToken word = .ok [idx] := by
  unfold parseToken
  rw [if_neg (by rw [h1]; simp), if_pos h2, h3]

/-- The wildcard branch of `parseToken` for a token with exactly two
alternatives. -/
theorem parseToken_two_alts (word a1 a2 : Str) (m1 m2 : List Nat)
    (h0 : (word.contains '?' || word.contains '|') = true)
    (hsp : splitSep '|' word = [a1, a2])
    (h1 : altMatching a1 = m1) (h2 : altMatching a2 = m2)
    (hne1 : m1.isEmpty = false) (hne2 : m2.isEmpty = false) :
    parseToken word = .ok (m1 ++ m2) := by
  unfold parseToken
  rw [if_pos h0, hsp]
  simp only [List.foldlM, h1, h2, hne1, hne2, Bool.false_eq_true, if_false,
    Bind.bind, Except.bind, List.nil_append]
  rfl

set_option maxRecDepth 40000 in
/-- C8 counterexample: the parsed `PositionSet` of a multi-alternative token
can contain duplicates (token `zo?|zoo` yields `[2046, 2047, 2047]`) and need
not be ascending (token `zoo|able` yields `[2047, 2]`). -/
theorem seed_positionSet_claim_counterexample :
    (parseSeedArg (str "zo?|zoo") = .ok ([[2046, 2047, 2047]], []) ∧
      ¬ ([2046, 2047, 2047] : List Nat).Nodup) ∧
    (parseSeedArg (str "zoo|able") = .ok ([[2047, 2]], []) ∧
      ¬ ([2047, 2] : List Nat).Sorted (· ≤ ·)) := by
  have am1 : altMatching (str "zo?") = [2046, 2047] := by decide
  have am2 : altMatching (str "zoo") = [2047] := by decide
  have am3 : altMatching (str "able") = [2] := by decide
  have ht1 : parseToken (str "zo?|zoo") = .ok [2046, 2047, 2047] :=
    parseToken_two_alts _ (str "zo?") (str "zoo") _ _ (by decide) (by decide) am1 am2
      (by decide) (by decide)
  have ht2 : parseToken (str "zoo|able") = .ok [2047, 2] :=
    parseToken_two_alts _ (str "zoo") (str "able") _ _ (by decide) (by decide) am2 am3
      (by decide) (by decide)
  refine ⟨⟨?_, by decide⟩, ⟨?_, by decide⟩⟩
  · unfold parseSeedArg
    rw [if_neg (by decide)]
    have hsp : splitSep ' ' (str "zo?|zoo") = [str "zo?|zoo"] := by decide
    rw [hsp]
    have hfil : (str "zo?|zoo").filter (· ≠ '^') = str "zo?|zoo" := by decide
    simp only [parseSeedTokens, hfil, ht1, Bind.bind, Except.bind]
    rw [if_neg (by decide)]
    rfl
  · unfold parseSeedArg
    rw [if_neg (by decide)]
    have hsp : splitSep ' ' (str "zoo|able") = [str "zoo|able"] := by decide
    rw [hsp]
    have hfil : (str "zoo|able").filter (· ≠ '^') = str "zoo|able" := by decide
    simp only [parseSeedTokens, hfil, ht2, Bind.bind, Except.bind]
    rw [if_neg (by decide)]
    rfl

/-- The alternative fold of `parseToken` appends, to its accumulator, exactly
the per-alternative match lists in encounter order. -/
theorem parseToken_fold_concat (alts : List Str) (acc all : List Nat)
    (h : alts.foldlM
      (fun all alt =>
        let matching := altMatching alt
        if matching.isEmpty then (.error () : Except Unit (List Nat))
        else .ok (all ++ matching)) acc = .ok all) :
    all = acc ++ (alts.map altMatching).flatten := by
  induction alts generalizing acc with
  | nil =>
    simp only [List.foldlM] at h
    cases h
    simp
  | cons a rest ih =>
    simp only [List.foldlM] at h
    by_cases he : (altMatching a).isEmpty
    · simp only [he, if_pos, Bind.bind, Except.bind] at h
      cases h
    · simp only [he, if_neg, Bool.not_eq_true, Bind.bind, Except.bind] at h
      have hall := ih _ h
      simp [hall]

/-- A `PositionSet` produced by `parseToken` is, for a wildcard or alternative
token, exactly the concatenation in encounter order of the match lists of the
token's `|`-split alternatives, and for a plain token the singleton index of
the exact word. -/
theorem parseToken_alt_concat (word : Str) (ps : List Nat)
    (h : parseToken word = .ok ps) :
    if word.contains '?' || word.contains '|' then
      ps = ((splitSep '|' word).map altMatching).flatten
    else ps = [BIP39_WORDS.findIdx (· == word)] := by
  unfold parseToken at h
  by_cases hw : word.contains '?' || word.contains '|'
  · rw [if_pos hw] at h
    rw [if_pos hw]
    simpa using parseToken_fold_concat _ [] ps h
  · rw [if_neg hw] at h
    rw [if_neg hw]
    by_cases hc : BIP39_WORDS.contains word
    · rw [if_pos hc] at h
      cases h
      rfl
    · rw [if_neg hc] at h
      cases h

/-- The token loop matches every token with its `PositionSet`: the set is the
concatenation of the token's alternatives' match lists in encounter order
(the exact index for a plain token), each match list strictly ascending and
duplicate-free. -/
theorem parseSeedTokens_alt_concat (tokens : List Str) (index : Nat)
    (words : List (List Nat)) (anchored : List Nat)
    (h : parseSeedTokens tokens index = .ok (words, anchored)) :
    List.Forall₂
      (fun t ps =>
        (if (t.filter (· ≠ '^')).contains '?' || (t.filter (· ≠ '^')).contains '|' then
          ps = ((splitSep '|' (t.filter (· ≠ '^'))).map altMatching).flatten
        else ps = [BIP39_WORDS.findIdx (· == t.filter (· ≠ '^'))]) ∧
        ∀ alt ∈ splitSep '|' (t.filter (· ≠ '^')),
          (altMatching alt).Sorted (· < ·) ∧ (altMatching alt).Nodup)
      tokens words := by
  induction tokens generalizing index words anchored with
  | nil =>
    unfold parseSeedTokens at h
    cases h
    exact List.Forall₂.nil
  | cons t rest ih =>
    unfold parseSeedTokens at h
    simp only [Bind.bind, Except.bind] at h
    rcases hp : parseToken (t.filter (· ≠ '^')) with _ | ps0
    · rw [hp] at h
      cases h
    · rw [hp] at h
      rcases hr : parseSeedTokens rest (index + 1) with _ | ⟨ws, as⟩
      · rw [hr] at h
        cases h
      · rw [hr] at h
        cases h
        exact List.Forall₂.cons
          ⟨parseToken_alt_concat _ _ hp,
            fun alt _ => ⟨altMatching_sorted alt, (altMatching_sorted alt).nodup⟩⟩
          (ih (index + 1) ws as hr)

/-- C8 amended: for every seed argument accepted by the parser, each token's
parsed `PositionSet` is exactly the concatenation, in encounter order, of the
match lists of the token's `|`-split alternatives (the singleton exact index
for a plain token), and each alternative's match list is strictly ascending
and duplicate-free; the concatenated set itself may contain duplicates or be
out of order when alternatives overlap or are given out of order. -/
theorem seed_positionSet_alternatives_concat (arg : Str)
    (words : List (List Nat)) (anchored : List Nat)
    (h : parseSeedArg arg = .ok (words, anchored)) :
    List.Forall₂
      (fun t ps =>
        (if (t.filter (· ≠ '^')).contains '?' || (t.filter (· ≠ '^')).contains '|' then
          ps = ((splitSep '|' (t.filter (· ≠ '^'))).map altMatching).flatten
        else ps = [BIP39_WORDS.findIdx (· == t.filter (· ≠ '^'))]) ∧
        ∀ alt ∈ splitSep '|' (t.filter (· ≠ '^')),
          (altMatching alt).Sorted (· < ·) ∧ (altMatching alt).Nodup)
      (if arg.contains ',' then splitSep ',' arg else splitSep ' ' arg) words :=
  parseSeedTokens_alt_concat _ 0 words anchored h

set_option maxRecDepth 40000 in
/-- Witness for `seed_positionSet_alternatives_concat` on the two-alternative
seed argument `zo?|able`: its one `PositionSet` is `[2046, 2047, 2]`, the
matches of `zo?` (`zone`, `zoo`) followed by those of `able`. -/
theorem seed_positionSet_alternatives_concat_witness :
    List.Forall₂
      (fun t ps =>
        (if (t.filter (· ≠ '^')).contains '?' || (t.filter (· ≠ '^')).contains '|' then
          ps = ((splitSep '|' (t.filter (· ≠ '^'))).map altMatching).flatten
        else ps = [BIP39_WORDS.findIdx (· == t.filter (· ≠ '^'))]) ∧
        ∀ alt ∈ splitSep '|' (t.filter (· ≠ '^')),
          (altMatching alt).Sorted (· < ·) ∧ (altMatching alt).Nodup)
      [str "zo?|able"] [[2046, 2047, 2]] := by
  have am1 : altMatching (str "zo?") = [2046, 2047] := by decide
  have am3 : altMatching (str "able") = [2] := by decide
  have ht : parseToken (str "zo?|able") = .ok [2046, 2047, 2] :=
    parseToken_two_alts _ (str "zo?") (str "able") _ _ (by decide) (by decide) am1 am3
      (by decide) (by decide)
  have h : parseSeedArg (str "zo?|able") = .ok ([[2046, 2047, 2]], []) := by
    unfold parseSeedArg
    rw [if_neg (by decide)]
    have hsp : splitSep ' ' (str "zo?|able") = [str "zo?|able"] := by decide
    rw [hsp]
    have hfil : (str "zo?|able").filter (· ≠ '^') = str "zo?|able" := by decide
    simp only [parseSeedTokens, hfil, ht, Bind.bind, Except.bind]
    rw [if_neg (by decide)]
    rfl
  have happ := seed_positionSet_alternatives_concat (str "zo?|able")
    [[2046, 2047, 2]] [] h
  have hif : (if (str "zo?|able").contains ',' then splitSep ',' (str "zo?|able")
      else splitSep ' ' (str "zo?|able")) = [str "zo?|able"] := by decide
  rw [hif] at happ
  exact happ

/-! ## SHA-256

Executable SHA-256 over byte lists (`Nat` entries below 256), used by the
BIP-39 checksum filter.  All 32-bit arithmetic is `Nat` reduced mod `2^32`. -/

/-- Truncation to 32 bits. -/
def w32 (x : Nat) : Nat := x % 4294967296

/-- 32-bit right rotation. -/
def rotr32 (x n : Nat) : Nat := w32 ((x >>> n) ||| (x <<< (32 - n)))

/-- SHA-256 round constants. -/
def SHA256_K : List Nat :=
  [1116352408, 1899447441, 3049323471, 3921009573, 961987163, 1508970993,
    2453635748, 2870763221, 3624381080, 310598401, 607225278, 1426881987,
    1925078388, 2162078206, 2614888103, 3248222580, 3835390401, 4022224774,
    264347078, 604807628, 770255983, 1249150122, 1555081692, 1996064986,
    2554220882, 2821834349, 2952996808, 3210313671, 3336571891, 3584528711,
    113926993, 338241895, 666307205, 773529912, 1294757372, 1396182291,
    1695183700, 1986661051, 2177026350, 2456956037, 2730485921, 2820302411,
    3259730800, 3345764771, 3516065817, 3600352804, 4094571909, 275423344,
    430227734, 506948616, 659060556, 883997877, 958139571, 1322822218,
    1537002063, 1747873779, 1955562222, 2024104815, 2227730452, 2361852424,
    2428436474, 2756734187, 3204031479, 3329325298]

/-- SHA-256 initial hash state. -/
def SHA256_H0 : List Nat :=
  [1779033703, 3144134277, 1013904242, 2773480762, 1359893119, 2600822924,
    528734635, 1541459225]

/-- Big-endian bytes of a 32-bit word. -/
def beBytes4 (x : Nat) : List Nat :=
  [x >>> 24 % 256, x >>> 16 % 256, x >>> 8 % 256, x % 256]

/-- Big-endian bytes of a 64-bit word. -/
def beBytes8 (x : Nat) : List Nat :=
  [x >>> 56 % 256, x >>> 48 % 256, x >>> 40 % 256, x >>> 32 % 256,
    x >>> 24 % 256, x >>> 16 % 256, x >>> 8 % 256, x % 256]

/-- Big-endian 4-byte groups to 32-bit words. -/
def bytesToWords : List Nat → List Nat
  | b0 :: b1 :: b2 :: b3 :: rest =>
    ((((b0 <<< 8 ||| b1) <<< 8) ||| b2) <<< 8 ||| b3) :: bytesToWords rest
  | _ => []

/-- SHA-256 message padding: `0x80`, zeros to 56 mod 64, 8-byte bit length. -/
def sha256Pad (msg : List Nat) : List Nat :=
  let L := msg.length
  let z := (119 - L % 64) % 64
  msg ++ 0x80 :: List.replicate z 0 ++ beBytes8 (8 * L)

/-- One message-schedule extension step. -/
def sha256ExtendStep (w : List Nat) : List Nat :=
  let i := w.length
  let s0 :=
    rotr32 (w.getD (i - 15) 0) 7 ^^^ rotr32 (w.getD (i - 15) 0) 18 ^^^
      (w.getD (i - 15) 0 >>> 3)
  let s1 :=
    rotr32 (w.getD (i - 2) 0) 17 ^^^ rotr32 (w.getD (i - 2) 0) 19 ^^^
      (w.getD (i - 2) 0 >>> 10)
  w ++ [w32 (w.getD (i - 16) 0 + s0 + w.getD (i - 7) 0 + s1)]

/-- Extend the 16-word schedule by `n` more words. -/
def sha256Schedule (w : List Nat) : Nat → List Nat
  | 0 => w
  | n + 1 => sha256Schedule (sha256ExtendStep w) n

/-- One SHA-256 compression round. -/
def sha256Round (st : List Nat) (k w : Nat) : List Nat :=
  let a := st.getD 0 0
  let b := st.getD 1 0
  let c := st.getD 2 0
  let d := st.getD 3 0
  let e := st.getD 4 0
  let f := st.getD 5 0
  let g := st.getD 6 0
  let h := st.getD 7 0
  let s1 := rotr32 e 6 ^^^ rotr32 e 11 ^^^ rotr32 e 25
  let ch := (e &&& f) ^^^ ((0xFFFFFFFF ^^^ e) &&& g)
  let temp1 := w32 (h + s1 + ch + k + w)
  let s0 := rotr32 a 2 ^^^ rotr32 a 13 ^^^ rotr32 a 22
  let maj := (a &&& b) ^^^ (a &&& c) ^^^ (b &&& c)
  let temp2 := w32 (s0 + maj)
  [w32 (temp1 + temp2), a, b, c, w32 (d + temp1), e, f, g]

/-- Compress one 64-byte block into the hash state. -/
def sha256Block (h : List Nat) (block : List Nat) : List Nat :=
  let w := sha256Schedule (bytesToWords block) 48
  let st := (SHA256_K.zip w).foldl (fun st kw => sha256Round st kw.1 kw.2) h
  (List.range 8).map fun i => w32 (h.getD i 0 + st.getD i 0)

/-- Fold the hash state over `n` 64-byte blocks. -/
def sha256Blocks (h bytes : List Nat) : Nat → List Nat
  | 0 => h
  | n + 1 => sha256Blocks (sha256Block h (bytes.take 64)) (bytes.drop 64) n

/-- SHA-256 of a byte list, as its 32-byte big-endian digest. -/
def sha256 (msg : List Nat) : List Nat :=
  let padded := sha256Pad msg
  let h := sha256Blocks SHA256_H0 padded (padded.length / 64)
  h.flatMap beBytes4

/-! ## Seed encoding and rehydration: `seed.rs` -/

/-- `seed.rs::BIP39_BYTE_OFFSET`. -/
def BIP39_BYTE_OFFSET : Nat := 48

/-- `seed.rs::VALID_LENGTHS`. -/
def VALID_LENGTHS : List Nat := [12, 15, 18, 21, 24]

/-- `seed.rs::EXACT_VALID_MAX`. -/
def EXACT_VALID_MAX : Nat := 100000

/-- `seed.rs::SeedEncoder` (the SHA-256 hasher field is stateless here). -/
structure SeedEncoder where
  guessed : List Nat
  entropy_bits : Nat
  checksum_bits : Nat
  is_pure_gpu : Bool
  total_entropy : Nat

/-- `SeedEncoder::new` (seed.rs lines 394-416). -/
def SeedEncoder.new (words : Combinations Nat) (is_pure_gpu : Bool) : SeedEncoder :=
  let guessed := (List.range words.length).filter
    fun i => (words.fixed_positions.getD i none).isNone
  let total_bits := words.length * 11
  let total_entropy := total_bits - total_bits % 32
  let checksum_bits := total_bits - total_entropy
  let entropy_bits := 11 - checksum_bits
  ⟨guessed, entropy_bits, checksum_bits, is_pure_gpu, total_entropy⟩

/-- The entropy-packing loop of `SeedEncoder::valid_checksum` (lines 425-433):
pack successive 11-bit indices into 32-bit words, spilling across word
boundaries. -/
def vcLoop : List Nat → Int → Nat → List Nat → List Nat × Int × Nat
  | [], offset, index, entropy => (entropy, offset, index)
  | w :: rest, offset, index, entropy =>
    let offset := offset - 11
    let (entropy, index, offset) :=
      if offset < 0 then
        (entropy.set index (entropy.getD index 0 ||| (w >>> (-offset).toNat)),
          index + 1, offset + 32)
      else (entropy, index, offset)
    let entropy := entropy.set index
      (entropy.getD index 0 ||| w32 (w <<< offset.toNat))
    vcLoop rest offset index entropy

/-- `SeedEncoder::valid_checksum` (lines 418-446): the low `checksum_bits` of
the last word must equal the high `checksum_bits` of the SHA-256 of the packed
entropy. -/
def SeedEncoder.valid_checksum (e : SeedEncoder) (wordlist : List Nat) : Bool :=
  let last_word := wordlist.getLastD 0
  let last_entropy := last_word &&& w32 (0xFFFFFFFF <<< e.checksum_bits)
  let entropy0 : List Nat := List.replicate (e.total_entropy / 32) 0
  let (entropy, offset, index) := vcLoop wordlist.dropLast 32 0 entropy0
  let offset := offset - 11
  let entropy := entropy.set index
    (entropy.getD index 0 ||| (last_entropy >>> (-offset).toNat))
  let hash := sha256 (entropy.flatMap beBytes4)
  let checksum_mask := 0xFFFFFFFF >>> (32 - e.checksum_bits)
  let checksum := hash.getD 0 0 >>> (8 - e.checksum_bits)
  last_word &&& checksum_mask == checksum

/-- `SeedEncoder::char_offset`. -/
def charOffset (c bits : Nat) : Nat := c + BIP39_BYTE_OFFSET + bits

/-- `SeedEncoder::encode_word`: the two stdin bytes of a non-terminal index. -/
def encodeWord (num : Nat) : List Nat :=
  [charOffset (num >>> 6) 5, charOffset (num &&& 0x3F) 6]

/-- Rust `Vec<String>::join` with a one-character separator. -/
def joinSep (sep : Char) : List Str → Str
  | [] => []
  | [x] => x
  | x :: rest => x ++ sep :: joinSep sep rest

/-- `SeedEncoder::encode_words` (lines 448-480): the pure-GPU comma-joined
decimal encoding with `=` markers, or the compact stdin byte encoding of the
varying positions. -/
def SeedEncoder.encode_words (e : SeedEncoder) (wordlist : List Nat) : List Nat :=
  if e.is_pure_gpu then
    let encoded := (List.range wordlist.length).map fun i =>
      if e.guessed.contains i then '=' :: natStr (wordlist.getD i 0)
      else natStr (wordlist.getD i 0)
    (joinSep ',' encoded).map Char.toNat
  else if e.guessed.isEmpty then []
  else
    let last := wordlist.getLastD 0
    let words := wordlist.dropLast
    let encoded := e.guessed.foldl
      (fun enc i =>
        if i < wordlist.length - 1 then enc ++ encodeWord (words.getD i 0) else enc)
      []
    let last_choice := e.guessed.getLastD 0
    if last_choice = wordlist.length - 1 then
      encoded ++ [charOffset (last >>> (11 - e.entropy_bits)) e.entropy_bits]
    else encoded

/-- `seed.rs::Finished`. -/
structure Finished where
  seed : Option Str
  passphrase : Option Str
  pure_gpu : Bool

/-- `Finished::new`. -/
def Finished.new (seed passphrase : Str) (pure_gpu : Bool) : Finished :=
  ⟨some seed, some passphrase, pure_gpu⟩

/-- `Finished::exhausted`. -/
def Finished.exhausted (pure_gpu : Bool) : Finished := ⟨none, none, pure_gpu⟩

/-- `seed.rs::Seed`: the word space, its encoder, and the arg space. -/
structure Seed where
  words : Combinations Nat
  encoder : SeedEncoder
  args : Combinations Str

/-- `Seed::from_words` (lines 136-153). -/
def Seed.from_words (words : Combinations Nat) : Seed :=
  let encoder := SeedEncoder.new words false
  let args := Combinations.new (words.fixed_positions.map fun fixed =>
    match fixed with
    | none => [str "?"]
    | some index => [natStr index])
  ⟨words, encoder, args⟩

/-- `Seed::from_vecs`. -/
def Seed.from_vecs (words : List (List Nat)) : Seed :=
  Seed.from_words (Combinations.new words)

/-- `Seed::validate_combinations` (lines 212-249). -/
def Seed.validate_combinations (words : List (List Nat)) (combo : Nat)
    (anchored : List Nat) : Except Unit (Combinations Nat) :=
  let num := combo - anchored.length
  if ¬ VALID_LENGTHS.contains combo then .error ()
  else if words.length < combo then .error ()
  else if num ≥ 21 then .error ()
  else if (List.range words.length).any (fun i => anchored.contains i ∧ i ≥ combo) then
    .error ()
  else
    .ok (Combinations.permute words
      ((List.range words.length).filter fun i => ¬ anchored.contains i) combo)

/-- `Seed::from_args` (lines 63-118): parse, then build the plain or permuted
combination space. -/
def Seed.from_args (arg : Str) (combo_arg : Option Nat) : Except Unit Seed := do
  let (words, anchored) ← parseSeedArg arg
  let words ← match combo_arg with
    | none => .ok (Combinations.new words)
    | some combo => Seed.validate_combinations words combo anchored
  .ok (Seed.from_words words)

/-- The `fixed_positions` walk of `Seed::found` (lines 256-264), consuming one
engine token per varying position. -/
def foundLoop : List (Option Nat) → List Str → Except Unit (List Str × List Str)
  | [], remaining => .ok ([], remaining)
  | elem :: fps, remaining =>
    match elem with
    | some index => do
      let (seed, rem) ← foundLoop fps remaining
      .ok (BIP39_WORDS.getD index [] :: seed, rem)
    | none =>
      match remaining with
      | [] => .error ()
      | nxt :: rem0 => do
        let (seed, rem) ← foundLoop fps rem0
        .ok (nxt :: seed, rem)

/-- `Seed::found` (lines 252-274): rehydrate the engine match payload into the
full seed plus passphrase, or report exhaustion. -/
def Seed.found (s : Seed) (found : Option Str) : Except Unit Finished :=
  match found with
  | some f =>
    match foundLoop s.words.fixed_positions (splitSep ',' f) with
    | .error e => .error e
    | .ok (seed, rem) =>
      let passphrase := rem.headD []
      .ok (Finished.new (joinSep ',' seed) passphrase s.encoder.is_pure_gpu)
  | none => .ok (Finished.exhausted s.encoder.is_pure_gpu)

/-- `Seed::next` (words stream only). -/
def Seed.nextWords (s : Seed) : Option (List Nat) × Seed :=
  let (o, w) := s.words.next
  (o, ⟨w, s.encoder, s.args⟩)

/-- `Seed::next_valid` (lines 303-310): skip candidates failing the checksum,
yielding the stdin encoding of the first valid one; the fuel bounds the number
of `next` calls of the `while` loop. -/
def Seed.next_valid (s : Seed) : Nat → Option (List Nat) × Seed
  | 0 => (none, s)
  | fuel + 1 =>
    match s.nextWords with
    | (none, s') => (none, s')
    | (some nxt, s') =>
      if s'.encoder.valid_checksum nxt then (some (s'.encoder.encode_words nxt), s')
      else s'.next_valid fuel


/-- The interleaving described by the claim: fixed positions contribute their
word, varying positions consume the payload tokens in order. -/
def interleaveFixed : List (Option Nat) → List Str → List Str
  | [], _ => []
  | some i :: fps, toks => BIP39_WORDS.getD i [] :: interleaveFixed fps toks
  | none :: fps, tok :: toks => tok :: interleaveFixed fps toks
  | none :: _, [] => []

/-- The `found` walk errors exactly when the tokens run short of the varying
positions, and otherwise interleaves and leaves the unconsumed suffix. -/
theorem foundLoop_spec (fps : List (Option Nat)) (toks : List Str) :
    (toks.length < (fps.filter Option.isNone).length →
      foundLoop fps toks = .error ()) ∧
    ((fps.filter Option.isNone).length ≤ toks.length →
      foundLoop fps toks =
        .ok (interleaveFixed fps toks, toks.drop (fps.filter Option.isNone).length)) := by
  induction fps generalizing toks with
  | nil =>
    constructor
    · intro hlt
      simp at hlt
    · intro _
      simp [foundLoop, interleaveFixed]
  | cons elem fps ih =>
    cases elem with
    | some i =>
      constructor
      · intro hlt
        simp only [List.filter, Option.isNone] at hlt
        have := (ih toks).1 hlt
        simp [foundLoop, this, Bind.bind, Except.bind]
      · intro hge
        simp only [List.filter, Option.isNone] at hge
        have := (ih toks).2 hge
        simp [foundLoop, this, Bind.bind, Except.bind, interleaveFixed,
          List.filter, Option.isNone]
    | none =>
      cases toks with
      | nil =>
        constructor
        · intro _
          simp [foundLoop]
        · intro hge
          simp [List.filter, Option.isNone] at hge
      | cons t ts =>
        constructor
        · intro hlt
          simp only [List.filter, Option.isNone, List.length_cons] at hlt
          have := (ih ts).1 (by omega)
          simp [foundLoop, this, Bind.bind, Except.bind]
        · intro hge
          simp only [List.filter, Option.isNone, List.length_cons] at hge
          have := (ih ts).2 (by omega)
          simp [foundLoop, this, Bind.bind, Except.bind, interleaveFixed,
            List.filter, Option.isNone]

/-- C9: `Seed::found(Some(payload))` errors exactly when the comma-separated
payload has fewer tokens than the seed has varying positions; otherwise it
returns a `Finished` whose seed interleaves the fixed positions with the
payload tokens in position order and whose passphrase is the token following
the varying words, defaulting to `Some("")` (never `None`) when no extra token
is present. -/
theorem found_interleaves_and_defaults (s : Seed) (payload : Str) :
    ((splitSep ',' payload).length <
        (s.words.fixed_positions.filter Option.isNone).length →
      s.found (some payload) = .error ()) ∧
    ((s.words.fixed_positions.filter Option.isNone).length ≤
        (splitSep ',' payload).length →
      s.found (some payload) =
        .ok (Finished.new
          (joinSep ',' (interleaveFixed s.words.fixed_positions (splitSep ',' payload)))
          (((splitSep ',' payload).drop
            (s.words.fixed_positions.filter Option.isNone).length).headD [])
          s.encoder.is_pure_gpu)) := by
  have h := foundLoop_spec s.words.fixed_positions (splitSep ',' payload)
  constructor
  · intro hlt
    simp only [Seed.found, h.1 hlt]
  · intro hge
    simp only [Seed.found, h.2 hge]

/-- Witness for `found_interleaves_and_defaults`: a three-position seed fixed
at `absent` and `abstract` around one varying position, with a one-token
payload. -/
theorem found_interleaves_witness :
    (Seed.from_vecs [[5], [0, 1], [7]]).found (some (str "zone")) =
      .ok (Finished.new
        (joinSep ','
          (interleaveFixed (Seed.from_vecs [[5], [0, 1], [7]]).words.fixed_positions
            (splitSep ',' (str "zone"))))
        (((splitSep ',' (str "zone")).drop
          ((Seed.from_vecs [[5], [0, 1],
            [7]]).words.fixed_positions.filter Option.isNone).length).headD [])
        (Seed.from_vecs [[5], [0, 1], [7]]).encoder.is_pure_gpu) :=
  (found_interleaves_and_defaults (Seed.from_vecs [[5], [0, 1], [7]])
    (str "zone")).2 (by decide)


/-- Indexing into `dropLast` below the last position agrees with the original
list. -/
theorem getD_dropLast (l : List Nat) (i : Nat) (h : i < l.length - 1) :
    l.dropLast.getD i 0 = l.getD i 0 := by
  have h1 : i < l.dropLast.length := by
    simp only [List.length_dropLast]
    omega
  have h2 : i < l.length := by omega
  rw [List.getD_eq_getElem _ _ h1, List.getD_eq_getElem _ _ h2]
  exact List.getElem_dropLast l i h1

/-- The encoder's fold over guessed positions appends, in order, the two-byte
encodings of the non-terminal varying positions. -/
theorem encode_fold_flatMap (wordlist : List Nat) (l acc : List Nat) :
    l.foldl
      (fun enc i =>
        if i < wordlist.length - 1 then enc ++ encodeWord (wordlist.dropLast.getD i 0)
        else enc) acc =
      acc ++ (l.filter fun i => i < wordlist.length - 1).flatMap
        (fun i => encodeWord (wordlist.dropLast.getD i 0)) := by
  induction l generalizing acc with
  | nil => simp
  | cons x xs ih =>
    by_cases hx : x < wordlist.length - 1
    · rw [List.foldl_cons, if_pos hx, ih, List.filter_cons_of_pos (by simp [hx])]
      simp [List.flatMap_cons, List.append_assoc]
    · rw [List.foldl_cons, if_neg hx, ih, List.filter_cons_of_neg (by simp [hx])]

/-- C5: with the stdin encoder, each varying non-terminal position emits
exactly the two bytes `(index >> 6) + 48 + 5` and `(index & 63) + 48 + 6`, a
varying terminal position emits the single byte
`(index >> (11 - entropy_bits)) + 48 + entropy_bits`, fixed positions emit
nothing, and a seed with no varying positions encodes to the empty byte
sequence. -/
theorem encode_words_stdin_bytes (words : Combinations Nat) (wordlist : List Nat) :
    ((SeedEncoder.new words false).guessed = [] →
      (SeedEncoder.new words false).encode_words wordlist = []) ∧
    ((SeedEncoder.new words false).guessed ≠ [] →
      (SeedEncoder.new words false).encode_words wordlist =
        ((SeedEncoder.new words false).guessed.filter
            (fun i => i < wordlist.length - 1)).flatMap
          (fun i => [(wordlist.getD i 0 >>> 6) + 48 + 5,
            (wordlist.getD i 0 &&& 63) + 48 + 6]) ++
        (if (SeedEncoder.new words false).guessed.getLastD 0 = wordlist.length - 1 then
          [(wordlist.getLastD 0 >>> (11 - (SeedEncoder.new words false).entropy_bits)) +
            48 + (SeedEncoder.new words false).entropy_bits]
        else [])) := by
  constructor
  · intro hempty
    unfold SeedEncoder.encode_words
    rw [if_neg (by simp [SeedEncoder.new]), if_pos (by simp [hempty])]
  · intro hne
    unfold SeedEncoder.encode_words
    rw [if_neg (by simp [SeedEncoder.new]), if_neg (by simp [hne])]
    simp only [encode_fold_flatMap, List.nil_append]
    have hmap : (List.filter (fun i => decide (i < wordlist.length - 1))
          (SeedEncoder.new words false).guessed).flatMap
          (fun i => encodeWord (wordlist.dropLast.getD i 0)) =
        (List.filter (fun i => decide (i < wordlist.length - 1))
          (SeedEncoder.new words false).guessed).flatMap
          (fun i => [(wordlist.getD i 0 >>> 6) + 48 + 5,
            (wordlist.getD i 0 &&& 63) + 48 + 6]) := by
      refine List.flatMap_congr ?_
      intro i hi
      have hlt : i < wordlist.length - 1 := by
        have := List.of_mem_filter hi
        simpa using this
      rw [getD_dropLast _ _ hlt]
      rfl
    rw [hmap]
    by_cases hlast : (SeedEncoder.new words false).guessed.getLastD 0 =
        wordlist.length - 1
    · rw [if_pos hlast, if_pos hlast]
      rfl
    · rw [if_neg hlast, if_neg hlast, List.append_nil]

/-- Witness for `encode_words_stdin_bytes`: the repository's
`can_convert_words` example with varying positions 1, 5 and 11. -/
theorem encode_words_stdin_witness :
    (SeedEncoder.new
        (Combinations.new
          [[0], [0, 0], [0], [0], [0], [2047, 2047], [0], [0], [0], [0], [0],
            [1500, 1500]]) false).guessed ≠ [] ∧
      (SeedEncoder.new
          (Combinations.new
            [[0], [0, 0], [0], [0], [0], [2047, 2047], [0], [0], [0], [0], [0],
              [1500, 1500]]) false).encode_words
          [0, 0, 0, 0, 0, 2047, 0, 0, 0, 0, 0, 1500] =
        [53, 54, 84, 117, 148] := by
  refine ⟨by decide, ?_⟩
  rw [(encode_words_stdin_bytes
    (Combinations.new
      [[0], [0, 0], [0], [0], [0], [2047, 2047], [0], [0], [0], [0], [0],
        [1500, 1500]])
    [0, 0, 0, 0, 0, 2047, 0, 0, 0, 0, 0, 1500]).2 (by decide)]
  decide


/-! ## Spec-side definitions (C2), following the specification text -/

/-- The candidate's 11-bit word indices concatenated into one bitstream,
read as a big-endian natural number of `11 * L` bits. -/
def specIndexBits (wl : List Nat) : Nat :=
  wl.foldl (fun acc w => acc * 2 ^ 11 + w) 0

/-- The first `bits` bits of a value, serialised as big-endian bytes
(`bits` is a multiple of 8). -/
def specBytes (value bits : Nat) : List Nat :=
  (List.range (bits / 8)).map fun i => value >>> (bits - 8 * (i + 1)) % 2 ^ 8

/-- The specification's checksum condition: the low `11*L mod 32` bits of the
last word must equal the high `11*L mod 32` bits of the SHA-256 of the first
`11*L - (11*L mod 32)` bits of the concatenated indices. -/
def specChecksumOk (wl : List Nat) : Bool :=
  let L := wl.length
  let cb := 11 * L % 32
  let entropy := specIndexBits wl >>> cb
  let hash := sha256 (specBytes entropy (11 * L - cb))
  wl.getLastD 0 % 2 ^ cb == hash.getD 0 0 >>> (8 - cb)

/-! ## Bit-packing helper lemmas -/

theorem shiftRight_mod_two_pow (y n k : Nat) :
    (y % 2 ^ n) >>> k = (y >>> k) % 2 ^ (n - k) := by
  apply Nat.eq_of_testBit_eq
  intro i
  simp only [Nat.testBit_shiftRight, Nat.testBit_mod_two_pow]
  by_cases h : k + i < n
  · simp [h, show i < n - k by omega]
  · simp [h, show ¬ i < n - k by omega]

theorem shiftRight_add_small (a y : Nat) {s t : Nat} (hst : s ≤ t) (hy : y < 2 ^ s) :
    (a * 2 ^ s + y) >>> t = (a * 2 ^ s) >>> t := by
  have hpos : 0 < (2 : Nat) ^ s := by positivity
  have h2 : (2 : Nat) ^ t = 2 ^ s * 2 ^ (t - s) := by
    rw [← pow_add]
    congr 1
    omega
  rw [Nat.shiftRight_eq_div_pow, Nat.shiftRight_eq_div_pow, h2,
    ← Nat.div_div_eq_div_mul, ← Nat.div_div_eq_div_mul]
  congr 1
  rw [Nat.add_comm, Nat.mul_comm a, Nat.add_mul_div_left _ _ hpos,
    Nat.div_eq_of_lt hy, Nat.zero_add, Nat.mul_div_cancel_left _ hpos]

theorem shiftLeft_mod_two_pow (x n m : Nat) (h : n ≤ m) :
    (x <<< n) % 2 ^ m = (x % 2 ^ (m - n)) <<< n := by
  rw [Nat.shiftLeft_eq, Nat.shiftLeft_eq,
    show (2:Nat) ^ m = 2 ^ (m - n) * 2 ^ n by rw [← pow_add]; congr 1; omega,
    Nat.mul_mod_mul_right]

theorem mod_add_small (X y m o : Nat) (ho : o ≤ m)
    (hX : X % 2 ^ o = 0) (hy : y < 2 ^ o) :
    (X + y) % 2 ^ m = X % 2 ^ m + y := by
  have hdvd : (2:Nat) ^ o ∣ X := Nat.dvd_of_mod_eq_zero hX
  have hdvd2 : (2:Nat) ^ o ∣ 2 ^ m := pow_dvd_pow 2 ho
  have h3 : (2:Nat) ^ o ∣ X % 2 ^ m := (Nat.dvd_mod_iff hdvd2).mpr hdvd
  have h4 : X % 2 ^ m < 2 ^ m := Nat.mod_lt _ (by positivity)
  have h5 : X % 2 ^ m + y < 2 ^ m := by
    rcases h3 with ⟨q, hq⟩
    have hq2 : q < 2 ^ (m - o) := by
      by_contra hcon
      push_neg at hcon
      have : (2:Nat) ^ o * 2 ^ (m - o) ≤ 2 ^ o * q :=
        Nat.mul_le_mul_left _ hcon
      rw [← pow_add, show o + (m - o) = m by omega] at this
      omega
    have hq3 : q + 1 ≤ 2 ^ (m - o) := hq2
    have : (2:Nat) ^ o * (q + 1) ≤ 2 ^ o * 2 ^ (m - o) :=
      Nat.mul_le_mul_left _ hq3
    rw [← pow_add, show o + (m - o) = m by omega] at this
    nlinarith [hy, hq]
  rw [Nat.add_mod, Nat.mod_eq_of_lt (lt_of_lt_of_le hy (Nat.pow_le_pow_right (by norm_num) ho)),
    Nat.mod_eq_of_lt h5]

theorem shifted_mod_zero (a s t m : Nat) (h : t + m ≤ s) :
    ((a * 2 ^ s) >>> t) % 2 ^ m = 0 := by
  rw [Nat.shiftRight_eq_div_pow,
    show (2:Nat) ^ s = 2 ^ (s - t) * 2 ^ t by rw [← pow_add]; congr 1; omega,
    ← Nat.mul_assoc, Nat.mul_div_cancel _ (by positivity : (0:Nat) < 2 ^ t)]
  have hdvd : (2:Nat) ^ m ∣ a * 2 ^ (s - t) :=
    Dvd.dvd.mul_left (pow_dvd_pow 2 (by omega)) a
  exact Nat.mod_eq_zero_of_dvd hdvd

theorem add_mul_shiftRight (a y n k : Nat) (h : k ≤ n) :
    (a * 2 ^ n + y) >>> k = a * 2 ^ (n - k) + y >>> k := by
  rw [Nat.shiftRight_eq_div_pow, Nat.shiftRight_eq_div_pow, Nat.add_comm,
    show a * 2 ^ n = a * 2 ^ (n - k) * 2 ^ k by
      rw [Nat.mul_assoc, ← pow_add]; congr 2; omega,
    Nat.add_mul_div_right _ _ (by positivity : (0:Nat) < 2 ^ k), Nat.add_comm]

theorem ones_shiftRight (m n : Nat) (h : n ≤ m) :
    (2 ^ m - 1) >>> n = 2 ^ (m - n) - 1 := by
  apply Nat.eq_of_testBit_eq
  intro i
  rw [Nat.testBit_shiftRight, Nat.testBit_two_pow_sub_one, Nat.testBit_two_pow_sub_one]
  by_cases hi : n + i < m
  · simp [hi, show i < m - n by omega]
  · simp [hi, show ¬ i < m - n by omega]

theorem and_mask_hi (w c W : Nat) (hw : w < 2 ^ W) (hc : c ≤ W) :
    w &&& (2 ^ W - 2 ^ c) = (w >>> c) <<< c := by
  have hmask : (2:Nat) ^ W - 2 ^ c = 2 ^ c * (2 ^ (W - c) - 1) := by
    rw [Nat.mul_sub, Nat.mul_one, ← pow_add]
    congr 2
    omega
  apply Nat.eq_of_testBit_eq
  intro i
  rw [Nat.testBit_and, hmask, Nat.testBit_mul_pow_two, Nat.testBit_shiftLeft,
    Nat.testBit_shiftRight]
  rcases lt_or_le i c with h | h
  · simp [show ¬ c ≤ i by omega]
  · rcases lt_or_le i W with h2 | h2
    · simp [h, Nat.testBit_two_pow_sub_one, Nat.add_sub_cancel' h,
        show i - c < W - c by omega]
    · have hwz : w.testBit i = false :=
        Nat.testBit_lt_two_pow (lt_of_lt_of_le hw (Nat.pow_le_pow_right (by norm_num) h2))
      simp [h, hwz, Nat.testBit_two_pow_sub_one, Nat.add_sub_cancel' h]

/-- The 32-bit words of the packing buffer after `b` bits holding the value
`A` have been written, left-aligned in a `32*K`-bit buffer. -/
def packE (K A b : Nat) : List Nat :=
  (List.range K).map fun j => (A <<< (32 * K - b)) >>> (32 * (K - 1 - j)) % 2 ^ 32

theorem packE_length (K A b : Nat) : (packE K A b).length = K := by
  simp [packE]

theorem packE_getD (K X c j : Nat) (hj : j < K) :
    (packE K X c).getD j 0 =
      (X <<< (32 * K - c)) >>> (32 * (K - 1 - j)) % 2 ^ 32 := by
  rw [List.getD_eq_getElem?_getD]
  simp [packE, List.getElem?_map, List.getElem?_range, hj]

theorem packE_getElem (K X c j : Nat) (_hj : j < K)
    (hlen : j < (packE K X c).length) :
    (packE K X c)[j] =
      (X <<< (32 * K - c)) >>> (32 * (K - 1 - j)) % 2 ^ 32 := by
  simp [packE]

theorem entry_eq {A s t : Nat} (hst : t ≤ s) (h32 : s - t ≤ 32) :
    (A <<< s) >>> t % 2 ^ 32 = (A % 2 ^ (32 - (s - t))) <<< (s - t) := by
  rw [Nat.shiftLeft_eq,
    show A * 2 ^ s = A * 2 ^ (s - t) * 2 ^ t by
      rw [Nat.mul_assoc, ← pow_add]; congr 2; omega,
    Nat.shiftRight_eq_div_pow,
    Nat.mul_div_cancel _ (by positivity : (0:Nat) < 2 ^ t),
    ← Nat.shiftLeft_eq, shiftLeft_mod_two_pow _ _ _ h32]

theorem entry_zero {A s t : Nat} (h : t + 32 ≤ s) :
    (A <<< s) >>> t % 2 ^ 32 = 0 := by
  rw [Nat.shiftLeft_eq]
  exact shifted_mod_zero A s t 32 h

theorem entry_high {A w s t : Nat} (h11 : 11 ≤ s) (hts : s ≤ t) (hw : w < 2 ^ 11) :
    ((A * 2 ^ 11 + w) <<< (s - 11)) >>> t % 2 ^ 32 = (A <<< s) >>> t % 2 ^ 32 := by
  have hy : w * 2 ^ (s - 11) < 2 ^ s := by
    calc w * 2 ^ (s - 11) < 2 ^ 11 * 2 ^ (s - 11) := by
          exact (Nat.mul_lt_mul_right (by positivity)).mpr hw
    _ = 2 ^ s := by rw [← pow_add]; congr 1; omega
  rw [Nat.shiftLeft_eq, Nat.shiftLeft_eq,
    show (A * 2 ^ 11 + w) * 2 ^ (s - 11) = A * 2 ^ s + w * 2 ^ (s - 11) by
      rw [Nat.add_mul, Nat.mul_assoc, ← pow_add]
      congr 3
      omega,
    shiftRight_add_small _ _ hts hy]

theorem mul_pow_shiftRight (x n k : Nat) (h : n ≤ k) :
    (x * 2 ^ n) >>> k = x >>> (k - n) := by
  rw [Nat.shiftRight_eq_div_pow, Nat.shiftRight_eq_div_pow,
    show (2:Nat) ^ k = 2 ^ n * 2 ^ (k - n) by rw [← pow_add]; congr 1; omega,
    ← Nat.div_div_eq_div_mul, Nat.mul_div_cancel _ (by positivity : (0:Nat) < 2 ^ n)]

theorem shiftRight_lt {y n k : Nat} (hy : y < 2 ^ n) (h : k ≤ n) :
    y >>> k < 2 ^ (n - k) := by
  rw [Nat.shiftRight_eq_div_pow]
  apply Nat.div_lt_of_lt_mul
  calc y < 2 ^ n := hy
  _ = 2 ^ k * 2 ^ (n - k) := by rw [← pow_add]; congr 1; omega

theorem mod_mul_add (A w r : Nat) (hw : w < 2 ^ 11) :
    (A * 2 ^ 11 + w) % 2 ^ (r + 11) = A % 2 ^ r * 2 ^ 11 + w := by
  rw [mod_add_small (A * 2 ^ 11) w (r + 11) 11 (by omega) (Nat.mul_mod_left _ _) hw,
    show (2:Nat) ^ (r + 11) = 2 ^ r * 2 ^ 11 by rw [pow_add],
    Nat.mul_mod_mul_right]

theorem add_mul_mod_small (A w k : Nat) (h : k ≤ 11) :
    (A * 2 ^ 11 + w) % 2 ^ k = w % 2 ^ k := by
  rw [Nat.add_mod,
    Nat.mod_eq_zero_of_dvd (Dvd.dvd.mul_left (pow_dvd_pow 2 h) A),
    Nat.zero_add, Nat.mod_mod_of_dvd _ dvd_rfl]

set_option maxHeartbeats 1000000 in
theorem packE_step_noSpill (K A b w : Nat) (hw : w < 2 ^ 11)
    (hcap : b + 11 ≤ 32 * K) (hb : b % 32 ≤ 20) :
    (packE K A b).set (b / 32)
      ((packE K A b).getD (b / 32) 0 ||| w32 (w <<< (21 - b % 32))) =
      packE K (A * 2 ^ 11 + w) (b + 11) := by
  have hqK : b / 32 < K := by omega
  apply List.ext_getElem
  · simp [packE]
  intro j h1 h2
  have hjK : j < K := by simpa [packE] using h2
  have hlb : j < (packE K A b).length := by
    rw [packE_length]
    exact hjK
  rw [List.getElem_set, packE_getElem _ _ _ _ hjK h2]
  by_cases hij : b / 32 = j
  · subst hij
    rw [if_pos rfl, packE_getD _ _ _ _ hqK]
    have ht : 32 * (K - 1 - b / 32) = 32 * K - b - (32 - b % 32) := by omega
    have ht' : 32 * (K - 1 - b / 32) = 32 * K - (b + 11) - (21 - b % 32) := by omega
    rw [entry_eq (by omega) (by omega), entry_eq (by omega) (by omega)]
    rw [show 32 * K - b - 32 * (K - 1 - b / 32) = 32 - b % 32 by omega,
      show 32 * K - (b + 11) - 32 * (K - 1 - b / 32) = 21 - b % 32 by omega,
      show 32 - (32 - b % 32) = b % 32 by omega,
      show 32 - (21 - b % 32) = b % 32 + 11 by omega]
    rw [mod_mul_add _ _ _ hw]
    have hval : w32 (w <<< (21 - b % 32)) = w * 2 ^ (21 - b % 32) := by
      rw [w32, Nat.shiftLeft_eq, Nat.mod_eq_of_lt]
      calc w * 2 ^ (21 - b % 32) < 2 ^ 11 * 2 ^ (21 - b % 32) :=
            (Nat.mul_lt_mul_right (by positivity)).mpr hw
      _ ≤ 2 ^ 32 := by
          rw [← pow_add]
          exact Nat.pow_le_pow_right (by norm_num) (by omega)
    rw [hval, Nat.shiftLeft_eq, Nat.shiftLeft_eq, Nat.add_mul, Nat.mul_assoc,
      ← pow_add, show 11 + (21 - b % 32) = 32 - b % 32 by omega]
    rw [show A % 2 ^ (b % 32) * 2 ^ (32 - b % 32) =
        2 ^ (32 - b % 32) * (A % 2 ^ (b % 32)) by ring]
    rw [← Nat.mul_add_lt_is_or _ (A % 2 ^ (b % 32))]
    calc w * 2 ^ (21 - b % 32) < 2 ^ 11 * 2 ^ (21 - b % 32) :=
          (Nat.mul_lt_mul_right (by positivity)).mpr hw
    _ = 2 ^ (32 - b % 32) := by rw [← pow_add]; congr 1; omega
  · rw [if_neg hij, packE_getElem _ _ _ _ hjK hlb]
    rcases lt_or_le j (b / 32) with hlt | hge
    · rw [show 32 * K - (b + 11) = 32 * K - b - 11 by omega]
      exact (entry_high (by omega) (by omega) hw).symm
    · have hgt : b / 32 < j := by omega
      rw [entry_zero (by omega), entry_zero (by omega)]

set_option maxHeartbeats 1000000 in
theorem packE_step_spill (K A b w : Nat) (hw : w < 2 ^ 11)
    (hcap : b + 11 ≤ 32 * K) (hb : 22 ≤ b % 32) :
    (((packE K A b).set (b / 32)
        ((packE K A b).getD (b / 32) 0 ||| (w >>> (b % 32 - 21)))).set (b / 32 + 1)
      ((((packE K A b).set (b / 32)
        ((packE K A b).getD (b / 32) 0 ||| (w >>> (b % 32 - 21)))).getD
          (b / 32 + 1) 0) ||| w32 (w <<< (53 - b % 32)))) =
      packE K (A * 2 ^ 11 + w) (b + 11) := by
  have hqK : b / 32 < K := by omega
  have hq1K : b / 32 + 1 < K := by omega
  have hwlt : w >>> (b % 32 - 21) < 2 ^ (32 - b % 32) := by
    have h := shiftRight_lt hw (show b % 32 - 21 ≤ 11 by omega)
    rwa [show 11 - (b % 32 - 21) = 32 - b % 32 by omega] at h
  have hEq1 : (packE K A b).getD (b / 32 + 1) 0 = 0 := by
    rw [packE_getD _ _ _ _ hq1K]
    exact entry_zero (by omega)
  have hgetD : ((packE K A b).set (b / 32)
      ((packE K A b).getD (b / 32) 0 ||| (w >>> (b % 32 - 21)))).getD
        (b / 32 + 1) 0 = 0 := by
    rw [List.getD_eq_getElem?_getD, List.getElem?_set_ne (by omega),
      ← List.getD_eq_getElem?_getD, hEq1]
  rw [hgetD, Nat.zero_or]
  apply List.ext_getElem
  · simp [packE]
  intro j h1 h2
  have hjK : j < K := by simpa [packE] using h2
  have hlb : j < (packE K A b).length := by
    rw [packE_length]
    exact hjK
  have hlb2 : j < ((packE K A b).set (b / 32)
      ((packE K A b).getD (b / 32) 0 ||| (w >>> (b % 32 - 21)))).length := by
    rw [List.length_set, packE_length]
    exact hjK
  rw [List.getElem_set, packE_getElem _ _ _ _ hjK h2]
  by_cases hij2 : b / 32 + 1 = j
  · subst hij2
    rw [if_pos rfl]
    rw [entry_eq (by omega) (by omega),
      show 32 * K - (b + 11) - 32 * (K - 1 - (b / 32 + 1)) = 53 - b % 32 by omega,
      show 32 - (53 - b % 32) = b % 32 - 21 by omega,
      add_mul_mod_small _ _ _ (by omega)]
    rw [w32, show (4294967296:Nat) = 2 ^ 32 by norm_num,
      shiftLeft_mod_two_pow _ _ _ (by omega),
      show 32 - (53 - b % 32) = b % 32 - 21 by omega]
  · rw [if_neg hij2, List.getElem_set]
    by_cases hij : b / 32 = j
    · subst hij
      rw [if_pos rfl, packE_getD _ _ _ _ hqK]
      have hL : (A <<< (32 * K - b)) >>> (32 * (K - 1 - b / 32)) % 2 ^ 32 =
          2 ^ (32 - b % 32) * (A % 2 ^ (b % 32)) := by
        rw [entry_eq (by omega) (by omega),
          show 32 * K - b - 32 * (K - 1 - b / 32) = 32 - b % 32 by omega,
          show 32 - (32 - b % 32) = b % 32 by omega, Nat.shiftLeft_eq]
        ring
      have hR : ((A * 2 ^ 11 + w) <<< (32 * K - (b + 11))) >>>
            (32 * (K - 1 - b / 32)) % 2 ^ 32 =
          2 ^ (32 - b % 32) * (A % 2 ^ (b % 32)) + w >>> (b % 32 - 21) := by
        rw [Nat.shiftLeft_eq, mul_pow_shiftRight _ _ _ (by omega),
          show 32 * (K - 1 - b / 32) - (32 * K - (b + 11)) = b % 32 - 21 by omega,
          add_mul_shiftRight _ _ _ _ (by omega),
          show 11 - (b % 32 - 21) = 32 - b % 32 by omega,
          mod_add_small _ _ 32 (32 - b % 32) (by omega) (Nat.mul_mod_left _ _) hwlt,
          ← Nat.shiftLeft_eq, shiftLeft_mod_two_pow _ _ _ (by omega),
          show 32 - (32 - b % 32) = b % 32 by omega, Nat.shiftLeft_eq]
        ring
      rw [hL, hR, ← Nat.mul_add_lt_is_or hwlt _]
    · rw [if_neg hij, packE_getElem _ _ _ _ hjK hlb]
      rcases lt_or_le j (b / 32) with hlt | hge
      · rw [show 32 * K - (b + 11) = 32 * K - b - 11 by omega]
        exact (entry_high (by omega) (by omega) hw).symm
      · rw [entry_zero (by omega), entry_zero (by omega)]

set_option maxHeartbeats 1000000 in
theorem packE_last (K A b y : Nat) (hK : 0 < K)
    (hqb : 32 * K - 32 ≤ b) (hble : b ≤ 32 * K) (hy : y < 2 ^ (32 * K - b)) :
    (packE K A b).set (K - 1) ((packE K A b).getD (K - 1) 0 ||| y) =
      packE K (A * 2 ^ (32 * K - b) + y) (32 * K) := by
  apply List.ext_getElem
  · simp [packE]
  intro j h1 h2
  have hjK : j < K := by simpa [packE] using h2
  have hlb : j < (packE K A b).length := by
    rw [packE_length]
    exact hjK
  rw [List.getElem_set, packE_getElem _ _ _ _ hjK h2, Nat.sub_self,
    Nat.shiftLeft_zero]
  by_cases hij : K - 1 = j
  · subst hij
    rw [if_pos rfl, packE_getD _ _ _ _ (by omega),
      show 32 * (K - 1 - (K - 1)) = 0 by omega, Nat.shiftRight_zero,
      Nat.shiftRight_zero,
      mod_add_small _ _ 32 (32 * K - b) (by omega) (Nat.mul_mod_left _ _) hy,
      ← Nat.shiftLeft_eq, shiftLeft_mod_two_pow _ _ _ (by omega),
      Nat.shiftLeft_eq,
      show A % 2 ^ (32 - (32 * K - b)) * 2 ^ (32 * K - b) =
        2 ^ (32 * K - b) * (A % 2 ^ (32 - (32 * K - b))) by ring,
      ← Nat.mul_add_lt_is_or hy _]
  · rw [if_neg hij, packE_getElem _ _ _ _ hjK hlb,
      shiftRight_add_small _ _ (show 32 * K - b ≤ 32 * (K - 1 - j) by omega) hy,
      ← Nat.shiftLeft_eq]

set_option maxHeartbeats 1000000 in
theorem vcLoop_inv (K : Nat) (ws : List Nat) : ∀ (A b : Nat),
    (∀ w ∈ ws, w < 2 ^ 11) →
    b + 11 * ws.length ≤ 32 * K →
    (∀ i, i ≤ ws.length → (b + 11 * i) % 32 = 0 → b + 11 * i = 0) →
    vcLoop ws ((32:Int) - (b % 32 : Nat)) (b / 32) (packE K A b) =
      (packE K (ws.foldl (fun a w => a * 2 ^ 11 + w) A) (b + 11 * ws.length),
        (32:Int) - ((b + 11 * ws.length) % 32 : Nat),
        (b + 11 * ws.length) / 32) := by
  induction ws with
  | nil =>
    intro A b hw hcap hbnd
    simp [vcLoop]
  | cons w rest ih =>
    intro A b hw hcap hbnd
    have hw0 : w < 2 ^ 11 := hw w (by simp)
    have hlen : (w :: rest).length = rest.length + 1 := by simp
    have hb21 : b % 32 ≠ 21 := by
      intro h
      have := hbnd 1 (by simp) (by omega)
      omega
    rw [show b + 11 * (w :: rest).length = b + 11 + 11 * rest.length by
      rw [hlen]; ring]
    rw [List.foldl_cons]
    have hcap' : b + 11 + 11 * rest.length ≤ 32 * K := by
      rw [hlen] at hcap
      omega
    have hbnd' : ∀ i, i ≤ rest.length → (b + 11 + 11 * i) % 32 = 0 →
        b + 11 + 11 * i = 0 := by
      intro i hi hz
      have := hbnd (i + 1) (by rw [hlen]; omega) (by omega)
      omega
    have hw' : ∀ x ∈ rest, x < 2 ^ 11 := fun x hx => hw x (by simp [hx])
    simp only [vcLoop]
    by_cases hcase : b % 32 ≤ 20
    · rw [if_neg (by omega)]
      rw [show ((32:Int) - (b % 32 : Nat) - 11).toNat = 21 - b % 32 by omega]
      rw [packE_step_noSpill K A b w hw0 (by omega) hcase]
      rw [show ((32:Int) - (b % 32 : Nat) - 11) =
        (32:Int) - ((b + 11) % 32 : Nat) by omega]
      rw [show b / 32 = (b + 11) / 32 by omega]
      exact ih (A * 2 ^ 11 + w) (b + 11) hw' hcap' hbnd'
    · have hge : 22 ≤ b % 32 := by omega
      rw [if_pos (by omega)]
      rw [show (-((32:Int) - (b % 32 : Nat) - 11)).toNat = b % 32 - 21 by omega]
      rw [show ((32:Int) - (b % 32 : Nat) - 11 + 32).toNat = 53 - b % 32 by omega]
      rw [packE_step_spill K A b w hw0 (by omega) hge]
      rw [show ((32:Int) - (b % 32 : Nat) - 11 + 32) =
        (32:Int) - ((b + 11) % 32 : Nat) by omega]
      rw [show b / 32 + 1 = (b + 11) / 32 by omega]
      exact ih (A * 2 ^ 11 + w) (b + 11) hw' hcap' hbnd'

theorem mod_mod_pow (x m n : Nat) (h : n ≤ m) : x % 2 ^ m % 2 ^ n = x % 2 ^ n :=
  Nat.mod_mod_of_dvd _ (pow_dvd_pow 2 h)

theorem byte_slice (V a c : Nat) (hc : c ≤ 24) :
    ((V >>> a) % 2 ^ 32) >>> c % 256 = V >>> (a + c) % 256 := by
  rw [show (256:Nat) = 2 ^ 8 by norm_num, shiftRight_mod_two_pow,
    ← Nat.shiftRight_add, mod_mod_pow _ _ _ (by omega)]

set_option maxHeartbeats 1000000 in
theorem flatMap_beBytes4_packE (K : Nat) : ∀ V : Nat,
    (packE K V (32 * K)).flatMap beBytes4 = specBytes V (32 * K) := by
  induction K with
  | zero =>
    intro V
    simp [packE, specBytes]
  | succ K ih =>
    intro V
    have hpack : packE (K + 1) V (32 * (K + 1)) =
        (V >>> (32 * K) % 2 ^ 32) :: packE K (V % 2 ^ (32 * K)) (32 * K) := by
      rw [packE, packE, List.range_succ_eq_map, List.map_cons, List.map_map]
      congr 1
      · rw [show 32 * (K + 1) - 32 * (K + 1) = 0 by omega, Nat.shiftLeft_zero,
          show K + 1 - 1 - 0 = K by omega]
      · apply List.map_congr_left
        intro j hj
        have hjK : j < K := List.mem_range.mp hj
        simp only [Function.comp]
        rw [show 32 * (K + 1) - 32 * (K + 1) = 0 by omega, Nat.shiftLeft_zero,
          show 32 * K - 32 * K = 0 by omega, Nat.shiftLeft_zero,
          show K + 1 - 1 - (j + 1) = K - 1 - j by omega,
          shiftRight_mod_two_pow, mod_mod_pow _ _ _ (by omega)]
    rw [hpack, List.flatMap_cons, ih (V % 2 ^ (32 * K))]
    rw [specBytes, specBytes,
      show 32 * (K + 1) / 8 = 4 + 4 * K by omega,
      show 32 * K / 8 = 4 * K by omega,
      List.range_add, List.map_append,
      show List.range 4 = [0, 1, 2, 3] from rfl]
    congr 1
    · simp only [List.map_cons, List.map_nil, beBytes4]
      rw [byte_slice _ _ _ (by omega), byte_slice _ _ _ (by omega),
        byte_slice _ _ _ (by omega),
        show (256:Nat) = 2 ^ 8 by norm_num, mod_mod_pow _ _ _ (by omega),
        show 32 * (K + 1) - 8 * (0 + 1) = 32 * K + 24 by omega,
        show 32 * (K + 1) - 8 * (1 + 1) = 32 * K + 16 by omega,
        show 32 * (K + 1) - 8 * (2 + 1) = 32 * K + 8 by omega,
        show 32 * (K + 1) - 8 * (3 + 1) = 32 * K by omega]
    · rw [List.map_map]
      apply List.map_congr_left
      intro i hi
      have hiK : i < 4 * K := List.mem_range.mp hi
      simp only [Function.comp]
      rw [shiftRight_mod_two_pow, mod_mod_pow _ _ _ (by omega),
        show 32 * (K + 1) - 8 * (4 + i + 1) = 32 * K - 8 * (i + 1) by omega]

theorem packE_zero (K : Nat) : packE K 0 0 = List.replicate K 0 := by
  simp [packE, List.eq_replicate_iff]

theorem foldl_pack_lt (ws : List Nat) : ∀ A b,
    (∀ w ∈ ws, w < 2 ^ 11) → A < 2 ^ b →
    ws.foldl (fun a w => a * 2 ^ 11 + w) A < 2 ^ (b + 11 * ws.length) := by
  induction ws with
  | nil =>
    intro A b _ hA
    simpa using hA
  | cons w rest ih =>
    intro A b hw hA
    rw [List.foldl_cons, show b + 11 * (w :: rest).length =
      (b + 11) + 11 * rest.length by simp; ring]
    apply ih _ _ (fun x hx => hw x (by simp [hx]))
    calc A * 2 ^ 11 + w < A * 2 ^ 11 + 2 ^ 11 := by
          have := hw w (by simp)
          omega
    _ = (A + 1) * 2 ^ 11 := by ring
    _ ≤ 2 ^ b * 2 ^ 11 := by
        have : A + 1 ≤ 2 ^ b := hA
        exact Nat.mul_le_mul_right _ this
    _ = 2 ^ (b + 11) := by rw [← pow_add]

theorem mask_hi_val (c : Nat) (hc : c ≤ 32) :
    w32 (0xFFFFFFFF <<< c) = 2 ^ 32 - 2 ^ c := by
  rw [w32, show (4294967296:Nat) = 2 ^ 32 by norm_num,
    show (0xFFFFFFFF:Nat) = 2 ^ 32 - 1 by norm_num]
  have hmask : (2:Nat) ^ 32 - 2 ^ c = 2 ^ c * (2 ^ (32 - c) - 1) := by
    rw [Nat.mul_sub, Nat.mul_one, ← pow_add]
    congr 2
    omega
  apply Nat.eq_of_testBit_eq
  intro i
  rw [Nat.testBit_mod_two_pow, Nat.testBit_shiftLeft, hmask,
    Nat.testBit_mul_pow_two, Nat.testBit_two_pow_sub_one,
    Nat.testBit_two_pow_sub_one]
  by_cases h1 : c ≤ i
  · by_cases h2 : i < 32
    · simp [h1, h2, show i - c < 32 - c by omega, show i - c < 32 by omega]
    · simp [h1, h2, show ¬ (i - c < 32 - c) by omega]
  · simp [h1, show ¬ i ≥ c by omega]

set_option maxHeartbeats 2000000 in
theorem valid_checksum_spec_aux (e : SeedEncoder) (wl : List Nat) (L K : Nat)
    (hlen : wl.length = L) (hL1 : 1 ≤ L)
    (hcb : e.checksum_bits = 11 * L % 32)
    (hte : e.total_entropy = 11 * L - 11 * L % 32)
    (hK : 11 * L - 11 * L % 32 = 32 * K) (hK1 : 1 ≤ K)
    (hcb1 : 1 ≤ 11 * L % 32) (hcb8 : 11 * L % 32 ≤ 8)
    (hbnd : ∀ i, i ≤ L - 1 → 11 * i % 32 = 0 → 11 * i = 0)
    (hw : ∀ w ∈ wl, w < 2 ^ 11) :
    e.valid_checksum wl = specChecksumOk wl := by
  have hne : wl ≠ [] := by
    intro h
    rw [h] at hlen
    simp at hlen
    omega
  obtain ⟨d, lw, rfl⟩ : ∃ d lw, wl = d ++ [lw] :=
    ⟨wl.dropLast, wl.getLast hne, (List.dropLast_append_getLast hne).symm⟩
  have hdlen : d.length = L - 1 := by
    simp at hlen
    omega
  have hwd : ∀ w ∈ d, w < 2 ^ 11 := fun x hx => hw x (by simp [hx])
  have hwlast : lw < 2 ^ 11 := hw lw (by simp)
  have hloop := vcLoop_inv K d 0 0 hwd
    (by rw [hdlen]; omega)
    (by intro i hi hz; rw [hdlen] at hi; have := hbnd i hi (by omega); omega)
  simp only [Nat.zero_mod, Nat.cast_zero, sub_zero, Nat.zero_div,
    Nat.zero_add, hdlen] at hloop
  simp only [SeedEncoder.valid_checksum, specChecksumOk, hcb, hte,
    List.dropLast_concat, List.getLastD_concat,
    show (11 * L - 11 * L % 32) / 32 = K by omega, ← packE_zero]
  rw [hloop, hlen]
  dsimp only
  have h1 : 11 * (L - 1) = 32 * (K - 1) + (11 * L % 32 + 21) := by omega
  have hr : 11 * (L - 1) % 32 = 11 * L % 32 + 21 := by
    rw [h1, Nat.add_comm, Nat.add_mul_mod_self_left]
    exact Nat.mod_eq_of_lt (by omega)
  have hq : 11 * (L - 1) / 32 = K - 1 := by
    rw [h1, Nat.add_comm, Nat.add_mul_div_left _ _ (by norm_num : (0:Nat) < 32),
      Nat.div_eq_of_lt (by omega), Nat.zero_add]
  rw [show (-(32 - ((11 * (L - 1) % 32 : Nat) : Int) - 11)).toNat = 11 * L % 32 by
      rw [hr]; omega,
    hq,
    mask_hi_val _ (by omega),
    and_mask_hi lw (11 * L % 32) 32 (lt_trans hwlast (by norm_num)) (by omega),
    Nat.shiftLeft_eq, mul_pow_shiftRight _ _ _ (le_refl _), Nat.sub_self,
    Nat.shiftRight_zero]
  have hy : lw >>> (11 * L % 32) < 2 ^ (32 * K - 11 * (L - 1)) := by
    have h := shiftRight_lt hwlast (show 11 * L % 32 ≤ 11 by omega)
    rwa [show 11 - 11 * L % 32 = 32 * K - 11 * (L - 1) by omega] at h
  rw [show (4294967295:Nat) = 2 ^ 32 - 1 by norm_num,
    ones_shiftRight _ _ (by omega),
    show 32 - (32 - 11 * L % 32) = 11 * L % 32 by omega,
    Nat.and_pow_two_sub_one_eq_mod,
    packE_last K _ _ _ (by omega) (by omega) (by omega) hy,
    flatMap_beBytes4_packE]
  rw [specIndexBits, List.foldl_append, List.foldl_cons, List.foldl_nil]
  rw [add_mul_shiftRight _ _ _ _ (show 11 * L % 32 ≤ 11 by omega),
    show 11 - 11 * L % 32 = 32 * K - 11 * (L - 1) by omega, hK]

/-- The checksum equivalence over the five valid lengths. -/
theorem valid_checksum_spec (e : SeedEncoder) (wl : List Nat) (L : Nat)
    (hL : L ∈ VALID_LENGTHS) (hlen : wl.length = L)
    (hcb : e.checksum_bits = 11 * L % 32)
    (hte : e.total_entropy = 11 * L - 11 * L % 32)
    (hw : ∀ w ∈ wl, w < 2 ^ 11) :
    e.valid_checksum wl = specChecksumOk wl := by
  have hL' : L = 12 ∨ L = 15 ∨ L = 18 ∨ L = 21 ∨ L = 24 := by
    simpa [VALID_LENGTHS] using hL
  rcases hL' with rfl | rfl | rfl | rfl | rfl
  · exact valid_checksum_spec_aux e wl 12 4 hlen (by norm_num) hcb hte
      (by norm_num) (by norm_num) (by norm_num) (by norm_num) (by decide) hw
  · exact valid_checksum_spec_aux e wl 15 5 hlen (by norm_num) hcb hte
      (by norm_num) (by norm_num) (by norm_num) (by norm_num) (by decide) hw
  · exact valid_checksum_spec_aux e wl 18 6 hlen (by norm_num) hcb hte
      (by norm_num) (by norm_num) (by norm_num) (by norm_num) (by decide) hw
  · exact valid_checksum_spec_aux e wl 21 7 hlen (by norm_num) hcb hte
      (by norm_num) (by norm_num) (by norm_num) (by norm_num) (by decide) hw
  · exact valid_checksum_spec_aux e wl 24 8 hlen (by norm_num) hcb hte
      (by norm_num) (by norm_num) (by norm_num) (by norm_num) (by decide) hw

/-- C2: over a word space whose candidates all have one of the five valid
BIP-39 lengths and in-range 11-bit indices, `next_valid` yields exactly the
encoding of the first candidate whose last word's low `11*L mod 32` bits equal
the high bits of the SHA-256 of the first `11*L - (11*L mod 32)` bits of the
concatenated 11-bit indices — candidates failing that check are silently
skipped. -/
theorem next_valid_filters_spec_checksum (fuel : Nat) : ∀ (s : Seed) (L : Nat),
    L ∈ VALID_LENGTHS →
    s.encoder.checksum_bits = 11 * L % 32 →
    s.encoder.total_entropy = 11 * L - 11 * L % 32 →
    (∀ wl ∈ Combinations.run s.words fuel, wl.length = L ∧ ∀ w ∈ wl, w < 2 ^ 11) →
    (s.next_valid fuel).1 =
      ((Combinations.run s.words fuel).filter (fun wl => specChecksumOk wl)).head?.map
        (fun wl => s.encoder.encode_words wl) := by
  induction fuel with
  | zero =>
    intro s L hL hcb hte hall
    simp [Seed.next_valid, Combinations.run]
  | succ n ih =>
    intro s L hL hcb hte hall
    rcases hnext : s.words.next with ⟨o, c'⟩
    have hnw : s.nextWords = (o, ⟨c', s.encoder, s.args⟩) := by
      rw [Seed.nextWords, hnext]
    rcases o with _ | nxt
    · simp [Seed.next_valid, hnw, Combinations.run, hnext]
    · have hrun : Combinations.run s.words (n + 1) = nxt :: Combinations.run c' n := by
        rw [Combinations.run, hnext]
      have hmem : nxt ∈ Combinations.run s.words (n + 1) := by
        rw [hrun]
        exact List.mem_cons_self _ _
      have heq : s.encoder.valid_checksum nxt = specChecksumOk nxt :=
        valid_checksum_spec s.encoder nxt L hL (hall nxt hmem).1 hcb hte
          (hall nxt hmem).2
      simp only [Seed.next_valid, hnw, hrun, List.filter_cons]
      by_cases hvc : s.encoder.valid_checksum nxt = true
      · rw [if_pos hvc]
        rw [heq] at hvc
        simp [hvc]
      · rw [if_neg hvc]
        rw [heq] at hvc
        simp only [Bool.not_eq_true] at hvc
        rw [hvc]
        simp only [Bool.false_eq_true, if_false]
        exact ih ⟨c', s.encoder, s.args⟩ L hL hcb hte
          (fun wl hwl => hall wl (by rw [hrun]; exact List.mem_cons_of_mem _ hwl))

set_option maxRecDepth 100000 in
/-- Witness: the all-`abandon`-plus-`about` 12-word BIP-39 vector (indices
eleven zeros then 3) passes the checksum and is yielded by `next_valid`. -/
theorem next_valid_filters_spec_checksum_witness :
    (12 ∈ VALID_LENGTHS) ∧
    ((Seed.from_vecs (List.replicate 11 [0] ++ [[3]])).next_valid 1).1 =
      ((Combinations.run (Seed.from_vecs (List.replicate 11 [0] ++ [[3]])).words 1).filter
        (fun wl => specChecksumOk wl)).head?.map
        (fun wl => (Seed.from_vecs (List.replicate 11 [0] ++ [[3]])).encoder.encode_words wl) ∧
    ((Seed.from_vecs (List.replicate 11 [0] ++ [[3]])).next_valid 1).1 =
      some ((Seed.from_vecs (List.replicate 11 [0] ++ [[3]])).encoder.encode_words
        [0, 0, 0, 0, 0, 0, 0, 0, 0, 0, 0, 3]) :=
  ⟨by decide,
    next_valid_filters_spec_checksum 1 (Seed.from_vecs (List.replicate 11 [0] ++ [[3]])) 12
      (by decide) (by decide) (by decide) (by decide),
    by decide⟩


/-! ## Passphrase dictionaries: `passphrase.rs` -/

/-- `passphrase.rs::MAX_DICT`. -/
def MAX_DICT : Nat := 1000000000

/-- Rust `str::replace` with a two-character pattern replaced by one
character (left-to-right, non-overlapping), covering the `??` and `//`
escapes. -/
def replace2 (a b c : Char) : Str → Str
  | [] => []
  | [x] => [x]
  | x :: y :: rest =>
    if x = a ∧ y = b then c :: replace2 a b c rest
    else x :: replace2 a b c (y :: rest)

/-- The per-element classification of `Passphrase::dict` (lines 179-197): a
`./`-prefixed element is a dictionary file (read through the `files` oracle,
erroring when absent), an empty element is the literal `,`, and anything else
is itself as a literal with `??` and `//` unescaped. -/
def dictElement (files : Str → Option (List Str)) (a : Str) :
    Except Unit (List Str) :=
  if (str "./").isPrefixOf a ∧ ¬ (str ".//").isPrefixOf a then
    match files a with
    | some lines => .ok lines
    | none => .error ()
  else if a = [] then .ok [str ","]
  else .ok [replace2 '/' '/' '/' (replace2 '?' '?' '?' a)]

/-- `Dictionary::new` (lines 315-326): reject cartesian products beyond
`MAX_DICT`. -/
def Dictionary.new (vecs : List (List Str)) : Except Unit (Combinations Str) :=
  let combinations := Combinations.new vecs
  if combinations.total > MAX_DICT then .error () else .ok combinations

/-- `Passphrase::dict`: split on commas, classify every element, and build the
bounded dictionary space. -/
def Passphrase.dict (files : Str → Option (List Str)) (arg : Str) :
    Except Unit (Combinations Str) := do
  let vecs ← (splitSep ',' arg).mapM (dictElement files)
  Dictionary.new vecs

/-- A chain of `saturating_mul` equals the saturated product. -/
theorem foldl_satMul_eq (l : List Nat) (acc : Nat) (hacc : acc ≤ U64MAX) :
    l.foldl satMul acc = min (acc * l.prod) U64MAX := by
  induction l generalizing acc with
  | nil =>
    simpa using Nat.min_eq_left hacc
  | cons x xs ih =>
    rw [List.foldl_cons, ih (satMul acc x) (Nat.min_le_right _ _), List.prod_cons]
    unfold satMul
    rcases Nat.le_total (acc * x) U64MAX with hle | hge
    · rw [Nat.min_eq_left hle, Nat.mul_assoc]
    · rw [Nat.min_eq_right hge]
      rcases Nat.eq_zero_or_pos xs.prod with hz | hp
      · rw [hz]
        simp
      · have h1 : U64MAX ≤ U64MAX * xs.prod := Nat.le_mul_of_pos_right _ hp
        have h2 : U64MAX ≤ acc * (x * xs.prod) := by
          have h3 : U64MAX ≤ acc * x * xs.prod :=
            le_trans hge (Nat.le_mul_of_pos_right _ hp)
          rwa [Nat.mul_assoc] at h3
        rw [Nat.min_eq_right h1, Nat.min_eq_right h2]

/-- Mapping positional `getD` over the index range recovers the list. -/
theorem map_getD_range {α : Type} (l : List α) (d : α) :
    (List.range l.length).map (fun i => l.getD i d) = l := by
  apply List.ext_getElem
  · simp
  · intro i h1 h2
    simp only [List.getElem_map, List.getElem_range]
    rw [List.getD_eq_getElem _ _ h2]

/-- The total of a pure cartesian `Combinations` is the saturated product of
its choice-set sizes. -/
theorem Combinations_new_total (vecs : List (List Str)) :
    (Combinations.new vecs).total = min (vecs.map List.length).prod U64MAX := by
  have helems : (Combinations.new vecs).elements = vecs := rfl
  have hperm : (Combinations.new vecs).permute_indices = [] := rfl
  unfold Combinations.total Combinations.estimate_total
  rw [helems, hperm]
  rw [if_pos (by simp)]
  have hstep : (List.range vecs.length).foldl
      (fun acc i =>
        if ([] : List Nat).contains i then acc
        else satMul acc (vecs.getD i []).length) 1 =
      (List.range vecs.length).foldl
        (fun acc i => satMul acc (vecs.getD i []).length) 1 := by
    simp
  rw [hstep, ← List.foldl_map (fun i => (vecs.getD i []).length) satMul]
  have hmap : (List.range vecs.length).map (fun i => (vecs.getD i []).length) =
      vecs.map List.length := by
    have hg := map_getD_range vecs []
    calc (List.range vecs.length).map (fun i => (vecs.getD i []).length)
        = ((List.range vecs.length).map (fun i => vecs.getD i [])).map
            List.length := by
          rw [List.map_map]
          rfl
      _ = vecs.map List.length := by rw [hg]
  rw [hmap, foldl_satMul_eq _ 1 (by unfold U64MAX; omega), Nat.one_mul]

/-- The `mapM` of dictionary elements succeeds with exactly the per-element
classifications. -/
theorem dict_mapM_spec (files : Str → Option (List Str)) (elems : List Str)
    (vecs : List (List Str)) (h : elems.mapM (dictElement files) = .ok vecs) :
    List.Forall₂ (fun a v => dictElement files a = .ok v) elems vecs := by
  induction elems generalizing vecs with
  | nil =>
    simp only [List.mapM_nil, pure, Except.pure] at h
    cases h
    exact List.Forall₂.nil
  | cons a rest ih =>
    rw [List.mapM_cons] at h
    rcases ha : dictElement files a with _ | v
    · rw [ha] at h
      simp [Bind.bind, Except.bind] at h
    · rw [ha] at h
      rcases hrest : rest.mapM (dictElement files) with _ | vs
      · rw [hrest] at h
        simp [Bind.bind, Except.bind] at h
      · rw [hrest] at h
        simp only [Bind.bind, Except.bind, pure, Except.pure] at h
        cases h
        exact List.Forall₂.cons ha (ih vs hrest)

/-- The per-element sizes of a successfully classified dictionary argument:
line count for files, 1 for literals. -/
theorem forall2_dict_lengths (files : Str → Option (List Str)) (elems : List Str)
    (vecs : List (List Str))
    (hf : List.Forall₂ (fun a v => dictElement files a = .ok v) elems vecs) :
    vecs.map List.length = elems.map fun a =>
      if (str "./").isPrefixOf a ∧ ¬ (str ".//").isPrefixOf a then
        ((files a).getD []).length
      else 1 := by
  induction hf with
  | nil => rfl
  | @cons a v es vs ha hrest ihh =>
    simp only [List.map_cons, ihh]
    congr 1
    unfold dictElement at ha
    by_cases hfile : (str "./").isPrefixOf a ∧ ¬ (str ".//").isPrefixOf a
    · rw [if_pos hfile] at ha
      rcases hl : files a with _ | lines
      · rw [hl] at ha
        cases ha
      · rw [hl] at ha
        cases ha
        have hfile2 : str "./" <+: a ∧ ¬ str ".//" <+: a := by simpa using hfile
        simp [hfile2, hl]
    · rw [if_neg hfile] at ha
      have hfile2 : ¬ (str "./" <+: a ∧ ¬ str ".//" <+: a) := by simpa using hfile
      by_cases he : a = []
      · rw [if_pos he] at ha
        cases ha
        simp [hfile2]
      · rw [if_neg he] at ha
        cases ha
        simp [hfile2]

/-- C10: in `Passphrase::dict`, an empty comma-element contributes the literal
`,` as its single choice, a non-`./`-prefixed element contributes itself with
`??` and `//` unescaped as a single literal, and the successful dictionary's
total is the product of the per-file line counts with every literal element
counting as 1. -/
theorem dict_literals_and_total (files : Str → Option (List Str)) (arg : Str)
    (c : Combinations Str) (h : Passphrase.dict files arg = .ok c) :
    (∀ a ∈ splitSep ',' arg,
      ¬ ((str "./").isPrefixOf a ∧ ¬ (str ".//").isPrefixOf a) →
        (a = [] → dictElement files a = .ok [str ","]) ∧
        (a ≠ [] →
          dictElement files a =
            .ok [replace2 '/' '/' '/' (replace2 '?' '?' '?' a)])) ∧
    c.total = ((splitSep ',' arg).map fun a =>
      if (str "./").isPrefixOf a ∧ ¬ (str ".//").isPrefixOf a then
        ((files a).getD []).length
      else 1).prod := by
  refine ⟨?_, ?_⟩
  · intro a _ hnf
    constructor
    · intro he
      unfold dictElement
      rw [if_neg hnf, if_pos he]
    · intro he
      unfold dictElement
      rw [if_neg hnf, if_neg he]
  · unfold Passphrase.dict at h
    rcases hm : (splitSep ',' arg).mapM (dictElement files) with _ | vecs
    · rw [hm] at h
      simp [Bind.bind, Except.bind] at h
    · rw [hm] at h
      simp only [Bind.bind, Except.bind] at h
      unfold Dictionary.new at h
      by_cases hgt : (Combinations.new vecs).total > MAX_DICT
      · rw [if_pos hgt] at h
        cases h
      · rw [if_neg hgt] at h
        cases h
        have hlens := forall2_dict_lengths files _ _ (dict_mapM_spec files _ _ hm)
        rw [Combinations_new_total, hlens] at hgt ⊢
        rw [Nat.min_eq_left]
        by_contra hcon
        push_neg at hcon
        have hle : U64MAX ≤ ((splitSep ',' arg).map fun a =>
            if (str "./").isPrefixOf a ∧ ¬ (str ".//").isPrefixOf a then
              ((files a).getD []).length
            else 1).prod := le_of_lt hcon
        rw [Nat.min_eq_right hle] at hgt
        unfold U64MAX MAX_DICT at hgt
        omega

/-- Witness for `dict_literals_and_total` on `a,,./d.txt` with a two-line
dictionary file. -/
theorem dict_literals_and_total_witness :
    ∃ c, Passphrase.dict
        (fun p => if p = str "./d.txt" then some [str "x", str "y"] else none)
        (str "a,,./d.txt") = .ok c ∧
      c.total = 2 := by
  refine ⟨_, rfl, ?_⟩
  have := (dict_literals_and_total
    (fun p => if p = str "./d.txt" then some [str "x", str "y"] else none)
    (str "a,,./d.txt") _ rfl).2
  rw [this]
  decide


/-! ## Passphrase masks and binary charsets: `passphrase.rs` -/

/-- `passphrase.rs::Wildcard` (display and examples omitted where the claims
do not consult them). -/
structure Wildcard where
  flag : Char
  length : Nat
  charset : Option Str

instance : Inhabited Wildcard := ⟨⟨'0', 0, none⟩⟩

/-- `Wildcard::new_binary` for slot `num` and bit width `bin` (lines 403-425):
the source searches `hashcat/charsets/bin` and then `charsets/bin` for the
file `{bin}bit.hcchr` and bails when neither holds it. The filesystem probe
is abstracted as `binFile`, returning the path found for a bit width, if any;
on a hit the flag is the slot digit and the charset the found path, on a miss
the constructor errs. -/
def Wildcard.new_binary (binFile : Nat → Option Str) (num bin total : Nat) :
    Except Unit Wildcard :=
  match binFile bin with
  | some path => .ok ⟨Char.ofNat (48 + num), total, some path⟩
  | none => .error ()

/-- `passphrase.rs::Mask`. -/
structure Mask where
  arg : Str
  total : Nat
  example_start : Str
  example_end : Str

/-- `Mask::empty`. -/
def Mask.empty : Mask := ⟨[], 1, [], []⟩

/-- `Mask::prefix_wild`: prepend `?flag` and multiply the total. -/
def Mask.prefix_wild (m : Mask) (w : Wildcard) : Mask :=
  ⟨'?' :: w.flag :: m.arg, satMul m.total w.length, m.example_start, m.example_end⟩

/-- `passphrase.rs::PassphraseArg`. -/
inductive PassphraseArg where
  | dict : Combinations Str → PassphraseArg
  | mask : Mask → PassphraseArg

/-- `passphrase.rs::Passphrase`; the `UserCharsets` map is an association list
from slot to wildcard. -/
structure Passphrase where
  attack_mode : Nat
  left : PassphraseArg
  right : Option PassphraseArg
  charsets : List (Nat × Wildcard)

/-- `Passphrase::empty_mask`. -/
def Passphrase.empty_mask : Passphrase := ⟨3, .mask Mask.empty, none, []⟩

/-- The `for i in 1..=4` loop of `UserCharsets::add_binary_charsets`: skip
used slots, pop the next bit width off the stack, and record the new binary
wildcard; a failing `Wildcard::new_binary` aborts the loop through `?`. -/
def addBinLoop (binFile : Nat → Option Str) (charsets : List (Nat × Wildcard)) :
    List Nat → List Nat → List Nat → List (Nat × Wildcard) → List Wildcard →
      Except Unit (List (Nat × Wildcard) × List Wildcard)
  | [], _, _, acc, ws => .ok (acc, ws)
  | i :: rest, bin, totals, acc, ws =>
    if (charsets.map Prod.fst).contains i ∨ (acc.map Prod.fst).contains i then
      addBinLoop binFile charsets rest bin totals acc ws
    else
      match bin.getLast? with
      | none => addBinLoop binFile charsets rest bin totals acc ws
      | some b =>
        let t := totals.getLastD 0
        match Wildcard.new_binary binFile i b t with
        | .error e => .error e
        | .ok w =>
          addBinLoop binFile charsets rest bin.dropLast totals.dropLast
            (acc ++ [(i, w)]) (ws ++ [w])

/-- `UserCharsets::add_binary_charsets` (lines 267-283): assign the 5-bit,
6-bit and entropy-bit binary charsets to the free slots among `1..=4` in
order, returning the updated map and the wildcards actually created, or the
error of the first `Wildcard::new_binary` that found no charset file. -/
def UserCharsets.add_binary_charsets (binFile : Nat → Option Str)
    (charsets : List (Nat × Wildcard)) (entropy_bits : Nat) :
    Except Unit (List (Nat × Wildcard) × List Wildcard) :=
  let bin := [entropy_bits, 6, 5]
  let totals := [2 ^ entropy_bits, 2 ^ 6, 2 ^ 5]
  match addBinLoop binFile charsets [1, 2, 3, 4] bin totals [] [] with
  | .error e => .error e
  | .ok (inserted, ws) => .ok (charsets ++ inserted, ws)

/-- `Passphrase::add_binary_charsets` (lines 107-133): propagate a charset
error, return `Ok(None)` unless exactly three new wildcards were made,
convert a lone dictionary into mask+dict mode 7, and prepend `?c` pairs for
the non-terminal guesses plus a single entropy `?c` onto the mask. -/
def Passphrase.add_binary_charsets (p : Passphrase) (binFile : Nat → Option Str)
    (guesses entropy_bits : Nat) : Except Unit (Option Passphrase) :=
  (UserCharsets.add_binary_charsets binFile p.charsets entropy_bits).bind fun cw =>
    let charsets' := cw.1
    let wildcards := cw.2
    let copy : Passphrase := ⟨p.attack_mode, p.left, p.right, charsets'⟩
    if wildcards.length ≠ 3 then .ok none
    else
      let copy : Passphrase :=
        match p.left with
        | .dict d =>
          if copy.right.isNone then ⟨7, .mask Mask.empty, some (.dict d), copy.charsets⟩
          else copy
        | .mask _ => copy
      match copy.left with
      | .mask m =>
        let m := m.prefix_wild (wildcards.getD 2 default)
        let m := (List.range (guesses - 1)).foldl
          (fun acc _ =>
            (acc.prefix_wild (wildcards.getD 1 default)).prefix_wild
              (wildcards.getD 0 default))
          m
        .ok (some ⟨copy.attack_mode, .mask m, copy.right, copy.charsets⟩)
      | .dict _ => .ok none

/-- The guesses/args/last-question accumulation of `Seed::binary_charsets`
(lines 177-194). -/
def binaryCharsetsScan (elements : List (List Nat)) :
    List (List Str) × Nat × Bool :=
  elements.foldl
    (fun (st : List (List Str) × Nat × Bool) element =>
      if element.length = BIP39_WORDS.length then
        (st.1 ++ [[str "?"]], st.2.1 + 1, true)
      else
        let mapped :=
          if element.length > 1 then element.map (fun i => '=' :: natStr i)
          else [natStr (element.getD 0 0)]
        (st.1 ++ [mapped], st.2.1, false))
    ([], 0, false)

/-- `Seed::binary_charsets` (lines 167-210): refuse permuted seeds, rebuild
the arg space with `?` for full wildcards and `=`-marked alternatives, demand
the last position be a full wildcard and the arg total small enough, then
augment the passphrase, propagating its charset error through `?`. -/
def Seed.binary_charsets (s : Seed) (binFile : Nat → Option Str) (max_args : Nat)
    (passphrase : Option Passphrase) : Except Unit (Option (Seed × Passphrase)) :=
  if s.words.permutationsCount > 1 then .ok none
  else
    let (args, guesses, last_question) := binaryCharsetsScan s.words.elements
    let seed : Seed := ⟨s.words, s.encoder, Combinations.new args⟩
    if ¬ last_question then .ok none
    else if seed.args.total > max_args then .ok none
    else
      let pp := passphrase.getD Passphrase.empty_mask
      match pp.add_binary_charsets binFile guesses s.encoder.entropy_bits with
      | .error e => .error e
      | .ok (some pp') => .ok (some (seed, pp'))
      | .ok none => .ok none


/-- The slots among `1..=4` not already taken by user charsets. -/
def freeSlots (cs : List (Nat × Wildcard)) : List Nat :=
  [1, 2, 3, 4].filter fun i => ¬ (cs.map Prod.fst).contains i

set_option maxHeartbeats 2000000 in
/-- With the 5-bit and 6-bit charset files present, fewer than three free
slots make the assignment succeed with fewer than three wildcards (only the
5-bit and 6-bit widths are ever popped for at most two free slots). -/
theorem addBin_short (binFile : Nat → Option Str) (cs : List (Nat × Wildcard))
    (eb : Nat) (p5 p6 : Str) (h5 : binFile 5 = some p5) (h6 : binFile 6 = some p6)
    (hlt : (freeSlots cs).length < 3) :
    (UserCharsets.add_binary_charsets binFile cs eb).map (fun r => r.2.length) =
      .ok (freeSlots cs).length := by
  rcases hb1 : (cs.map Prod.fst).contains 1 with _ | _ <;>
    rcases hb2 : (cs.map Prod.fst).contains 2 with _ | _ <;>
      rcases hb3 : (cs.map Prod.fst).contains 3 with _ | _ <;>
        rcases hb4 : (cs.map Prod.fst).contains 4 with _ | _ <;>
          simp at hb1 hb2 hb3 hb4 <;>
          first
            | (exfalso;
                simp [freeSlots, List.filter, hb1, hb2, hb3, hb4] at hlt;
                done)
            | (simp [freeSlots, UserCharsets.add_binary_charsets, addBinLoop,
                Wildcard.new_binary, Except.map, List.filter, hb1, hb2, hb3, hb4,
                h5, h6])

set_option maxHeartbeats 4000000 in
/-- A successful assignment of exactly three wildcards forces hits for the
5-bit, 6-bit and entropy-bit charset files and takes the first three free
slots in order: the wildcards are the 5-bit, 6-bit and entropy-bit binary
charsets flagged with those slots. -/
theorem addBin_ok_three (binFile : Nat → Option Str) (cs cs' : List (Nat × Wildcard))
    (ws : List Wildcard) (eb : Nat)
    (hr : UserCharsets.add_binary_charsets binFile cs eb = .ok (cs', ws))
    (h3 : ws.length = 3) :
    ∃ p5 p6 pe, binFile 5 = some p5 ∧ binFile 6 = some p6 ∧ binFile eb = some pe ∧
      ws = [⟨Char.ofNat (48 + (freeSlots cs).getD 0 0), 2 ^ 5, some p5⟩,
            ⟨Char.ofNat (48 + (freeSlots cs).getD 1 0), 2 ^ 6, some p6⟩,
            ⟨Char.ofNat (48 + (freeSlots cs).getD 2 0), 2 ^ eb, some pe⟩] := by
  rcases hb1 : (cs.map Prod.fst).contains 1 with _ | _ <;>
    rcases hb2 : (cs.map Prod.fst).contains 2 with _ | _ <;>
      rcases hb3 : (cs.map Prod.fst).contains 3 with _ | _ <;>
        rcases hb4 : (cs.map Prod.fst).contains 4 with _ | _ <;>
          simp at hb1 hb2 hb3 hb4 <;>
          rcases hf5 : binFile 5 with _ | p5 <;>
            rcases hf6 : binFile 6 with _ | p6 <;>
              rcases hfe : binFile eb with _ | pe <;>
                simp [UserCharsets.add_binary_charsets, addBinLoop,
                  Wildcard.new_binary, List.filter, hb1, hb2, hb3, hb4,
                  hf5, hf6, hfe] at hr <;>
                first
                  | (exfalso; rw [hr.2] at h3; simp at h3; done)
                  | (exfalso; rw [← hr.2] at h3; simp at h3; done)
                  | (refine ⟨_, _, _, rfl, rfl, rfl, ?_⟩;
                      rw [hr.2];
                      simp [freeSlots, List.filter, hb1, hb2, hb3, hb4])
                  | (refine ⟨_, _, _, rfl, rfl, rfl, ?_⟩;
                      rw [← hr.2];
                      simp [freeSlots, List.filter, hb1, hb2, hb3, hb4])

/-- Prepending `?c?c` pairs `n` times onto a mask. -/
theorem prefix_pairs_arg (w0 w1 : Wildcard) (m : Mask) (n : Nat) :
    ((List.range n).foldl
      (fun acc _ => (acc.prefix_wild w1).prefix_wild w0) m).arg =
      (List.replicate n ('?' :: w0.flag :: '?' :: w1.flag :: [])).flatten ++ m.arg := by
  induction n with
  | zero => simp
  | succ k ih =>
    rw [List.range_succ, List.foldl_append]
    simp only [List.foldl_cons, List.foldl_nil]
    have harg : ((((List.range k).foldl
        (fun acc _ => (acc.prefix_wild w1).prefix_wild w0) m).prefix_wild
          w1).prefix_wild w0).arg =
        '?' :: w0.flag :: '?' :: w1.flag ::
          ((List.range k).foldl (fun acc _ => (acc.prefix_wild w1).prefix_wild w0) m).arg := rfl
    rw [harg, ih, List.replicate_succ, List.flatten_cons, List.append_assoc]
    rfl

/-- The scan of `Seed::binary_charsets` counts exactly the positions holding
the full 2048-word wildcard. -/
theorem binaryCharsetsScan_guesses (elements : List (List Nat)) :
    (binaryCharsetsScan elements).2.1 =
      (elements.filter fun e => e.length = BIP39_WORDS.length).length := by
  suffices h : ∀ (els : List (List Nat)) (acc : List (List Str)) (c : Nat) (b : Bool),
      (els.foldl
        (fun (st : List (List Str) × Nat × Bool) element =>
          if element.length = BIP39_WORDS.length then
            (st.1 ++ [[str "?"]], st.2.1 + 1, true)
          else
            let mapped :=
              if element.length > 1 then element.map (fun i => '=' :: natStr i)
              else [natStr (element.getD 0 0)]
            (st.1 ++ [mapped], st.2.1, false))
        (acc, c, b)).2.1 =
        c + (els.filter fun e => e.length = BIP39_WORDS.length).length by
    have := h elements [] 0 false
    simpa [binaryCharsetsScan] using this
  intro els
  induction els with
  | nil => simp
  | cons e rest ih =>
    intro acc c b
    by_cases he : e.length = BIP39_WORDS.length
    · rw [List.foldl_cons, if_pos he, ih, List.filter_cons_of_pos (by simp [he])]
      simp
      omega
    · rw [List.foldl_cons, if_neg he, ih, List.filter_cons_of_neg (by simp [he])]

/-- C7 amended, part (a): whatever charset files the filesystem holds, on
success the augmented passphrase's mask is the original mask (or the empty
mask when a lone dictionary was converted) prefixed by one `?c?c` pair —
5-bit then 6-bit — per non-terminal full-`?` position and one entropy-bit
`?c` for the terminal one, not a `?c?c?c` triple per position; and part (b):
with the shipped 5-bit and 6-bit charset files present, augmentation returns
`Ok(None)` whenever fewer than three of the custom charset slots 1..4 are
free (with either file missing it errs instead). -/
theorem binary_charsets_pairs_then_entropy :
    (∀ (binFile : Nat → Option Str) (p : Passphrase) (guesses eb : Nat) (p' : Passphrase),
      p.add_binary_charsets binFile guesses eb = .ok (some p') →
      ∃ base : Mask,
        ((∃ m, p.left = .mask m ∧ base = m) ∨
          (∃ d, p.left = .dict d ∧ p.right = none ∧ base = Mask.empty)) ∧
        ∃ m', p'.left = .mask m' ∧
          m'.arg =
            (List.replicate (guesses - 1)
              ('?' :: Char.ofNat (48 + (freeSlots p.charsets).getD 0 0) ::
                '?' :: Char.ofNat (48 + (freeSlots p.charsets).getD 1 0) :: [])).flatten ++
            '?' :: Char.ofNat (48 + (freeSlots p.charsets).getD 2 0) :: base.arg) ∧
    (∀ (binFile : Nat → Option Str) (p : Passphrase) (guesses eb : Nat) (p5 p6 : Str),
      binFile 5 = some p5 → binFile 6 = some p6 →
      (freeSlots p.charsets).length < 3 →
      p.add_binary_charsets binFile guesses eb = .ok none) := by
  constructor
  · intro binFile p guesses eb p' h
    unfold Passphrase.add_binary_charsets at h
    rcases hu : UserCharsets.add_binary_charsets binFile p.charsets eb with e | cw
    · rw [hu] at h
      simp [Except.bind] at h
    · rw [hu] at h
      simp only [Except.bind] at h
      by_cases hlen : cw.2.length ≠ 3
      · rw [if_pos hlen] at h
        cases h
      · rw [if_neg hlen] at h
        push_neg at hlen
        have hws := addBin_ok_three binFile p.charsets cw.1 cw.2 eb
          (by rw [hu]) hlen
        rcases hws with ⟨p5, p6, pe, h5, h6, he, hws⟩
        rcases hp : p.left with d | m
        · rw [hp] at h
          rcases hr : p.right with _ | r
          · rw [hr] at h
            simp only [Option.isNone_none, if_pos] at h
            cases h
            refine ⟨Mask.empty, Or.inr ⟨d, rfl, rfl, rfl⟩, _, rfl, ?_⟩
            rw [prefix_pairs_arg]
            rw [hws]
            rfl
          · rw [hr] at h
            simp only [Option.isNone_some, Bool.false_eq_true, if_false] at h
            cases h
        · rw [hp] at h
          cases h
          refine ⟨m, Or.inl ⟨m, rfl, rfl⟩, _, rfl, ?_⟩
          rw [prefix_pairs_arg]
          rw [hws]
          rfl
  · intro binFile p guesses eb p5 p6 h5 h6 hlt
    unfold Passphrase.add_binary_charsets
    have hshort := addBin_short binFile p.charsets eb p5 p6 h5 h6 hlt
    rcases hu : UserCharsets.add_binary_charsets binFile p.charsets eb with e | cw
    · rw [hu] at hshort
      simp [Except.map] at hshort
    · rw [hu] at hshort
      simp only [Except.map, Except.ok.injEq] at hshort
      simp only [Except.bind]
      rw [if_pos]
      omega

/-- The binary charset files shipped with the engine's test environment: the
2-, 3-, 5- and 6-bit files exist under `hashcat/charsets/bin` and no other
bit width is present (the repo's tests assert exactly this, erring for bit
width 10). -/
def binFileRepo (b : Nat) : Option Str :=
  if b = 2 ∨ b = 3 ∨ b = 5 ∨ b = 6 then
    some (str "hashcat/charsets/bin/" ++ natStr b ++ str "bit.hcchr")
  else none

/-- C7 counterexample: a fifteen-word seed (entropy bit width 6, whose
charset file the environment holds) whose first and last positions carry the
full wordlist-sized wildcard (two full-`?` positions, `g = 2`) yields the
mask `?1?2?3` — one `?c?c` pair plus one entropy `?c` — not the two `?c?c?c`
triples (one per position) the claim describes. -/
theorem binary_charsets_triples_counterexample :
    (((Seed.from_vecs
        [List.range BIP39_WORDS.length, [3], [3], [3], [3], [3], [3], [3],
          [3], [3], [3], [3], [3], [3], List.range BIP39_WORDS.length]).binary_charsets
        binFileRepo 256 none).map fun o =>
          o.map fun sp =>
            match sp.2.left with
            | PassphraseArg.mask m => m.arg
            | PassphraseArg.dict _ => []) = .ok (some (str "?1?2?3")) ∧
    (binaryCharsetsScan
      [List.range BIP39_WORDS.length, [3], [3], [3], [3], [3], [3], [3],
        [3], [3], [3], [3], [3], [3], List.range BIP39_WORDS.length]).2.1 = 2 ∧
    some (str "?1?2?3") ≠
      some ((List.replicate 2 (str "?1?2?3")).flatten ++ Mask.empty.arg) := by
  obtain ⟨a, b, t, hab⟩ : ∃ a b t, BIP39_WORDS = a :: b :: t := ⟨_, _, _, rfl⟩
  have h2 : BIP39_WORDS.length ≠ 1 := by rw [hab]; simp
  have c1 : ((List.range BIP39_WORDS.length).length = BIP39_WORDS.length) = True := by
    simp [List.length_range]
  have c2 : (([3] : List Nat).length = BIP39_WORDS.length) = False := by
    simp only [eq_iff_iff, iff_false, List.length_cons, List.length_nil]
    exact fun h => h2 h.symm
  have hscan : binaryCharsetsScan
      [List.range BIP39_WORDS.length, [3], [3], [3], [3], [3], [3], [3],
        [3], [3], [3], [3], [3], [3], List.range BIP39_WORDS.length] =
      ([[str "?"], [natStr 3], [natStr 3], [natStr 3], [natStr 3], [natStr 3],
        [natStr 3], [natStr 3], [natStr 3], [natStr 3], [natStr 3], [natStr 3],
        [natStr 3], [natStr 3], [str "?"]], 2, true) := by
    simp only [binaryCharsetsScan, List.foldl_cons, List.foldl_nil, c1, c2,
      if_true, if_false]
    decide
  refine ⟨?_, by rw [hscan], by decide⟩
  have hel :
      (Seed.from_vecs
        [List.range BIP39_WORDS.length, [3], [3], [3], [3], [3], [3], [3],
          [3], [3], [3], [3], [3], [3], List.range BIP39_WORDS.length]).words.elements =
        [List.range BIP39_WORDS.length, [3], [3], [3], [3], [3], [3], [3],
          [3], [3], [3], [3], [3], [3], List.range BIP39_WORDS.length] := rfl
  unfold Seed.binary_charsets
  rw [hel, hscan]
  rfl

/-- Witness for the amended C7 theorem: in the test environment's filesystem,
augmenting the empty-mask passphrase with two guesses and six entropy bits
produces the mask `?1?2?3`, and a passphrase with only two free slots gets
`Ok(None)`. -/
theorem binary_charsets_pairs_then_entropy_witness :
    (∃ base : Mask,
      ((∃ m, Passphrase.empty_mask.left = PassphraseArg.mask m ∧ base = m) ∨
        (∃ d, Passphrase.empty_mask.left = PassphraseArg.dict d ∧
          Passphrase.empty_mask.right = none ∧ base = Mask.empty)) ∧
      ∃ m',
        (⟨3, .mask ⟨str "?1?2?3", 131072, [], []⟩, none,
          [(1, ⟨'1', 32, some (str "hashcat/charsets/bin/5bit.hcchr")⟩),
            (2, ⟨'2', 64, some (str "hashcat/charsets/bin/6bit.hcchr")⟩),
            (3, ⟨'3', 64, some (str "hashcat/charsets/bin/6bit.hcchr")⟩)]⟩ : Passphrase).left =
          PassphraseArg.mask m' ∧
        m'.arg =
          (List.replicate (2 - 1)
            ('?' :: Char.ofNat (48 + (freeSlots Passphrase.empty_mask.charsets).getD 0 0) ::
              '?' :: Char.ofNat (48 + (freeSlots Passphrase.empty_mask.charsets).getD 1 0) :: [])).flatten ++
          '?' :: Char.ofNat (48 + (freeSlots Passphrase.empty_mask.charsets).getD 2 0) ::
            Mask.empty.arg) ∧
    (⟨3, .mask Mask.empty, none,
      [(1, default), (2, default)]⟩ : Passphrase).add_binary_charsets binFileRepo 1 6 =
      .ok none := by
  constructor
  · have h := binary_charsets_pairs_then_entropy.1 binFileRepo Passphrase.empty_mask 2 6
      ⟨3, .mask ⟨str "?1?2?3", 131072, [], []⟩, none,
        [(1, ⟨'1', 32, some (str "hashcat/charsets/bin/5bit.hcchr")⟩),
          (2, ⟨'2', 64, some (str "hashcat/charsets/bin/6bit.hcchr")⟩),
          (3, ⟨'3', 64, some (str "hashcat/charsets/bin/6bit.hcchr")⟩)]⟩ rfl
    rcases h with ⟨base, hbase, m', hm', harg⟩
    refine ⟨base, hbase, m', hm', ?_⟩
    rw [harg]
    rcases hbase with ⟨m, hm, hb⟩ | ⟨d, hd, _, hb⟩
    · have hme : m = Mask.empty := by
        simp [Passphrase.empty_mask] at hm
        exact hm.symm
      rw [hb, hme]
    · simp [Passphrase.empty_mask] at hd
  · exact binary_charsets_pairs_then_entropy.2 binFileRepo _ 1 6
      (str "hashcat/charsets/bin/5bit.hcchr") (str "hashcat/charsets/bin/6bit.hcchr")
      (by decide) (by decide) (by decide)


/-! ## C4: `Permutations::shard` partitioning (`permutations.rs`) -/

theorem FACT_succ_all : ∀ c, c < 20 → FACT (c + 1) = (c + 1) * FACT c := by decide

theorem FACT_pos_all : ∀ c, c ≤ 20 → 0 < FACT c := by decide

theorem insertSorted_eq {T : Type} [LinearOrder T] (a : T) (l : List T) :
    insertSorted a l = List.orderedInsert (· ≤ ·) a l := by
  induction l with
  | nil => rfl
  | cons b rest ih => simp [insertSorted, List.orderedInsert, ih]

theorem sortList_eq {T : Type} [LinearOrder T] (l : List T) :
    sortList l = List.insertionSort (· ≤ ·) l := by
  induction l with
  | nil => rfl
  | cons a rest ih => simp [sortList, List.insertionSort, ih, insertSorted_eq]

theorem sortList_sorted {T : Type} [LinearOrder T] (l : List T) :
    (sortList l).Sorted (· ≤ ·) := by
  rw [sortList_eq]
  exact List.sorted_insertionSort _ _

theorem sortList_perm {T : Type} [LinearOrder T] (l : List T) :
    (sortList l).Perm l := by
  rw [sortList_eq]
  exact List.perm_insertionSort _ _

theorem sortList_sorted_lt {T : Type} [LinearOrder T] (l : List T) (hn : l.Nodup) :
    (sortList l).Sorted (· < ·) := by
  have hs := sortList_sorted l
  have hnd : (sortList l).Nodup := ((sortList_perm l).nodup_iff).mpr hn
  exact hs.lt_of_le hnd

theorem find_rev_range_eq_some (pred : Nat → Bool) :
    ∀ (n i : Nat), i < n → pred i = true → (∀ j, i < j → j < n → pred j = false) →
    (List.range n).reverse.find? pred = some i := by
  intro n
  induction n with
  | zero => omega
  | succ m ih =>
    intro i hi hp hup
    rw [List.range_succ, List.reverse_append]
    simp only [List.reverse_singleton, List.singleton_append, List.find?]
    by_cases him : i = m
    · subst him
      rw [hp]
    · rw [hup m (by omega) (by omega)]
      exact ih i (by omega) hp fun j h1 h2 => hup j h1 (by omega)

theorem find_rev_range_eq_none (pred : Nat → Bool) :
    ∀ (n : Nat), (∀ j, j < n → pred j = false) →
    (List.range n).reverse.find? pred = none := by
  intro n
  induction n with
  | zero => intro _; rfl
  | succ m ih =>
    intro hup
    rw [List.range_succ, List.reverse_append]
    simp only [List.reverse_singleton, List.singleton_append, List.find?]
    rw [hup m (by omega)]
    exact ih fun j h => hup j (by omega)

/-- Clean recursive form of Lehmer decoding: pick the `p / cnt!`-th remaining
element, recurse on `p mod cnt!`. -/
def lehmerRec {T : Type} [Inhabited T] : Nat → Nat → List T → List T
  | 0, _, _ => []
  | cnt + 1, p, l =>
    l.getD (p / FACT cnt) default ::
      lehmerRec cnt (p % FACT cnt) (l.eraseIdx (p / FACT cnt))

theorem lehmerRec_zero {T : Type} [Inhabited T] :
    ∀ (cnt : Nat) (l : List T), l.length = cnt → lehmerRec cnt 0 l = l := by
  intro cnt
  induction cnt with
  | zero =>
    intro l hl
    rw [List.length_eq_zero] at hl
    rw [hl]
    rfl
  | succ m ih =>
    intro l hl
    rcases l with _ | ⟨x, xs⟩
    · simp at hl
    · rw [lehmerRec, Nat.zero_div, Nat.zero_mod]
      simp only [List.getD_cons_zero, List.eraseIdx_cons_zero]
      rw [ih xs (by simpa using hl)]

theorem eraseIdx_last {T : Type} :
    ∀ (l : List T), l ≠ [] → l.eraseIdx (l.length - 1) = l.dropLast := by
  intro l
  induction l with
  | nil => intro h; exact absurd rfl h
  | cons x xs ih =>
    intro _
    rcases xs with _ | ⟨y, ys⟩
    · rfl
    · have h2 : (y :: ys : List T) ≠ [] := by simp
      have := ih h2
      simp only [List.length_cons] at this ⊢
      rw [show ys.length + 1 + 1 - 1 = (ys.length + 1 - 1) + 1 by omega,
        List.eraseIdx_cons_succ, this, List.dropLast_cons_of_ne_nil h2]

theorem lehmerRec_last {T : Type} [Inhabited T] :
    ∀ (cnt : Nat) (l : List T), l.length = cnt → cnt ≤ 20 →
    lehmerRec cnt (FACT cnt - 1) l = l.reverse := by
  intro cnt
  induction cnt with
  | zero =>
    intro l hl _
    rw [List.length_eq_zero] at hl
    rw [hl]
    rfl
  | succ m ih =>
    intro l hl hm
    have hne : l ≠ [] := by
      intro h
      rw [h] at hl
      simp at hl
    have hF : 0 < FACT m := FACT_pos_all m (by omega)
    have hs : FACT (m + 1) = (m + 1) * FACT m := FACT_succ_all m (by omega)
    have hsplit : FACT (m + 1) - 1 = (FACT m - 1) + FACT m * m := by
      rw [hs]
      have h2 : (m + 1) * FACT m = FACT m * m + FACT m := by ring
      omega
    have hdig : (FACT (m + 1) - 1) / FACT m = m := by
      rw [hsplit, Nat.add_mul_div_left _ _ hF, Nat.div_eq_of_lt (by omega),
        Nat.zero_add]
    have hmod : (FACT (m + 1) - 1) % FACT m = FACT m - 1 := by
      rw [hsplit, Nat.add_mul_mod_self_left]
      exact Nat.mod_eq_of_lt (by omega)
    rw [lehmerRec, hdig, hmod]
    have hget : l.getD m default = l.getLast hne := by
      rw [List.getD_eq_getElem?_getD, show m = l.length - 1 by omega,
        ← List.getLast?_eq_getElem?, List.getLast?_eq_getLast l hne]
      rfl
    have her : l.eraseIdx m = l.dropLast := by
      rw [show m = l.length - 1 by omega]
      exact eraseIdx_last l hne
    rw [hget, her, ih l.dropLast (by rw [List.length_dropLast]; omega) (by omega)]
    conv_rhs => rw [← List.dropLast_append_getLast hne]
    rw [List.reverse_append]
    rfl

/-- The elements of `sorted` at positions still marked unused. -/
def maskFalse {T : Type} : List T → List Bool → List T
  | x :: xs, b :: bs => if b then maskFalse xs bs else x :: maskFalse xs bs
  | _, _ => []

theorem maskFalse_replicate {T : Type} :
    ∀ (l : List T), maskFalse l (List.replicate l.length false) = l := by
  intro l
  induction l with
  | nil => rfl
  | cons x xs ih =>
    simp only [List.length_cons, List.replicate_succ, maskFalse, if_neg
      (by simp : ¬ false = true)]
    rw [ih]

theorem mask_getD {T : Type} [Inhabited T] :
    ∀ (sorted : List T) (used : List Bool) (c : Nat),
    c < (maskFalse sorted used).length →
    sorted.getD (selectUnused used c) default =
      (maskFalse sorted used).getD c default := by
  intro sorted
  induction sorted with
  | nil =>
    intro used c hc
    rcases used with _ | ⟨b, bs⟩ <;> simp [maskFalse] at hc
  | cons x xs ih =>
    intro used c hc
    rcases used with _ | ⟨b, bs⟩
    · simp [maskFalse] at hc
    · rcases b with _ | _
      · rcases c with _ | c
        · simp [selectUnused, maskFalse]
        · simp only [maskFalse, if_neg (by simp : ¬ false = true),
            List.length_cons] at hc
          simp only [selectUnused, maskFalse, if_neg (by simp : ¬ false = true),
            List.getD_cons_succ]
          exact ih bs c (by omega)
      · simp only [maskFalse, if_pos rfl] at hc
        simp only [selectUnused, maskFalse, if_pos rfl, List.getD_cons_succ]
        exact ih bs c hc

theorem mask_set {T : Type} :
    ∀ (sorted : List T) (used : List Bool) (c : Nat),
    c < (maskFalse sorted used).length →
    maskFalse sorted (used.set (selectUnused used c) true) =
      (maskFalse sorted used).eraseIdx c := by
  intro sorted
  induction sorted with
  | nil =>
    intro used c hc
    rcases used with _ | ⟨b, bs⟩ <;> simp [maskFalse] at hc ⊢
  | cons x xs ih =>
    intro used c hc
    rcases used with _ | ⟨b, bs⟩
    · simp [maskFalse] at hc
    · rcases b with _ | _
      · rcases c with _ | c
        · simp [selectUnused, maskFalse]
        · simp only [maskFalse, if_neg (by simp : ¬ false = true),
            List.length_cons] at hc
          simp only [selectUnused, maskFalse, List.set_cons_succ,
            if_neg (by simp : ¬ false = true), List.eraseIdx_cons_succ]
          rw [ih bs c (by omega)]
      · simp only [maskFalse, if_pos rfl] at hc
        simp only [selectUnused, maskFalse, List.set_cons_succ, if_pos rfl]
        exact ih bs c hc

theorem mask_length {T : Type} :
    ∀ (sorted : List T) (used : List Bool),
    used.length = sorted.length →
    (maskFalse sorted used).length + used.count true = sorted.length := by
  intro sorted
  induction sorted with
  | nil =>
    intro used h
    rw [List.length_nil, List.length_eq_zero] at h
    rw [h]
    rfl
  | cons x xs ih =>
    intro used h
    rcases used with _ | ⟨b, bs⟩
    · simp at h
    · have hlen : bs.length = xs.length := by simpa using h
      have := ih bs hlen
      rcases b with _ | _ <;> simp [maskFalse, List.count_cons] <;> omega

theorem ipFor_eq_lehmerRec {T : Type} [Inhabited T] :
    ∀ (cnt : Nat) (sorted : List T) (used : List Bool) (p : Nat),
    cnt ≤ 20 →
    used.length = sorted.length →
    (maskFalse sorted used).length = cnt →
    ipFor sorted used p cnt =
      lehmerRec cnt (p % FACT cnt) (maskFalse sorted used) := by
  intro cnt
  induction cnt with
  | zero =>
    intro sorted used p _ _ _
    rfl
  | succ m ih =>
    intro sorted used p hm hlen hmask
    have hF : 0 < FACT m := FACT_pos_all m (by omega)
    have hs : FACT (m + 1) = (m + 1) * FACT m := FACT_succ_all m (by omega)
    have hF1 : 0 < FACT (m + 1) := FACT_pos_all (m + 1) (by omega)
    have hcb : p % FACT (m + 1) / FACT m < m + 1 := by
      rw [Nat.div_lt_iff_lt_mul hF, ← hs]
      exact Nat.mod_lt _ hF1
    rw [ipFor, lehmerRec]
    congr 1
    · exact mask_getD sorted used _ (by rw [hmask]; exact hcb)
    · rw [ih sorted (used.set (selectUnused used (p % FACT (m + 1) / FACT m)) true) p
        (by omega) (by rw [List.length_set]; exact hlen)
        (by rw [mask_set sorted used _ (by rw [hmask]; exact hcb),
              List.length_eraseIdx_of_lt (by rw [hmask]; exact hcb)]
            omega),
        mask_set sorted used _ (by rw [hmask]; exact hcb)]
      congr 1
      rw [Nat.mod_mod_of_dvd]
      rw [hs]
      exact ⟨m + 1, by ring⟩

theorem indexed_permutation_eq {T : Type} [LinearOrder T] [Inhabited T]
    (p : Nat) (l : List T) (h : l.length ≤ 20) :
    indexed_permutation p l =
      lehmerRec l.length (p % FACT l.length) (sortList l) := by
  have hsl : (sortList l).length = l.length := (sortList_perm l).length_eq
  rw [indexed_permutation]
  rw [ipFor_eq_lehmerRec (sortList l).length (sortList l)
    (List.replicate (sortList l).length false) p (by omega)
    (by rw [List.length_replicate]) (by rw [maskFalse_replicate]),
    maskFalse_replicate, hsl]

theorem find_rev_range_some_elim (pred : Nat → Bool) :
    ∀ (n i : Nat), (List.range n).reverse.find? pred = some i →
    i < n ∧ pred i = true ∧ ∀ j, i < j → j < n → pred j = false := by
  intro n
  induction n with
  | zero =>
    intro i h
    simp [List.find?] at h
  | succ m ih =>
    intro i h
    rw [List.range_succ, List.reverse_append, List.reverse_singleton,
      List.singleton_append, List.find?] at h
    rcases hm : pred m with _ | _
    · rw [hm] at h
      obtain ⟨h1, h2, h3⟩ := ih i h
      exact ⟨by omega, h2, fun j hj1 hj2 => by
        by_cases hjm : j = m
        · subst hjm; exact hm
        · exact h3 j hj1 (by omega)⟩
    · rw [hm] at h
      simp only [Option.some.injEq] at h
      subst h
      exact ⟨by omega, hm, fun j hj1 hj2 => by omega⟩

theorem listSwap_cons {T : Type} [Inhabited T] (x : T) (l : List T) (i j : Nat) :
    listSwap (x :: l) (i + 1) (j + 1) = x :: listSwap l i j := by
  simp [listSwap, List.getD_cons_succ, List.set_cons_succ]

theorem next_permutation_cons {T : Type} [LinearOrder T] [Inhabited T]
    (x : T) (xs ys : List T) (h : next_permutation xs = (ys, true)) :
    next_permutation (x :: xs) = (x :: ys, true) := by
  unfold next_permutation at h ⊢
  rcases hasc : largestAscIndex xs with _ | i
  · simp only [hasc] at h
    simp at h
  · simp only [hasc] at h
    rcases hgt : largestGtIndex xs i with _ | i2
    · simp only [hgt] at h
      simp at h
    · simp only [hgt, Prod.mk.injEq] at h
      obtain ⟨hys, -⟩ := h
      obtain ⟨hi1, hi2, hi3⟩ := find_rev_range_some_elim _ _ _ hasc
      obtain ⟨hg1, hg2, hg3⟩ := find_rev_range_some_elim _ _ _ hgt
      have hasc' : largestAscIndex (x :: xs) = some (i + 1) := by
        apply find_rev_range_eq_some
        · simp only [List.length_cons]
          omega
        · simpa [List.getD_cons_succ] using hi2
        · intro j hj1 hj2
          rcases j with _ | j'
          · omega
          · simp only [List.getD_cons_succ]
            apply hi3 j' (by omega)
            simp only [List.length_cons] at hj2
            omega
      have hgt' : largestGtIndex (x :: xs) (i + 1) = some (i2 + 1) := by
        apply find_rev_range_eq_some
        · simp only [List.length_cons]
          omega
        · simpa [List.getD_cons_succ] using hg2
        · intro j hj1 hj2
          rcases j with _ | j'
          · omega
          · simp only [List.getD_cons_succ]
            exact hg3 j' (by omega) (by simpa using hj2)
      simp only [hasc', hgt', listSwap_cons, List.take_succ_cons,
        List.drop_succ_cons, List.cons_append, Prod.mk.injEq]
      rw [hys]
      exact ⟨rfl, trivial⟩

set_option maxHeartbeats 1000000 in
/-- Rolling over a fully-descended tail: the pivot is the head, it is swapped
with its sorted successor and the tail is re-ascended. -/
theorem np_rollover {T : Type} [LinearOrder T] [Inhabited T]
    (F B' : List T) (a b : T)
    (hsort : (F ++ a :: b :: B').Sorted (· < ·)) :
    next_permutation (a :: (F ++ b :: B').reverse) =
      (b :: (F ++ a :: B'), true) := by
  have hw : (F ++ b :: B').Sorted (· < ·) :=
    hsort.sublist ((List.sublist_cons_self a (b :: B')).append_left F)
  have hpw := List.pairwise_append.mp hsort
  have hFa : ∀ y ∈ F, y < a := fun y hy => hpw.2.2 y hy a (by simp)
  have hab : a < b := (List.pairwise_cons.mp hpw.2.1).1 b (by simp)
  set t := (F ++ b :: B').reverse with htdef
  have ht : t = B'.reverse ++ b :: F.reverse := by
    rw [htdef, List.reverse_append, List.reverse_cons, List.append_assoc]
    rfl
  have htlen : t.length = B'.length + F.length + 1 := by
    rw [htdef, List.length_reverse]
    simp
    omega
  have hdesc : t.Pairwise (· > ·) := by
    rw [htdef]
    exact List.pairwise_reverse.mpr hw
  have htget : ∀ (j : Nat) (hj : j < t.length),
      t.getD j default = t.get ⟨j, hj⟩ := by
    intro j hj
    rw [List.getD_eq_getElem t default hj]
    rfl
  have hasc : largestAscIndex (a :: t) = some 0 := by
    apply find_rev_range_eq_some
    · simp only [List.length_cons]
      omega
    · have hbmem : b ∈ t := by
        rw [htdef]
        simp
      obtain ⟨⟨jb, hjb⟩, hjbe⟩ := List.mem_iff_get.mp hbmem
      have h0lt : 0 < t.length := by omega
      have ht0 : a < t.get ⟨0, h0lt⟩ := by
        rcases Nat.eq_zero_or_pos jb with hz | hz
        · have hgb : t.get ⟨0, h0lt⟩ = b := by
            subst hz
            exact hjbe
          rw [hgb]
          exact hab
        · have hgt0 := (List.pairwise_iff_get.mp hdesc) ⟨0, h0lt⟩ ⟨jb, hjb⟩
            (by simpa using hz)
          have hgb : t.get ⟨jb, hjb⟩ = b := hjbe
          rw [hgb] at hgt0
          exact lt_trans hab hgt0
      simp only [List.getD_cons_zero, List.getD_cons_succ]
      have hD0 : t.getD 0 default = t.get ⟨0, h0lt⟩ := htget 0 h0lt
      simp only [hD0]
      simpa using ht0
    · intro j hj1 hj2
      rcases j with _ | j'
      · omega
      · simp only [List.length_cons] at hj2
        have hb1 : j' < t.length := by omega
        have hb2 : j' + 1 < t.length := by omega
        simp only [List.getD_cons_succ]
        have hD1 : t.getD j' default = t.get ⟨j', hb1⟩ := htget j' hb1
        have hD2 : t.getD (j' + 1) default = t.get ⟨j' + 1, hb2⟩ :=
          htget (j' + 1) hb2
        simp only [hD1, hD2]
        have hgtp := (List.pairwise_iff_get.mp hdesc) ⟨j', hb1⟩ ⟨j' + 1, hb2⟩
          (by simp)
        simp only [decide_eq_false_iff_not, not_lt]
        exact le_of_lt hgtp
  have hgetb : (a :: t).getD (B'.length + 1) default = b := by
    simp only [List.getD_cons_succ]
    rw [ht, show B'.length = B'.reverse.length + 0 by simp,
      List.getD_append_right _ _ _ _ (by omega)]
    simp
  have hgt : largestGtIndex (a :: t) 0 = some (B'.length + 1) := by
    apply find_rev_range_eq_some
    · simp only [List.length_cons]
      omega
    · simp only [List.getD_cons_zero, hgetb]
      simpa using hab
    · intro j hj1 hj2
      simp only [List.length_cons] at hj2
      obtain ⟨r, hr⟩ : ∃ r, j = B'.length + 2 + r := ⟨j - B'.length - 2, by omega⟩
      have hrF : r < F.length := by omega
      have hjv : (a :: t).getD j default = F.reverse.getD r default := by
        subst hr
        rw [show B'.length + 2 + r = (B'.length + 1 + r) + 1 by omega,
          List.getD_cons_succ, ht,
          show B'.length + 1 + r = B'.reverse.length + (1 + r) by
            rw [List.length_reverse]
            omega,
          List.getD_append_right _ _ _ _ (by omega),
          show B'.reverse.length + (1 + r) - B'.reverse.length = 1 + r by omega,
          show (1 : Nat) + r = r + 1 by omega, List.getD_cons_succ]
      have hmemF : F.reverse.getD r default ∈ F := by
        have hr9 : r < F.reverse.length := by simpa using hrF
        rw [List.getD_eq_getElem _ _ hr9]
        have hmm : F.reverse.get ⟨r, hr9⟩ ∈ F.reverse := List.get_mem _ _ _
        exact List.mem_reverse.mp hmm
      simp only [List.getD_cons_zero, hjv, decide_eq_false_iff_not, not_lt]
      exact le_of_lt (hFa _ hmemF)
  unfold next_permutation
  simp only [hasc, hgt]
  have hswap : listSwap (a :: t) 0 (B'.length + 1) =
      b :: B'.reverse ++ a :: F.reverse := by
    rw [listSwap, hgetb]
    simp only [List.getD_cons_zero]
    rw [show ((a :: t).set 0 b) = b :: t from rfl, List.set_cons_succ]
    rw [ht, show B'.length = B'.reverse.length + 0 by simp,
      List.set_append_right _ _ (by omega)]
    simp
  rw [hswap]
  simp only [Prod.mk.injEq]
  constructor
  · simp [List.reverse_append]
  · trivial

theorem getD_append_len {T : Type} [Inhabited T] (l1 l2 : List T) (n : Nat) :
    (l1 ++ l2).getD (l1.length + n) default = l2.getD n default := by
  rw [List.getD_append_right _ _ _ _ (by omega)]
  congr 1
  omega

theorem eraseIdx_append_len {T : Type} (l1 l2 : List T) (n : Nat) :
    (l1 ++ l2).eraseIdx (l1.length + n) = l1 ++ l2.eraseIdx n := by
  rw [List.eraseIdx_append_of_length_le (by omega)]
  congr 2
  omega

set_option maxHeartbeats 1000000 in
/-- The pivot-and-reverse step advances Lehmer decoding by one index. -/
theorem lehmerRec_succ {T : Type} [LinearOrder T] [Inhabited T] :
    ∀ (cnt : Nat) (c : List T), c.Sorted (· < ·) → c.length = cnt → cnt ≤ 20 →
    ∀ p, p + 1 < FACT cnt →
    next_permutation (lehmerRec cnt p c) = (lehmerRec cnt (p + 1) c, true) := by
  intro cnt
  induction cnt with
  | zero =>
    intro c _ _ _ p hp
    simp [FACT, FACTORIAL] at hp
  | succ m ih =>
    intro c hsort hlen hm p hp
    have hF : 0 < FACT m := FACT_pos_all m (by omega)
    have hs : FACT (m + 1) = (m + 1) * FACT m := FACT_succ_all m (by omega)
    have hpd : FACT m * (p / FACT m) + p % FACT m = p := Nat.div_add_mod p (FACT m)
    have hdm : p / FACT m ≤ m := by
      have h1 : p < FACT (m + 1) := by omega
      rw [hs] at h1
      have h2 : p / FACT m < m + 1 := by
        rw [Nat.div_lt_iff_lt_mul hF]
        omega
      omega
    by_cases hcase : p % FACT m + 1 < FACT m
    · have hd1 : (p + 1) / FACT m = p / FACT m := by
        rw [show p + 1 = p % FACT m + 1 + FACT m * (p / FACT m) by omega,
          Nat.add_mul_div_left _ _ hF, Nat.div_eq_of_lt hcase, Nat.zero_add]
      have hm1 : (p + 1) % FACT m = p % FACT m + 1 := by
        rw [show p + 1 = p % FACT m + 1 + FACT m * (p / FACT m) by omega,
          Nat.add_mul_mod_self_left]
        exact Nat.mod_eq_of_lt hcase
      rw [lehmerRec, lehmerRec, hd1, hm1]
      apply next_permutation_cons
      exact ih (c.eraseIdx (p / FACT m))
        (hsort.sublist (List.eraseIdx_sublist c (p / FACT m)))
        (by rw [List.length_eraseIdx_of_lt (by omega)]; omega)
        (by omega) (p % FACT m) hcase
    · have hp' : p % FACT m = FACT m - 1 := by
        have := Nat.mod_lt p hF
        omega
      have hmul : FACT m * (p / FACT m + 1) = FACT m * (p / FACT m) + FACT m := by
        ring
      have hp1 : p + 1 = FACT m * (p / FACT m + 1) := by omega
      have hd1 : (p + 1) / FACT m = p / FACT m + 1 := by
        rw [hp1, Nat.mul_div_cancel_left _ hF]
      have hm1 : (p + 1) % FACT m = 0 := by
        rw [hp1]
        exact Nat.mul_mod_right _ _
      have hdm2 : p / FACT m + 1 ≤ m := by
        have h1 : p + 1 < FACT (m + 1) := hp
        rw [hs] at h1
        have h2 : FACT m * (p / FACT m + 1) < FACT m * (m + 1) := by
          rw [← hp1]
          calc p + 1 < (m + 1) * FACT m := h1
          _ = FACT m * (m + 1) := by ring
        have := Nat.lt_of_mul_lt_mul_left h2
        omega
      -- decompose c around positions d and d+1
      have hd2 : p / FACT m + 1 < c.length := by omega
      have hsplit : c = c.take (p / FACT m) ++
          c.getD (p / FACT m) default :: c.getD (p / FACT m + 1) default ::
            c.drop (p / FACT m + 2) := by
        conv_lhs => rw [← List.take_append_drop (p / FACT m) c]
        congr 1
        rw [List.drop_eq_getElem_cons (by omega)]
        congr 1
        · rw [List.getD_eq_getElem c default (by omega)]
        · rw [List.drop_eq_getElem_cons (by omega)]
          congr 1
          rw [List.getD_eq_getElem c default (by omega)]
      have htklen : (c.take (p / FACT m)).length = p / FACT m :=
        List.length_take_of_le (by omega)
      rw [lehmerRec, lehmerRec, hd1, hm1, hp']
      rw [lehmerRec_last m _ (by rw [List.length_eraseIdx_of_lt (by omega)]; omega)
        (by omega)]
      rw [lehmerRec_zero m _ (by rw [List.length_eraseIdx_of_lt (by omega)]; omega)]
      -- rewrite erasures and accesses through the decomposition
      have her1 : c.eraseIdx (p / FACT m) =
          c.take (p / FACT m) ++ c.getD (p / FACT m + 1) default ::
            c.drop (p / FACT m + 2) := by
        conv_lhs => rw [hsplit]
        have h0 := eraseIdx_append_len (c.take (p / FACT m))
          (c.getD (p / FACT m) default :: c.getD (p / FACT m + 1) default ::
            c.drop (p / FACT m + 2)) 0
        rw [htklen] at h0
        simpa using h0
      have her2 : c.eraseIdx (p / FACT m + 1) =
          c.take (p / FACT m) ++ c.getD (p / FACT m) default ::
            c.drop (p / FACT m + 2) := by
        conv_lhs => rw [hsplit]
        have h0 := eraseIdx_append_len (c.take (p / FACT m))
          (c.getD (p / FACT m) default :: c.getD (p / FACT m + 1) default ::
            c.drop (p / FACT m + 2)) 1
        rw [htklen] at h0
        simpa using h0
      rw [her1, her2]
      have hsort2 : (c.take (p / FACT m) ++ c.getD (p / FACT m) default ::
          c.getD (p / FACT m + 1) default :: c.drop (p / FACT m + 2)).Sorted
            (· < ·) := by
        rw [← hsplit]
        exact hsort
      have := np_rollover (c.take (p / FACT m)) (c.drop (p / FACT m + 2))
        (c.getD (p / FACT m) default) (c.getD (p / FACT m + 1) default) hsort2
      exact this

theorem lehmerRec_length {T : Type} [Inhabited T] :
    ∀ (cnt p : Nat) (l : List T), (lehmerRec cnt p l).length = cnt := by
  intro cnt
  induction cnt with
  | zero => intro p l; rfl
  | succ m ih => intro p l; rw [lehmerRec]; simp [ih]

theorem n_choose_k_eq_choose :
    ∀ n, n < 21 → ∀ k, k < 22 → n_choose_k n k = Nat.choose n k := by decide

theorem n_permute_k_self : ∀ k, k < 21 → n_permute_k k k = FACT k := by decide

theorem n_permute_k_eq :
    ∀ n, n < 21 → ∀ k, k < 21 → k ≤ n →
      n_permute_k n k = Nat.choose n k * FACT k := by decide

theorem succ_div_mod (a m : Nat) (h : a % m + 1 < m) :
    (a + 1) / m = a / m ∧ (a + 1) % m = a % m + 1 := by
  have hm : 0 < m := by omega
  have hpd : m * (a / m) + a % m = a := Nat.div_add_mod a m
  constructor
  · rw [show a + 1 = a % m + 1 + m * (a / m) by omega,
      Nat.add_mul_div_left _ _ hm, Nat.div_eq_of_lt h, Nat.zero_add]
  · rw [show a + 1 = a % m + 1 + m * (a / m) by omega,
      Nat.add_mul_mod_self_left]
    exact Nat.mod_eq_of_lt h

theorem succ_div_mod_boundary (a m : Nat) (hm : 0 < m) (h : a % m + 1 = m) :
    (a + 1) / m = a / m + 1 ∧ (a + 1) % m = 0 := by
  have hpd : m * (a / m) + a % m = a := Nat.div_add_mod a m
  have hmul : m * (a / m + 1) = m * (a / m) + m := by ring
  have hp1 : a + 1 = m * (a / m + 1) := by omega
  constructor
  · rw [hp1, Nat.mul_div_cancel_left _ hm]
  · rw [hp1]
    exact Nat.mul_mod_right _ _

theorem icWhile_spec (n k s t : Nat) (hn : n ≤ 20) (hts : k - s = t) :
    ∀ fuel cs r, 1 ≤ r → cs + t ≤ n → n + 1 ≤ fuel + cs + t →
    r ≤ Nat.choose (n - cs + 1) (t + 1) →
    ∃ r2 cs2, icWhile n k s fuel r cs = (r2, cs2) ∧
      cs ≤ cs2 ∧ cs2 + t ≤ n ∧ 1 ≤ r2 ∧ r2 ≤ Nat.choose (n - cs2) t := by
  intro fuel
  induction fuel with
  | zero => intro cs r h1 h2 h3 _; omega
  | succ f ih =>
    intro cs r h1 h2 h3 h4
    have hbr : n_choose_k (n - cs) (k - s) = Nat.choose (n - cs) t := by
      rw [hts]; exact n_choose_k_eq_choose (n - cs) (by omega) t (by omega)
    by_cases hcond : r > n_choose_k (n - cs) (k - s)
    · have hcond2 : Nat.choose (n - cs) t < r := by rw [hbr] at hcond; exact hcond
      have h2s : cs + 1 + t ≤ n := by
        by_contra hcon
        have hcst : cs + t = n := by omega
        have hnc : n - cs = t := by omega
        rw [hnc] at hcond2
        rw [show n - cs + 1 = t + 1 by omega, Nat.choose_self] at h4
        rw [Nat.choose_self] at hcond2
        omega
      have hpascal : Nat.choose (n - cs + 1) (t + 1) =
          Nat.choose (n - cs) t + Nat.choose (n - cs) (t + 1) :=
        Nat.choose_succ_succ _ _
      have h1s : 1 ≤ r - n_choose_k (n - cs) (k - s) := by rw [hbr]; omega
      have h4s : r - n_choose_k (n - cs) (k - s) ≤
          Nat.choose (n - (cs + 1) + 1) (t + 1) := by
        rw [hbr, show n - (cs + 1) + 1 = n - cs by omega]
        omega
      obtain ⟨r2, cs2, heq, ha, hb, hc, hd⟩ :=
        ih (cs + 1) (r - n_choose_k (n - cs) (k - s)) h1s h2s (by omega) h4s
      refine ⟨r2, cs2, ?_, by omega, hb, hc, hd⟩
      rw [icWhile, if_pos hcond]
      exact heq
    · refine ⟨r, cs, ?_, Nat.le_refl _, h2, h1, ?_⟩
      · rw [icWhile, if_neg hcond]
      · rw [hbr] at hcond; omega

theorem icFor_step (n k scnt s r j r2 cs : Nat)
    (h : icWhile n k s (n + 1) r (j + 1) = (r2, cs)) :
    icFor n k (scnt + 1) s r j = (cs - 1) :: icFor n k scnt (s + 1) r2 cs := by
  rw [icFor, h]

theorem icFor_valid (n k : Nat) (hn : n ≤ 20) :
    ∀ scnt s r j, s + scnt = k + 1 → 1 ≤ s → 1 ≤ r →
    j + (k - s + 1) ≤ n → r ≤ Nat.choose (n - j) (k - s + 1) →
    (icFor n k scnt s r j).length = scnt ∧
    (icFor n k scnt s r j).Pairwise (· < ·) ∧
    ∀ x ∈ icFor n k scnt s r j, j ≤ x ∧ x < n := by
  intro scnt
  induction scnt with
  | zero => intro s r j _ _ _ _ _; refine ⟨rfl, List.Pairwise.nil, ?_⟩; intro x hx; cases hx
  | succ m ih =>
    intro s r j hs hs1 hr hj hrle
    have hwpre : r ≤ Nat.choose (n - (j + 1) + 1) (k - s + 1) := by
      rw [show n - (j + 1) + 1 = n - j by omega]
      exact hrle
    obtain ⟨r2, cs2, heq, hcs1, hcs2, hr2, hrle2⟩ :=
      icWhile_spec n k s (k - s) hn rfl (n + 1) (j + 1) r hr (by omega) (by omega) hwpre
    rw [icFor_step n k m s r j r2 cs2 heq]
    by_cases hsk : s < k
    · have hkk : k - (s + 1) + 1 = k - s := by omega
      obtain ⟨hlen, hpair, hmem⟩ := ih (s + 1) r2 cs2 (by omega) (by omega) hr2
        (by omega) (by rw [hkk]; exact hrle2)
      refine ⟨by simp [hlen], ?_, ?_⟩
      · rw [List.pairwise_cons]
        refine ⟨?_, hpair⟩
        intro x hx
        have := hmem x hx
        omega
      · intro x hx
        rw [List.mem_cons] at hx
        rcases hx with hx | hx
        · omega
        · have := hmem x hx
          omega
    · have hsk2 : s = k := by omega
      have hm0 : m = 0 := by omega
      rw [hm0]
      refine ⟨rfl, ?_, ?_⟩
      · rw [show icFor n k 0 (s + 1) r2 cs2 = [] from rfl]
        exact List.pairwise_singleton _ _
      · intro x hx
        rw [show icFor n k 0 (s + 1) r2 cs2 = [] from rfl] at hx
        rw [List.mem_cons] at hx
        rcases hx with hx | hx
        · have ht0 : k - s = 0 := by omega
          rw [ht0] at hcs2
          omega
        · cases hx

theorem indexed_combination_valid (i n k : Nat) (hn : n ≤ 20) (hk : 1 ≤ k)
    (hkn : k ≤ n) (hi : i < Nat.choose n k) :
    (indexed_combination i n k).length = k ∧
    (indexed_combination i n k).Pairwise (· < ·) ∧
    ∀ x ∈ indexed_combination i n k, x < n := by
  have hk1 : k - 1 + 1 = k := by omega
  obtain ⟨h1, h2, h3⟩ := icFor_valid n k hn k 1 (i + 1) 0 (by omega) (by omega)
    (by omega) (by omega) (by rw [hk1]; simpa using hi)
  exact ⟨h1, h2, fun x hx => (h3 x hx).2⟩

/-- The combination of elements selected at combination ordinal `c`, as built
by `Permutations::next_combo`. -/
def ordCombo {T : Type} [Inhabited T] (elements : List T) (k c : Nat) : List T :=
  (indexed_combination c elements.length k).map fun idx => elements.getD idx default

/-- The tuple yielded at ordinal `j` of the enumeration: the permutation at
`j mod k!` of the combination at `j / k!`. -/
def ordTuple {T : Type} [LinearOrder T] [Inhabited T] (elements : List T) (k j : Nat) :
    List T :=
  indexed_permutation (j % FACT k) (ordCombo elements k (j / FACT k))

theorem ordCombo_length {T : Type} [Inhabited T] (elements : List T) (k c : Nat)
    (hk : 1 ≤ k) (hkn : k ≤ elements.length) (hn : elements.length ≤ 20)
    (hc : c < Nat.choose elements.length k) :
    (ordCombo elements k c).length = k := by
  rw [ordCombo, List.length_map]
  exact (indexed_combination_valid c elements.length k hn hk hkn hc).1

theorem ordCombo_nodup {T : Type} [Inhabited T] (elements : List T) (k c : Nat)
    (hnodup : elements.Nodup) (hk : 1 ≤ k) (hkn : k ≤ elements.length)
    (hn : elements.length ≤ 20) (hc : c < Nat.choose elements.length k) :
    (ordCombo elements k c).Nodup := by
  obtain ⟨_, hpair, hmem⟩ :=
    indexed_combination_valid c elements.length k hn hk hkn hc
  rw [ordCombo, List.Nodup, List.pairwise_map]
  apply List.Pairwise.imp_of_mem _ hpair
  intro a b ha hb hab
  have hal : a < elements.length := hmem a ha
  have hbl : b < elements.length := hmem b hb
  rw [List.getD_eq_getElem elements default hal,
    List.getD_eq_getElem elements default hbl]
  intro hcon
  have : a = b := by
    have h2 := hnodup.get_inj_iff.mp (show elements.get ⟨a, hal⟩ = elements.get ⟨b, hbl⟩ from hcon)
    exact congrArg Fin.val h2
  omega

theorem ordTuple_eq_lehmer {T : Type} [LinearOrder T] [Inhabited T]
    (elements : List T) (k j : Nat)
    (hk : 1 ≤ k) (hkn : k ≤ elements.length) (hn : elements.length ≤ 20)
    (hc : j / FACT k < Nat.choose elements.length k) :
    ordTuple elements k j =
      lehmerRec k (j % FACT k) (sortList (ordCombo elements k (j / FACT k))) := by
  have hlen : (ordCombo elements k (j / FACT k)).length = k :=
    ordCombo_length elements k _ hk hkn hn hc
  rw [ordTuple, indexed_permutation_eq _ _ (by omega), hlen,
    Nat.mod_mod_of_dvd _ dvd_rfl]

theorem ordTuple_length {T : Type} [LinearOrder T] [Inhabited T]
    (elements : List T) (k j : Nat)
    (hk : 1 ≤ k) (hkn : k ≤ elements.length) (hn : elements.length ≤ 20)
    (hc : j / FACT k < Nat.choose elements.length k) :
    (ordTuple elements k j).length = k := by
  rw [ordTuple_eq_lehmer elements k j hk hkn hn hc]
  exact lehmerRec_length _ _ _

theorem ordTuple_succ {T : Type} [LinearOrder T] [Inhabited T]
    (elements : List T) (k j : Nat) (hnodup : elements.Nodup)
    (hk : 1 ≤ k) (hkn : k ≤ elements.length) (hn : elements.length ≤ 20)
    (hc : j / FACT k < Nat.choose elements.length k)
    (hmod : j % FACT k + 1 < FACT k) :
    next_permutation (ordTuple elements k j) = (ordTuple elements k (j + 1), true) := by
  obtain ⟨hd, hm⟩ := succ_div_mod j (FACT k) hmod
  have hsl : (sortList (ordCombo elements k (j / FACT k))).length = k := by
    rw [(sortList_perm _).length_eq]
    exact ordCombo_length elements k _ hk hkn hn hc
  rw [ordTuple_eq_lehmer elements k j hk hkn hn hc,
    ordTuple_eq_lehmer elements k (j + 1) hk hkn hn (by rw [hd]; exact hc),
    hd, hm]
  exact lehmerRec_succ k _
    (sortList_sorted_lt _ (ordCombo_nodup elements k _ hnodup hk hkn hn hc))
    hsl (by omega) (j % FACT k) hmod

theorem ordTuple_ne_nil {T : Type} [LinearOrder T] [Inhabited T]
    (elements : List T) (k j : Nat)
    (hk : 1 ≤ k) (hkn : k ≤ elements.length) (hn : elements.length ≤ 20)
    (hc : j / FACT k < Nat.choose elements.length k) :
    ordTuple elements k j ≠ [] := by
  intro hcon
  have := ordTuple_length elements k j hk hkn hn hc
  rw [hcon] at this
  simp at this
  omega

theorem next_PS_stop {T : Type} [LinearOrder T] [Inhabited T]
    (elements : List T) (k b j : Nat)
    (hk : 1 ≤ k) (hkn : k ≤ elements.length) (hn : elements.length ≤ 20)
    (hc : j / FACT k < Nat.choose elements.length k) (hj1 : b ≤ j + 1) :
    Permutations.next
        ⟨elements, ordTuple elements k j, j / FACT k, j % FACT k, b, FACT k, k, j⟩ =
      (none, ⟨elements, ordTuple elements k j, j / FACT k, j % FACT k, b, FACT k, k,
        j + 1⟩) := by
  rw [Permutations.next]
  have hne : (ordTuple elements k j).isEmpty = false :=
    List.isEmpty_eq_false.mpr (ordTuple_ne_nil elements k j hk hkn hn hc)
  simp only [hne]
  rw [if_neg (by simp)]
  rw [if_pos (by simpa using hj1)]

theorem next_PS_go {T : Type} [LinearOrder T] [Inhabited T]
    (elements : List T) (k b j : Nat) (hnodup : elements.Nodup)
    (hk : 1 ≤ k) (hkn : k ≤ elements.length) (hn : elements.length ≤ 20)
    (hb : b ≤ Nat.choose elements.length k * FACT k) (hj1 : j + 1 < b) :
    Permutations.next
        ⟨elements, ordTuple elements k j, j / FACT k, j % FACT k, b, FACT k, k, j⟩ =
      (some (ordTuple elements k (j + 1)),
        ⟨elements, ordTuple elements k (j + 1), (j + 1) / FACT k, (j + 1) % FACT k, b,
          FACT k, k, j + 1⟩) := by
  have hF : 0 < FACT k := FACT_pos_all k (by omega)
  have hc : j / FACT k < Nat.choose elements.length k := by
    rw [Nat.div_lt_iff_lt_mul hF]
    omega
  have hc1 : (j + 1) / FACT k < Nat.choose elements.length k := by
    rw [Nat.div_lt_iff_lt_mul hF]
    omega
  rw [Permutations.next]
  have hne : (ordTuple elements k j).isEmpty = false :=
    List.isEmpty_eq_false.mpr (ordTuple_ne_nil elements k j hk hkn hn hc)
  simp only [hne]
  rw [if_neg (by simp)]
  rw [if_neg (by simpa using hj1)]
  rw [Permutations.next_perm]
  by_cases hcase : j % FACT k = FACT k - 1
  · rw [if_pos (by simpa using hcase)]
    obtain ⟨hd, hm⟩ := succ_div_mod_boundary j (FACT k) hF (by omega)
    rw [Permutations.next_combo]
    simp only
    conv_rhs => rw [ordTuple, hd, hm]
    rfl
  · rw [if_neg (by simpa using hcase)]
    have hmod : j % FACT k + 1 < FACT k := by
      have := Nat.mod_lt j hF
      omega
    obtain ⟨hd, hm⟩ := succ_div_mod j (FACT k) hmod
    simp only
    rw [ordTuple_succ elements k j hnodup hk hkn hn hc hmod]
    rw [hd, hm]

theorem run_cons {T : Type} [LinearOrder T] [Inhabited T]
    (p p2 : Permutations T) (t : List T) (f : Nat) (h : p.next = (some t, p2)) :
    p.run (f + 1) = t :: p2.run f := by
  rw [Permutations.run, h]

theorem run_none {T : Type} [LinearOrder T] [Inhabited T]
    (p p2 : Permutations T) (f : Nat) (h : p.next = (none, p2)) :
    p.run (f + 1) = [] := by
  rw [Permutations.run, h]

theorem run_state {T : Type} [LinearOrder T] [Inhabited T]
    (elements : List T) (k b : Nat) (hnodup : elements.Nodup)
    (hk : 1 ≤ k) (hkn : k ≤ elements.length) (hn : elements.length ≤ 20)
    (hb : b ≤ Nat.choose elements.length k * FACT k) :
    ∀ fuel j, j < b → b ≤ fuel + j →
    Permutations.run
        ⟨elements, ordTuple elements k j, j / FACT k, j % FACT k, b, FACT k, k, j⟩
        fuel =
      (List.range' (j + 1) (b - (j + 1))).map (ordTuple elements k) := by
  intro fuel
  induction fuel with
  | zero => intro j hj hfj; omega
  | succ f ih =>
    intro j hj hfj
    have hF : 0 < FACT k := FACT_pos_all k (by omega)
    have hc : j / FACT k < Nat.choose elements.length k := by
      rw [Nat.div_lt_iff_lt_mul hF]
      omega
    by_cases hj1 : j + 1 < b
    · rw [run_cons _ _ _ f (next_PS_go elements k b j hnodup hk hkn hn hb hj1)]
      rw [ih (j + 1) hj1 (by omega)]
      rw [show b - (j + 1) = (b - (j + 2)) + 1 by omega, List.range'_succ]
      rfl
    · rw [run_none _ _ f (next_PS_stop elements k b j hk hkn hn hc (by omega))]
      rw [show b - (j + 1) = 0 by omega]
      rfl

theorem new_shard_eq {T : Type} (elements : List T) (k a b : Nat) (hk : k ≤ 20) :
    Permutations.new_shard elements k a b =
      ⟨elements, [], a / FACT k, a % FACT k, b, FACT k, k, a⟩ := by
  rw [Permutations.new_shard, n_permute_k_self k (by omega)]

theorem run_new_shard {T : Type} [LinearOrder T] [Inhabited T]
    (elements : List T) (k a b fuel : Nat) (hnodup : elements.Nodup)
    (hk : 1 ≤ k) (hkn : k ≤ elements.length) (hn : elements.length ≤ 20)
    (hb : b ≤ Nat.choose elements.length k * FACT k) (hab : a < b)
    (hfuel : b + 1 ≤ fuel + a) :
    Permutations.run (Permutations.new_shard elements k a b) fuel =
      (List.range' a (b - a)).map (ordTuple elements k) := by
  have hF : 0 < FACT k := FACT_pos_all k (by omega)
  rcases fuel with _ | f
  · omega
  rw [new_shard_eq elements k a b (by omega)]
  have hnext : Permutations.next
      (⟨elements, [], a / FACT k, a % FACT k, b, FACT k, k, a⟩ : Permutations T) =
      (some (ordTuple elements k a),
        ⟨elements, ordTuple elements k a, a / FACT k, a % FACT k, b, FACT k, k, a⟩) := by
    rw [Permutations.next, if_pos (by simp), Permutations.next_combo]
    rfl
  rw [run_cons _ _ _ f hnext]
  rw [run_state elements k b hnodup hk hkn hn hb f a hab (by omega)]
  rw [show b - a = (b - (a + 1)) + 1 by omega, List.range'_succ]
  rfl

theorem shard_count_zero (plen ss idx : Nat) (hss : 1 ≤ ss) (hge : plen ≤ idx) :
    (plen - idx + ss - 1) / ss = 0 := by
  rw [show plen - idx + ss - 1 = ss - 1 by omega]
  exact Nat.div_eq_of_lt (by omega)

theorem shard_count_succ (plen ss idx : Nat) (hss : 1 ≤ ss) (hlt : idx < plen) :
    (plen - idx + ss - 1) / ss = (plen - (idx + ss) + ss - 1) / ss + 1 := by
  have h1 : plen - idx + ss - 1 = (plen - idx - 1) + ss := by omega
  rw [h1, Nat.add_div_right _ (by omega)]
  by_cases hcase : plen ≤ idx + ss
  · rw [show plen - (idx + ss) + ss - 1 = ss - 1 by omega,
      Nat.div_eq_of_lt (show ss - 1 < ss by omega),
      Nat.div_eq_of_lt (show plen - idx - 1 < ss by omega)]
  · rw [show plen - (idx + ss) + ss - 1 = (plen - idx - ss - 1) + ss by omega,
      Nat.add_div_right _ (by omega),
      show plen - idx - 1 = (plen - idx - ss - 1) + ss by omega,
      Nat.add_div_right _ (by omega)]

theorem shardLoop_spec {T : Type} (elements : List T) (k plen ss : Nat)
    (hss : 1 ≤ ss) :
    ∀ fuel idx, plen + 1 ≤ fuel + idx →
    Permutations.shardLoop elements k plen ss fuel idx =
      some ((List.range ((plen - idx + ss - 1) / ss)).map fun i =>
        Permutations.new_shard elements k (idx + i * ss)
          (min plen (idx + i * ss + ss))) := by
  intro fuel
  induction fuel with
  | zero =>
    intro idx hfi
    have hge : plen ≤ idx := by omega
    rw [Permutations.shardLoop, if_neg (by omega), shard_count_zero plen ss idx hss hge]
    rfl
  | succ f ih =>
    intro idx hfi
    by_cases hlt : idx < plen
    · rw [Permutations.shardLoop]
      rw [if_pos hlt]
      rw [ih (idx + ss) (by omega)]
      simp only
      rw [shard_count_succ plen ss idx hss hlt, List.range_succ_eq_map, List.map_cons,
        List.map_map]
      congr 1
      congr 1
      · rw [Nat.zero_mul, Nat.add_zero]
      apply List.map_congr_left
      intro i _
      simp only [Function.comp_apply]
      have h2 : idx + ss + i * ss = idx + Nat.succ i * ss := by
        rw [Nat.succ_mul]
        omega
      rw [h2]
    · rw [Permutations.shardLoop, if_neg hlt,
        shard_count_zero plen ss idx hss (by omega)]
      rfl

theorem flatten_runs {T : Type} [LinearOrder T] [Inhabited T]
    (elements : List T) (k plen ss : Nat) (hnodup : elements.Nodup)
    (hk : 1 ≤ k) (hkn : k ≤ elements.length) (hn : elements.length ≤ 20)
    (hplen : plen ≤ Nat.choose elements.length k * FACT k) (hss : 1 ≤ ss) :
    ∀ cnt idx, cnt = (plen - idx + ss - 1) / ss →
    ((List.range cnt).map fun i =>
        Permutations.run (Permutations.new_shard elements k (idx + i * ss)
          (min plen (idx + i * ss + ss))) (plen + 1)).flatten =
      (List.range' idx (plen - idx)).map (ordTuple elements k) := by
  intro cnt
  induction cnt with
  | zero =>
    intro idx hcnt
    have hge : plen ≤ idx := by
      by_contra hcon
      rw [shard_count_succ plen ss idx hss (by omega)] at hcnt
      exact absurd hcnt.symm (Nat.succ_ne_zero _)
    rw [show plen - idx = 0 by omega]
    rfl
  | succ c ih =>
    intro idx hcnt
    have hlt : idx < plen := by
      by_contra hcon
      rw [shard_count_zero plen ss idx hss (by omega)] at hcnt
      exact absurd hcnt (Nat.succ_ne_zero c)
    rw [List.range_succ_eq_map, List.map_cons, List.flatten_cons, List.map_map]
    have hb1 : idx < min plen (idx + ss) := lt_min hlt (by omega)
    have hhead : Permutations.run (Permutations.new_shard elements k (idx + 0 * ss)
        (min plen (idx + 0 * ss + ss))) (plen + 1) =
        (List.range' idx (min plen (idx + ss) - idx)).map (ordTuple elements k) := by
      rw [Nat.zero_mul, Nat.add_zero]
      exact run_new_shard elements k idx (min plen (idx + ss)) (plen + 1) hnodup
        hk hkn hn (le_trans (min_le_left _ _) hplen) hb1
        (by have := min_le_left plen (idx + ss); omega)
    rw [hhead]
    have htail : (List.range c).map ((fun i =>
        Permutations.run (Permutations.new_shard elements k (idx + i * ss)
          (min plen (idx + i * ss + ss))) (plen + 1)) ∘ Nat.succ) =
        (List.range c).map fun i =>
          Permutations.run (Permutations.new_shard elements k (idx + ss + i * ss)
            (min plen (idx + ss + i * ss + ss))) (plen + 1) := by
      apply List.map_congr_left
      intro i _
      simp only [Function.comp_apply]
      have h2 : idx + ss + i * ss = idx + Nat.succ i * ss := by
        rw [Nat.succ_mul]
        omega
      rw [h2]
    rw [htail]
    rw [ih (idx + ss) (by rw [shard_count_succ plen ss idx hss hlt] at hcnt; omega)]
    by_cases hcase : idx + ss ≤ plen
    · rw [min_eq_right hcase]
      rw [show idx + ss - idx = ss by omega, ← List.map_append]
      rw [show plen - (idx + ss) = plen - idx - ss by omega]
      rw [List.range'_append_1]
      rw [show plen - idx - ss + ss = plen - idx by omega]
    · rw [min_eq_left (by omega)]
      rw [show plen - (idx + ss) = 0 by omega]
      simp

theorem new_shard_index {T : Type} (elements : List T) (k a b : Nat) :
    (Permutations.new_shard elements k a b).index = a := rfl

theorem new_shard_len {T : Type} (elements : List T) (k a b : Nat) :
    (Permutations.new_shard elements k a b).len = b := rfl

theorem shard_index_lt (plen ss i : Nat) (hss : 1 ≤ ss)
    (hi : i < (plen + ss - 1) / ss) : i * ss < plen := by
  have h1 : i + 1 ≤ (plen + ss - 1) / ss := hi
  have h2 : (i + 1) * ss ≤ plen + ss - 1 := (Nat.le_div_iff_mul_le (by omega)).mp h1
  rcases Nat.eq_zero_or_pos plen with h0 | h0
  · rw [h0, show 0 + ss - 1 = ss - 1 by omega,
      Nat.div_eq_of_lt (show ss - 1 < ss by omega)] at hi
    omega
  · rw [Nat.succ_mul] at h2
    omega

/-- The list of shards produced by `Permutations::shard` for range size `plen`
and shard size `ss`: the `i`-th shard covers ordinals
`[i*ss, min plen (i*ss+ss))`. -/
def shardList {T : Type} (elements : List T) (k plen ss : Nat) :
    List (Permutations T) :=
  (List.range ((plen + ss - 1) / ss)).map fun i =>
    Permutations.new_shard elements k (i * ss) (min plen (i * ss + ss))

/-- Claim C4 (amended): for a `Permutations` enumerator built by
`new(elements, k)` with distinct elements, `1 <= k <= n <= 20`, and a shard
count `m` with `1 <= m <= len`, `shard(m)` returns the shards whose `i`-th
entry covers the contiguous ordinal range `[i*ss, min len (i*ss+ss))` for
`ss = len / m` (the ranges are contiguous and non-overlapping but their number
can exceed `m`); each shard when iterated yields exactly the indexed
k-permutation tuples of its ordinal range, and the concatenation of the
shards' outputs equals the unsharded sequence, which is the tuple at every
ordinal below `len` in order. -/
theorem permutations_shard_spec {T : Type} [LinearOrder T] [Inhabited T]
    (elements : List T) (k m : Nat) (hnodup : elements.Nodup)
    (hk : 1 ≤ k) (hkn : k ≤ elements.length) (hn : elements.length ≤ 20)
    (hm1 : 1 ≤ m) (hm2 : m ≤ n_permute_k elements.length k) :
    (Permutations.new elements k).shard m =
      some (shardList elements k (n_permute_k elements.length k)
        (n_permute_k elements.length k / m)) ∧
    (∀ s ∈ shardList elements k (n_permute_k elements.length k)
        (n_permute_k elements.length k / m),
      s.index < s.len ∧ s.len ≤ n_permute_k elements.length k ∧
      Permutations.run s (n_permute_k elements.length k + 1) =
        (List.range' s.index (s.len - s.index)).map (ordTuple elements k)) ∧
    ((shardList elements k (n_permute_k elements.length k)
        (n_permute_k elements.length k / m)).map fun s =>
      Permutations.run s (n_permute_k elements.length k + 1)).flatten =
      Permutations.run (Permutations.new elements k)
        (n_permute_k elements.length k + 1) ∧
    Permutations.run (Permutations.new elements k)
      (n_permute_k elements.length k + 1) =
      (List.range (n_permute_k elements.length k)).map (ordTuple elements k) := by
  have hplen : n_permute_k elements.length k =
      Nat.choose elements.length k * FACT k :=
    n_permute_k_eq elements.length (by omega) k (by omega) hkn
  have hF : 0 < FACT k := FACT_pos_all k (by omega)
  have hchoose : 0 < Nat.choose elements.length k := Nat.choose_pos hkn
  have hplen_pos : 0 < n_permute_k elements.length k := by
    rw [hplen]
    exact Nat.mul_pos hchoose hF
  have hss : 1 ≤ n_permute_k elements.length k / m :=
    (Nat.le_div_iff_mul_le (by omega)).mpr (by omega)
  have hrun4 : Permutations.run (Permutations.new elements k)
      (n_permute_k elements.length k + 1) =
      (List.range (n_permute_k elements.length k)).map (ordTuple elements k) := by
    have hnew : Permutations.new elements k =
        Permutations.new_shard elements k 0 (n_permute_k elements.length k) := rfl
    rw [hnew, run_new_shard elements k 0 (n_permute_k elements.length k)
      (n_permute_k elements.length k + 1) hnodup hk hkn hn (by omega) hplen_pos
      (by omega)]
    rw [Nat.sub_zero, List.range_eq_range']
  refine ⟨?_, ?_, ?_, hrun4⟩
  · have heval : (Permutations.new elements k).shard m =
        Permutations.shardLoop elements k (n_permute_k elements.length k)
          (n_permute_k elements.length k / m)
          (n_permute_k elements.length k + 1) 0 := rfl
    rw [heval, shardLoop_spec elements k (n_permute_k elements.length k)
      (n_permute_k elements.length k / m) hss (n_permute_k elements.length k + 1) 0
      (by omega)]
    simp only [shardList, Nat.sub_zero, Nat.zero_add]
  · intro s hs
    rw [shardList, List.mem_map] at hs
    obtain ⟨i, hi, rfl⟩ := hs
    rw [List.mem_range] at hi
    have hilt : i * (n_permute_k elements.length k / m) <
        n_permute_k elements.length k :=
      shard_index_lt _ _ i hss hi
    rw [new_shard_index, new_shard_len]
    refine ⟨lt_min hilt (by omega), min_le_left _ _, ?_⟩
    rw [run_new_shard elements k _ _ _ hnodup hk hkn hn
      (le_trans (min_le_left _ _) (le_of_eq hplen)) (lt_min hilt (by omega))
      (by have := min_le_left (n_permute_k elements.length k)
            (i * (n_permute_k elements.length k / m) +
              n_permute_k elements.length k / m)
          omega)]
  · have hfl := flatten_runs elements k (n_permute_k elements.length k)
      (n_permute_k elements.length k / m) hnodup hk hkn hn (le_of_eq hplen) hss
      (((n_permute_k elements.length k) + (n_permute_k elements.length k / m) - 1) /
        (n_permute_k elements.length k / m)) 0 (by rw [Nat.sub_zero])
    rw [hrun4]
    rw [shardList]
    rw [List.map_map]
    simp only [Nat.zero_add, Nat.sub_zero] at hfl
    rw [show ((fun s => Permutations.run s (n_permute_k elements.length k + 1)) ∘
        fun i => Permutations.new_shard elements k
          (i * (n_permute_k elements.length k / m))
          (min (n_permute_k elements.length k)
            (i * (n_permute_k elements.length k / m) +
              n_permute_k elements.length k / m))) =
      fun i => Permutations.run (Permutations.new_shard elements k
          (i * (n_permute_k elements.length k / m))
          (min (n_permute_k elements.length k)
            (i * (n_permute_k elements.length k / m) +
              n_permute_k elements.length k / m))) (n_permute_k elements.length k + 1)
      from rfl]
    rw [hfl, List.range_eq_range']

/-- Counterexample to claim C4 as stated: `shard(4)` on `new([1,2,3], 2)`
returns 6 > 4 shards; `shard(7)` never returns (the shard size is 0, modelled
by fuel exhaustion at every fuel); with `k = 0` iteration never exhausts even
though `len() = 1`; and with duplicate elements the concatenation of the
shards' outputs differs from the unsharded sequence. -/
theorem permutations_shard_counterexample :
    (∃ shards, (Permutations.new ([1, 2, 3] : List Nat) 2).shard 4 = some shards ∧
      4 < shards.length) ∧
    ((Permutations.new ([1, 2, 3] : List Nat) 2).shard 7).isNone = true ∧
    (Permutations.new ([1, 2] : List Nat) 0).run 3 = [[], [], []] ∧
    (∃ shards, (Permutations.new ([1, 1, 2] : List Nat) 3).shard 6 = some shards ∧
      (shards.map fun s => Permutations.run s 7).flatten ≠
        Permutations.run (Permutations.new ([1, 1, 2] : List Nat) 3) 7) := by
  refine ⟨⟨_, rfl, by decide⟩, by decide, by decide, ⟨_, rfl, by decide⟩⟩

theorem permutations_shard_spec_witness :
    (Permutations.new ([1, 2, 3] : List Nat) 2).shard 2 =
      some (shardList ([1, 2, 3] : List Nat) 2
        (n_permute_k ([1, 2, 3] : List Nat).length 2)
        (n_permute_k ([1, 2, 3] : List Nat).length 2 / 2)) ∧
    (∀ s ∈ shardList ([1, 2, 3] : List Nat) 2
        (n_permute_k ([1, 2, 3] : List Nat).length 2)
        (n_permute_k ([1, 2, 3] : List Nat).length 2 / 2),
      s.index < s.len ∧ s.len ≤ n_permute_k ([1, 2, 3] : List Nat).length 2 ∧
      Permutations.run s (n_permute_k ([1, 2, 3] : List Nat).length 2 + 1) =
        (List.range' s.index (s.len - s.index)).map
          (ordTuple ([1, 2, 3] : List Nat) 2)) ∧
    ((shardList ([1, 2, 3] : List Nat) 2
        (n_permute_k ([1, 2, 3] : List Nat).length 2)
        (n_permute_k ([1, 2, 3] : List Nat).length 2 / 2)).map fun s =>
      Permutations.run s (n_permute_k ([1, 2, 3] : List Nat).length 2 + 1)).flatten =
      Permutations.run (Permutations.new ([1, 2, 3] : List Nat) 2)
        (n_permute_k ([1, 2, 3] : List Nat).length 2 + 1) ∧
    Permutations.run (Permutations.new ([1, 2, 3] : List Nat) 2)
      (n_permute_k ([1, 2, 3] : List Nat).length 2 + 1) =
      (List.range (n_permute_k ([1, 2, 3] : List Nat).length 2)).map
        (ordTuple ([1, 2, 3] : List Nat) 2) :=
  permutations_shard_spec ([1, 2, 3] : List Nat) 2 2 (by decide) (by decide)
    (by decide) (by decide) (by decide) (by decide)

/-! ## C1 groundwork -/

/-- Product of the choice-list sizes from position `i` onward. -/
def suffP {T : Type} (elements : List (List T)) (i : Nat) : Nat :=
  ((elements.drop i).map List.length).prod

theorem suffP_cons {T : Type} (l : List T) (rest : List (List T)) (i : Nat) :
    suffP (l :: rest) (i + 1) = suffP rest i := rfl

theorem odometer_nil {T : Type} [Inhabited T] (c : Combinations T) (pi : Nat)
    (ind : List Nat) (nv : List T) :
    Combinations.odometer c [] pi ind nv = (ind, nv) := rfl

/-- The number of permutable positions at most `i`. -/
def cntLe (pidx : List Nat) (i : Nat) : Nat :=
  (pidx.filter fun p => decide (p ≤ i)).length

/-- The number of permutable positions strictly below `i`. -/
def cntBelow (pidx : List Nat) (i : Nat) : Nat :=
  (pidx.filter fun p => decide (p < i)).length

theorem cntLe_succ_of_mem (pidx : List Nat) (hnd : pidx.Nodup) (i : Nat)
    (hmem : i ∈ pidx) : cntLe pidx i = cntBelow pidx i + 1 := by
  induction pidx with
  | nil => cases hmem
  | cons a rest ih =>
    rw [List.nodup_cons] at hnd
    rw [cntLe, cntBelow, List.filter_cons, List.filter_cons]
    rcases List.mem_cons.mp hmem with rfl | hmem2
    · rw [if_pos (by simp), if_neg (by simp)]
      have hsame : (rest.filter fun p => decide (p ≤ i)) =
          rest.filter fun p => decide (p < i) := by
        apply List.filter_congr
        intro p hp
        have hne : p ≠ i := fun h => hnd.1 (h ▸ hp)
        simp only [decide_eq_decide]
        omega
      rw [List.length_cons, hsame]
    · have hih := ih hnd.2 hmem2
      rw [cntLe, cntBelow] at hih
      by_cases hai : a < i
      · rw [if_pos (by simp; omega), if_pos (by simpa)]
        rw [List.length_cons, List.length_cons, hih]
      · by_cases hae : a = i
        · exact absurd (hae ▸ hmem2) hnd.1
        · rw [if_neg (by simp; omega), if_neg (by simp; omega)]
          exact hih

theorem cntLe_all (pidx : List Nat) (L : Nat) (hall : ∀ p ∈ pidx, p < L) :
    cntLe pidx (L - 1) = pidx.length := by
  rw [cntLe]
  rw [List.filter_eq_self.mpr]
  intro p hp
  have := hall p hp
  simp only [decide_eq_true_eq]
  omega

theorem cntBelow_le_length (pidx : List Nat) (i : Nat) :
    cntBelow pidx i ≤ pidx.length := by
  rw [cntBelow]
  exact List.length_filter_le _ _

theorem cntBelow_lt_of_mem (pidx : List Nat) (hnd : pidx.Nodup) (i : Nat)
    (hmem : i ∈ pidx) : cntBelow pidx i < pidx.length := by
  have h1 := cntLe_succ_of_mem pidx hnd i hmem
  have h2 : cntLe pidx i ≤ pidx.length := by
    rw [cntLe]
    exact List.length_filter_le _ _
  omega

theorem cntBelow_mono (pidx : List Nat) (a b : Nat) (hab : a ≤ b) :
    cntBelow pidx a ≤ cntBelow pidx b := by
  induction pidx with
  | nil => exact le_refl _
  | cons c rest ih =>
    rw [cntBelow, cntBelow, List.filter_cons, List.filter_cons]
    rw [cntBelow, cntBelow] at ih
    by_cases h1 : c < a
    · rw [if_pos (by simp only [decide_eq_true_eq]; omega),
        if_pos (by simp only [decide_eq_true_eq]; omega)]
      rw [List.length_cons, List.length_cons]
      omega
    · rw [if_neg (by simp only [decide_eq_true_eq]; omega)]
      by_cases h2 : c < b
      · rw [if_pos (by simp only [decide_eq_true_eq]; omega)]
        rw [List.length_cons]
        omega
      · rw [if_neg (by simp only [decide_eq_true_eq]; omega)]
        exact ih

theorem cntBelow_strict (pidx : List Nat) (a b : Nat) (hmem : a ∈ pidx)
    (hab : a < b) : cntBelow pidx a < cntBelow pidx b := by
  induction pidx with
  | nil => cases hmem
  | cons c rest ih =>
    rw [cntBelow, cntBelow, List.filter_cons, List.filter_cons]
    rcases List.mem_cons.mp hmem with rfl | hmem2
    · rw [if_neg (by simp only [decide_eq_true_eq]; omega),
        if_pos (by simp only [decide_eq_true_eq]; omega)]
      rw [List.length_cons]
      have := cntBelow_mono rest a b (by omega)
      rw [cntBelow, cntBelow] at this
      omega
    · have hih := ih hmem2
      rw [cntBelow, cntBelow] at hih
      by_cases h1 : c < a
      · rw [if_pos (by simp only [decide_eq_true_eq]; omega),
          if_pos (by simp only [decide_eq_true_eq]; omega)]
        rw [List.length_cons, List.length_cons]
        omega
      · rw [if_neg (by simp only [decide_eq_true_eq]; omega)]
        by_cases h2 : c < b
        · rw [if_pos (by simp only [decide_eq_true_eq]; omega)]
          rw [List.length_cons]
          omega
        · rw [if_neg (by simp only [decide_eq_true_eq]; omega)]
          exact hih

/-- Every rank below the permutable-set size is hit by `cntBelow` at some
permutable position. -/
theorem cntBelow_surj (pidx : List Nat) (hnd : pidx.Nodup) (t : Nat)
    (ht : t < pidx.length) : ∃ i ∈ pidx, cntBelow pidx i = t := by
  have hmapnd : (pidx.map (cntBelow pidx)).Nodup := by
    rw [List.nodup_map_iff_inj_on hnd]
    intro a ha b hb hcnt
    by_contra hne
    rcases Nat.lt_or_ge a b with h | h
    · exact absurd hcnt (Nat.ne_of_lt (cntBelow_strict pidx a b ha h))
    · have h2 : b < a := by omega
      exact absurd hcnt.symm (Nat.ne_of_lt (cntBelow_strict pidx b a hb h2))
  have hsub : ∀ x ∈ pidx.map (cntBelow pidx), x ∈ List.range pidx.length := by
    intro x hx
    rw [List.mem_map] at hx
    obtain ⟨i, hi, rfl⟩ := hx
    rw [List.mem_range]
    exact cntBelow_lt_of_mem pidx hnd i hi
  have hperm : (pidx.map (cntBelow pidx)).Perm (List.range pidx.length) := by
    apply List.Subperm.perm_of_length_le
    · exact List.subperm_of_subset hmapnd hsub
    · rw [List.length_map, List.length_range]
  have hmem : t ∈ pidx.map (cntBelow pidx) := by
    rw [hperm.mem_iff, List.mem_range]
    exact ht
  rw [List.mem_map] at hmem
  obtain ⟨i, hi, hcnt⟩ := hmem
  exact ⟨i, hi, hcnt⟩

/-- The position that tuple slot `i` draws from: a permutable slot reads the
current permutation at its rank among the permutable positions (this is how
`next_index_rev`'s right-to-left cursor resolves), any other slot reads
itself. -/
def resolveIdx (pidx π : List Nat) (i : Nat) : Nat :=
  if pidx.contains i then π.getD (cntBelow pidx i) 0 else i

theorem resolveIdx_of_mem (pidx π : List Nat) (i : Nat) (h : i ∈ pidx) :
    resolveIdx pidx π i = π.getD (cntBelow pidx i) 0 := by
  rw [resolveIdx, if_pos (by simpa [List.elem_iff] using h)]

theorem resolveIdx_of_not_mem (pidx π : List Nat) (i : Nat) (h : ¬ i ∈ pidx) :
    resolveIdx pidx π i = i := by
  rw [resolveIdx, if_neg (by simpa [List.elem_iff] using h)]

theorem resolveIdx_surj (pidx π : List Nat) (hnd : pidx.Nodup)
    (hπn : π.Nodup) (hπl : π.length = pidx.length) (hπm : ∀ x ∈ π, x ∈ pidx)
    (L : Nat) (hall : ∀ p ∈ pidx, p < L) (q : Nat) (hq : q < L) :
    ∃ i, i < L ∧ resolveIdx pidx π i = q := by
  by_cases hqp : q ∈ pidx
  · have hqπ : q ∈ π := by
      have hperm : π.Perm pidx := by
        apply List.Subperm.perm_of_length_le
        · exact List.subperm_of_subset hπn hπm
        · omega
      rw [hperm.mem_iff]
      exact hqp
    obtain ⟨t, ht, hget⟩ := List.mem_iff_getElem.mp hqπ
    obtain ⟨i, hi, hcnt⟩ := cntBelow_surj pidx hnd t (by omega)
    refine ⟨i, hall i hi, ?_⟩
    rw [resolveIdx_of_mem pidx π i hi, hcnt, List.getD_eq_getElem π 0 ht, hget]
  · exact ⟨q, hq, resolveIdx_of_not_mem pidx π q hqp⟩

end Seedcat
